import Mathlib

/-! # KVStorageEngine: log store, sharded LRU cache and engine façade

Shallow embedding of `src/src/file_store.cpp`, `src/src/cache.cpp` and
`src/src/engine.cpp`, followed by the properties of the specification that are
settled on it.

Conventions of the embedding.

* A `std::string` is a list of bytes.
* A `std::unordered_map<int, V>` is an association list (`UMap V`); the order in
  which the C++ code iterates over the map is the order of the list.  No theorem
  below depends on a particular order: all of them hold for every index that
  satisfies the stated invariant.
* `size_t` quantities (offsets, sizes, counters) are natural numbers; wrap-around
  at `2^64` would need a data file of 16 EiB and is not modelled.  The two places
  where the width of the word matters are modelled modulo `2^64`: the conversion
  in `std::hash<int>` and the task counter of the worker pool, which the source
  can decrement at 0.
* The data file behind `file_` is its byte content plus the sticky error state
  of the stream (`file_good`).  What the operating system does to a call is an
  explicit argument (`IoEnv`); `IoEnv.ok` is the run without device errors.
* Locks are not modelled: every operation of the source holds its lock for the
  whole call, so sequential calls are atomic steps on the state.
* The compaction thread of the log store calls `garbageCollect` under the same
  locks as every other caller, so its periodic compactions are `garbageCollect`
  steps of a trace.  The compaction it still runs while the destructor waits for
  it is part of the destructor (`FileStore.dtor`, argument `gc_pending`).
-/

namespace KVStorageEngine

/-! ## Bytes and files -/

abbrev Byte := Fin 256

abbrev Bytes := List Byte

/-- The bytes that `seekg(pos); read(buf, n)` can deliver: at most `n` bytes
starting at `pos`; fewer when the file ends before `pos + n`. -/
def readAt (data : Bytes) (pos n : Nat) : Bytes :=
  (data.drop pos).take n

/-- File content after `seekp(pos); write(v); flush()`: the bytes of `v` replace
what was at `pos`; a gap between the old end of file and `pos` reads as zeros. -/
def writeAt (data : Bytes) (pos : Nat) (v : Bytes) : Bytes :=
  data.take pos ++ List.replicate (pos - data.length) 0 ++ v ++ data.drop (pos + v.length)

/-- What the device does to the stream calls of one operation. -/
structure IoEnv where
  /-- the call `file_.write` leaves the stream without error -/
  write_ok : Bool
  /-- the call `file_.flush` succeeds -/
  flush_ok : Bool
  /-- the call `file_.read` is not cut short by a device error -/
  read_ok : Bool
  /-- the temporary file of the compaction can be created -/
  tmp_ok : Bool
deriving DecidableEq, Repr

/-- The environment without device errors. -/
def IoEnv.ok : IoEnv :=
  { write_ok := true, flush_ok := true, read_ok := true, tmp_ok := true }

/-! ## `std::unordered_map<int, V>` -/

abbrev UMap (V : Type) := List (Int × V)

/-- The call `m.find(key)`; `none` is `m.end()`. -/
def UMap.find {V : Type} : UMap V → Int → Option V
  | [], _ => none
  | (k, x) :: rest, key => if k = key then some x else UMap.find rest key

/-- The assignment `m[key] = v`: replaces the mapped value of an existing key,
inserts the key otherwise. -/
def UMap.assign {V : Type} : UMap V → Int → V → UMap V
  | [], key, v => [(key, v)]
  | (k, x) :: rest, key, v =>
    if k = key then (k, v) :: rest else (k, x) :: UMap.assign rest key v

/-- The call `m.erase(key)`. -/
def UMap.erase {V : Type} (m : UMap V) (key : Int) : UMap V :=
  m.filter (fun e => !decide (e.1 = key))

/-! ## Log store (`file_store.h`, `file_store.cpp`) -/

/-- Index record `struct ObjectMeta`. -/
structure ObjectMeta where
  key : Int
  offset : Nat
  size : Nat
  deleted : Bool
deriving DecidableEq, Repr

/-- State of a `FileStore` object: the data file behind `file_` and the
members `index_`, `file_size_` and `read_count_`. -/
structure FileStore where
  /-- content of the data file -/
  file_data : Bytes
  /-- the stream `file_` has no error bit set (`!file_` is false) -/
  file_good : Bool
  index_ : UMap ObjectMeta
  file_size_ : Nat
  read_count_ : Nat
deriving DecidableEq, Repr

/-- The files of one store on disk: the data file and the snapshot
`<path>.idx`, which holds a count followed by that many records. -/
structure Disk where
  data_file : Option Bytes
  index_file : Option (Nat × List ObjectMeta)
deriving DecidableEq, Repr

/-- A directory without data file and snapshot. -/
def Disk.empty : Disk := { data_file := none, index_file := none }

namespace FileStore

/-- Member `getReadCount`. -/
def getReadCount (s : FileStore) : Nat := s.read_count_

/-- Member `put`.  A write on a stream that already carries an error bit
fails like a write the device rejects.  The result of `flush` is not looked at
by the source. -/
def put (s : FileStore) (key : Int) (value : Bytes) (io : IoEnv) : Bool × FileStore :=
  let offset := s.file_size_
  if s.file_good && io.write_ok then
    let s1 : FileStore :=
      if io.flush_ok then { s with file_data := writeAt s.file_data s.file_size_ value }
      else { s with file_good := false }
    (true, { s1 with
      file_size_ := s.file_size_ + value.length
      index_ := UMap.assign s.index_ key
        { key := key, offset := offset, size := value.length, deleted := false } })
  else
    (false, { s with file_good := false })

/-- Member `get`.  The read fails when the stream carries an error bit, when
the device reports an error, or when the file holds fewer than `size` bytes from
`offset` on. -/
def get (s : FileStore) (key : Int) (io : IoEnv) : Bytes × FileStore :=
  match UMap.find s.index_ key with
  | none => ([], s)
  | some m =>
    if m.deleted then ([], s)
    else
      let value := readAt s.file_data m.offset m.size
      if s.file_good && io.read_ok && value.length == m.size then
        (value, { s with read_count_ := s.read_count_ + 1 })
      else
        ([], { s with file_good := false })

/-- Member `del`. -/
def del (s : FileStore) (key : Int) : Bool × FileStore :=
  match UMap.find s.index_ key with
  | none => (false, s)
  | some m =>
    if m.deleted then (false, s)
    else (true, { s with index_ := UMap.assign s.index_ key { m with deleted := true } })

/-- Loop state of `compactFile`. -/
structure CompactAcc where
  /-- the old stream `file_` is still without error -/
  good : Bool
  /-- bytes written to `<path>.tmp` so far -/
  temp_file : Bytes
  new_index : UMap ObjectMeta
  new_offset : Nat
deriving DecidableEq, Repr

/-- One iteration of the loop of `compactFile`.  `data` is the buffer resized
to `meta.size` (zero-filled) into which the unchecked read stores what it gets. -/
def compactStep (file_data : Bytes) (acc : CompactAcc) (m : ObjectMeta) : CompactAcc :=
  let got : Bytes := if acc.good then readAt file_data m.offset m.size else []
  let data : Bytes := got ++ List.replicate (m.size - got.length) 0
  { good := acc.good && got.length == m.size
    temp_file := acc.temp_file ++ data
    new_index := UMap.assign acc.new_index m.key { m with offset := acc.new_offset }
    new_offset := acc.new_offset + data.length }

/-- Member `compactFile`.  Renaming the temporary file over the data file and
reopening `file_` are taken to succeed; reopening clears the error state. -/
def compactFile (s : FileStore) (live_objects : List ObjectMeta) (io : IoEnv) : FileStore :=
  if io.tmp_ok then
    let acc := live_objects.foldl (compactStep s.file_data)
      { good := s.file_good, temp_file := [], new_index := [], new_offset := 0 }
    { s with
      file_data := acc.temp_file
      file_good := true
      index_ := acc.new_index
      file_size_ := acc.new_offset }
  else s

/-- The vector `live_objects` that `garbageCollect` collects from the index. -/
def liveObjects (s : FileStore) : List ObjectMeta :=
  (s.index_.map Prod.snd).filter (fun m => !m.deleted)

/-- Member `garbageCollect`. -/
def garbageCollect (s : FileStore) (io : IoEnv) : FileStore :=
  s.compactFile s.liveObjects io

/-- The recomputation of `file_size_` at the end of `loadIndex`. -/
def maxEnd (idx : UMap ObjectMeta) : Nat :=
  idx.foldl (fun fsz e => if e.2.offset + e.2.size > fsz then e.2.offset + e.2.size else fsz) 0

/-- Member `loadIndex`.  A snapshot that holds fewer records than its count
announces is read as far as it goes. -/
def loadIndex (s : FileStore) (d : Disk) : FileStore :=
  match d.index_file with
  | none => s
  | some (index_size, records) =>
    let idx := (records.take index_size).foldl (fun acc m => UMap.assign acc m.key m) s.index_
    { s with index_ := idx, file_size_ := maxEnd idx }

/-- Member `saveIndex`: the content of the snapshot file. -/
def saveIndex (s : FileStore) : Nat × List ObjectMeta :=
  (s.index_.length, s.index_.map Prod.snd)

/-- Constructor `FileStore(file_path, clean_start)` on the files `d`. -/
def ctor (d : Disk) (clean_start : Bool) : FileStore :=
  let d1 : Disk := if clean_start then Disk.empty else d
  let data : Bytes := match d1.data_file with
    | some b => b
    | none => []
  loadIndex
    { file_data := data, file_good := true, index_ := [], file_size_ := 0, read_count_ := 0 } d1

/-- The end of the destructor: `file_` is closed and `saveIndex` writes the
snapshot of the index as it is then. -/
def closeFiles (s : FileStore) : Disk :=
  { data_file := some s.file_data, index_file := some s.saveIndex }

/-- Destructor `~FileStore`: the files it leaves behind.  It sets
`stop_gc_thread_` and joins the thread of `startGCThread`, whose loop is
`while (!stop_gc_thread_) { sleep_for(2h); garbageCollect(); }`.  A thread that
has passed the loop test when the flag is set (`gc_pending`; it is asleep then,
as a rule) still runs `garbageCollect` once before it tests the flag again and
ends; only a thread that had not yet made its first test ends without
compacting.  After the join the destructor closes `file_` and calls
`saveIndex`. -/
def dtor (s : FileStore) (gc_pending : Bool) (io : IoEnv) : Disk :=
  (if gc_pending then s.garbageCollect io else s).closeFiles

end FileStore

/-- One sequential call on a log store; `restart` destroys the object and
constructs a new one on the same path with `clean_start = false`;
`gc_pending` tells whether the compaction thread runs `garbageCollect` once
more while the destructor waits for it. -/
inductive FileOp where
  | put (key : Int) (value : Bytes)
  | get (key : Int)
  | del (key : Int)
  | garbageCollect
  | restart (gc_pending : Bool)
deriving DecidableEq, Repr

/-- State after one call, without device errors. -/
def FileStore.apply (s : FileStore) : FileOp → FileStore
  | .put key value => (s.put key value IoEnv.ok).2
  | .get key => (s.get key IoEnv.ok).2
  | .del key => (s.del key).2
  | .garbageCollect => s.garbageCollect IoEnv.ok
  | .restart gc_pending => FileStore.ctor (s.dtor gc_pending IoEnv.ok) false

/-- The store reached from a fresh one (no files on disk) by a sequence of
calls. -/
def FileStore.run (ops : List FileOp) : FileStore :=
  ops.foldl FileStore.apply (FileStore.ctor Disk.empty false)

/-- Value of the most recent `put` of `key` in a sequence of calls. -/
def lastPutValue (ops : List FileOp) (key : Int) : Option Bytes :=
  ops.foldl (fun acc op =>
    match op with
    | .put k v => if k = key then some v else acc
    | _ => acc) none

/-! ## Sharded LRU cache (`cache.h`, `cache.cpp`) -/

/-- A node of `cache_list_`.  `handle` is the identity of the node, which is
what a `std::list` iterator stored in `cache_map_` designates; it stays with the
node when the node is spliced to another position. -/
structure CacheNode where
  handle : Nat
  key : Int
  value : Bytes
deriving DecidableEq, Repr

/-- State of an `LRUCacheSegment`: `capacity_`, the recency list (most recently
used first) and the map from key to list iterator.  `fresh` is the identity the
next allocated list node gets. -/
structure LRUCacheSegment where
  capacity_ : Nat
  cache_list_ : List CacheNode
  cache_map_ : UMap Nat
  fresh : Nat
deriving DecidableEq, Repr

/-- The node an iterator designates, if the list still has it. -/
def nodeAt (l : List CacheNode) (it : Nat) : Option CacheNode :=
  l.find? (fun n => n.handle == it)

/-- The call `l.erase(it)`. -/
def eraseAt (l : List CacheNode) (it : Nat) : List CacheNode :=
  l.eraseP (fun n => n.handle == it)

/-- The call `l.splice(l.begin(), l, it)`: the designated node moves to the
front, the others keep their order. -/
def spliceFront (l : List CacheNode) (it : Nat) : List CacheNode :=
  match nodeAt l it with
  | some n => n :: eraseAt l it
  | none => l

/-- The assignment `it->second = value`. -/
def setValueAt (l : List CacheNode) (it : Nat) (value : Bytes) : List CacheNode :=
  l.map (fun n => if n.handle = it then { n with value := value } else n)

namespace LRUCacheSegment

/-- Constructor `LRUCacheSegment(capacity)`. -/
def ctor (capacity : Nat) : LRUCacheSegment :=
  { capacity_ := capacity, cache_list_ := [], cache_map_ := [], fresh := 0 }

/-- Member `get`: `some value` stands for the result `true` with the
out-parameter set, `none` for `false`.  An iterator that designates no node of
the list cannot occur in a reachable shard; the embedding answers `none` there. -/
def get (s : LRUCacheSegment) (key : Int) : Option Bytes × LRUCacheSegment :=
  match UMap.find s.cache_map_ key with
  | none => (none, s)
  | some it =>
    let l := spliceFront s.cache_list_ it
    match nodeAt l it with
    | some n => (some n.value, { s with cache_list_ := l })
    | none => (none, { s with cache_list_ := l })

/-- The eviction branch of `put`: drop the map entry of the key of `back()`,
then `pop_back()`.  On an empty list (possible only with `capacity_ = 0`) the
source calls `back()` on an empty list; the embedding leaves the shard as it is. -/
def evictIfFull (s : LRUCacheSegment) : LRUCacheSegment :=
  if s.cache_list_.length ≥ s.capacity_ then
    match s.cache_list_.getLast? with
    | some last =>
      { s with
        cache_map_ := UMap.erase s.cache_map_ last.key
        cache_list_ := s.cache_list_.dropLast }
    | none => s
  else s

/-- Member `put`. -/
def put (s : LRUCacheSegment) (key : Int) (value : Bytes) : LRUCacheSegment :=
  match UMap.find s.cache_map_ key with
  | some it =>
    { s with cache_list_ := spliceFront (setValueAt s.cache_list_ it value) it }
  | none =>
    let s1 := s.evictIfFull
    { s1 with
      cache_list_ := { handle := s1.fresh, key := key, value := value } :: s1.cache_list_
      cache_map_ := UMap.assign s1.cache_map_ key s1.fresh
      fresh := s1.fresh + 1 }

/-- Member `remove`. -/
def remove (s : LRUCacheSegment) (key : Int) : LRUCacheSegment :=
  match UMap.find s.cache_map_ key with
  | some it =>
    { s with
      cache_list_ := eraseAt s.cache_list_ it
      cache_map_ := UMap.erase s.cache_map_ key }
  | none => s

end LRUCacheSegment

/-- State of an `LRUCache`: `num_segments_` and the vector `segments_`. -/
structure LRUCache where
  num_segments_ : Nat
  segments_ : List LRUCacheSegment
deriving DecidableEq, Repr

/-- The hash `std::hash<int>`: the key converted to a 64-bit unsigned word. -/
def hashInt (key : Int) : Nat := (key % 2 ^ 64).toNat

namespace LRUCache

/-- The capacity the constructor gives every segment. -/
def segmentCapacity (capacity num_segments : Nat) : Nat :=
  if capacity / num_segments = 0 then 1 else capacity / num_segments

/-- Constructor `LRUCache(capacity, num_segments)`. -/
def ctor (capacity num_segments : Nat) : LRUCache :=
  { num_segments_ := num_segments
    segments_ := List.replicate num_segments
      (LRUCacheSegment.ctor (segmentCapacity capacity num_segments)) }

/-- Member `getSegmentIndex`. -/
def getSegmentIndex (c : LRUCache) (key : Int) : Nat :=
  hashInt key % c.num_segments_

/-- Member `get`.  An index outside `segments_` cannot occur when the cache
has at least one segment; the embedding answers `none` there. -/
def get (c : LRUCache) (key : Int) : Option Bytes × LRUCache :=
  let index := c.getSegmentIndex key
  match c.segments_[index]? with
  | some seg => ((seg.get key).1, { c with segments_ := c.segments_.set index (seg.get key).2 })
  | none => (none, c)

/-- Member `put`. -/
def put (c : LRUCache) (key : Int) (value : Bytes) : LRUCache :=
  let index := c.getSegmentIndex key
  match c.segments_[index]? with
  | some seg => { c with segments_ := c.segments_.set index (seg.put key value) }
  | none => c

/-- Member `remove`. -/
def remove (c : LRUCache) (key : Int) : LRUCache :=
  let index := c.getSegmentIndex key
  match c.segments_[index]? with
  | some seg => { c with segments_ := c.segments_.set index (seg.remove key) }
  | none => c

end LRUCache

/-! ## Engine façade (`engine.h`, `engine.cpp`), synchronous calls -/

/-- State of a `StorageEngine` as far as the synchronous calls see it. -/
structure StorageEngine where
  stopped_ : Bool
  file_store_ : FileStore
  cache_ : LRUCache
deriving DecidableEq, Repr

namespace StorageEngine

/-- Constructor on the files `d`; the log store is opened with
`clean_start = false`. -/
def ctor (d : Disk) (cache_capacity cache_num_segments : Nat) : StorageEngine :=
  { stopped_ := false
    file_store_ := FileStore.ctor d false
    cache_ := LRUCache.ctor cache_capacity cache_num_segments }

/-- Member `put`. -/
def put (e : StorageEngine) (key : Int) (value : Bytes) (io : IoEnv) : Bool × StorageEngine :=
  let r := e.file_store_.put key value io
  if r.1 then (true, { e with file_store_ := r.2, cache_ := e.cache_.put key value })
  else (false, { e with file_store_ := r.2 })

/-- Member `get`. -/
def get (e : StorageEngine) (key : Int) (io : IoEnv) : Bytes × StorageEngine :=
  match e.cache_.get key with
  | (some value, c) => (value, { e with cache_ := c })
  | (none, c) =>
    let r := e.file_store_.get key io
    if r.1 ≠ [] then (r.1, { e with file_store_ := r.2, cache_ := c.put key r.1 })
    else (r.1, { e with file_store_ := r.2, cache_ := c })

/-- Member `del`. -/
def del (e : StorageEngine) (key : Int) : Bool × StorageEngine :=
  let c := e.cache_.remove key
  let r := e.file_store_.del key
  (r.1, { e with file_store_ := r.2, cache_ := c })

/-- Member `getFileStoreReadCount`. -/
def getFileStoreReadCount (e : StorageEngine) : Nat := e.file_store_.getReadCount

/-- Member `garbageCollect`. -/
def garbageCollect (e : StorageEngine) (io : IoEnv) : StorageEngine :=
  { e with file_store_ := e.file_store_.garbageCollect io }

end StorageEngine

/-- One sequential call on an engine; `restart` destroys the engine, and with
it the log store, and constructs a new one on the same path with the same cache
parameters; `gc_pending` is the argument of the destructor of the log store. -/
inductive EngineOp where
  | put (key : Int) (value : Bytes)
  | get (key : Int)
  | del (key : Int)
  | garbageCollect
  | restart (gc_pending : Bool)
deriving DecidableEq, Repr

/-- State after one call, without device errors, of an engine constructed
with cache capacity `N` and `S` segments. -/
def StorageEngine.apply (N S : Nat) (e : StorageEngine) : EngineOp → StorageEngine
  | .put key value => (e.put key value IoEnv.ok).2
  | .get key => (e.get key IoEnv.ok).2
  | .del key => (e.del key).2
  | .garbageCollect => e.garbageCollect IoEnv.ok
  | .restart gc_pending => StorageEngine.ctor (e.file_store_.dtor gc_pending IoEnv.ok) N S

/-- The engine reached from a fresh one (no files on disk) by a sequence of
calls. -/
def StorageEngine.run (N S : Nat) (ops : List EngineOp) : StorageEngine :=
  ops.foldl (StorageEngine.apply N S) (StorageEngine.ctor Disk.empty N S)

/-- One call on a single shard. -/
inductive SegOp where
  | put (key : Int) (value : Bytes)
  | get (key : Int)
  | remove (key : Int)
deriving DecidableEq, Repr

/-- A shard together with a clock that counts the calls made so far and, for
every key, the time of its most recent touch: a `put` of the key or a `get` of
the key that hit (0 when the key was never touched). -/
structure TracedSegment where
  seg : LRUCacheSegment
  clock : Nat
  last_touch : Int → Nat

/-- One call on a shard, with the bookkeeping of touches. -/
def TracedSegment.step (t : TracedSegment) : SegOp → TracedSegment
  | .put key value =>
    { seg := t.seg.put key value
      clock := t.clock + 1
      last_touch := fun k => if k = key then t.clock + 1 else t.last_touch k }
  | .get key =>
    { seg := (t.seg.get key).2
      clock := t.clock + 1
      last_touch := fun k =>
        if k = key ∧ (t.seg.get key).1.isSome then t.clock + 1 else t.last_touch k }
  | .remove key =>
    { seg := t.seg.remove key
      clock := t.clock + 1
      last_touch := t.last_touch }

/-- The shard of capacity `C` reached from the empty one by a sequence of
calls. -/
def TracedSegment.run (C : Nat) (ops : List SegOp) : TracedSegment :=
  ops.foldl TracedSegment.step
    { seg := LRUCacheSegment.ctor C, clock := 0, last_touch := fun _ => 0 }

/-! ## Invariants and auxiliary definitions -/

/-- Invariant of the log store: the stream is without error, `file_size_` is
the length of the data file, the index has one record per key, every record
carries its own key and lies inside the file, and `file_size_` is the largest
end of a record (0 for an empty index). -/
structure FileStore.Inv (s : FileStore) : Prop where
  good : s.file_good = true
  size_eq : s.file_size_ = s.file_data.length
  keys_nodup : (s.index_.map Prod.fst).Nodup
  key_eq : ∀ e ∈ s.index_, e.2.key = e.1
  in_range : ∀ e ∈ s.index_, e.2.offset + e.2.size ≤ s.file_size_
  max_end : FileStore.maxEnd s.index_ = s.file_size_

/-- Every live record holds the value of the most recent `put` of its key. -/
def FileStore.Sound (ops : List FileOp) (s : FileStore) : Prop :=
  ∀ e ∈ s.index_, e.2.deleted = false →
    ∃ v, lastPutValue ops e.1 = some v ∧ e.2.size = v.length ∧
      readAt s.file_data e.2.offset e.2.size = v

/-- The records the loop of `compactFile` writes for `live`, the first one at
offset `off`. -/
def FileStore.layout : Nat → List ObjectMeta → UMap ObjectMeta
  | _, [] => []
  | off, m :: rest => (m.key, { m with offset := off }) :: FileStore.layout (off + m.size) rest

/-- The bytes the loop of `compactFile` copies for `live`. -/
def FileStore.payload (data : Bytes) : List ObjectMeta → Bytes
  | [] => []
  | m :: rest => readAt data m.offset m.size ++ FileStore.payload data rest

/-- The nodes of a list whose key is not `k`, in their order. -/
def withoutKey (l : List CacheNode) (k : Int) : List CacheNode :=
  l.filter (fun n => !decide (n.key = k))

/-- Representation invariant of a shard: no two list nodes share an identity
or a key, the map has one entry per key, the map sends a key to an iterator
exactly when that iterator designates a list node with this key, and the
identities in use are below the next fresh one. -/
structure LRUCacheSegment.WF (s : LRUCacheSegment) : Prop where
  handles_nodup : (s.cache_list_.map CacheNode.handle).Nodup
  keys_nodup : (s.cache_list_.map CacheNode.key).Nodup
  map_keys_nodup : (s.cache_map_.map Prod.fst).Nodup
  map_iff : ∀ k h, UMap.find s.cache_map_ k = some h ↔
    ∃ n ∈ s.cache_list_, n.key = k ∧ n.handle = h
  fresh_gt : ∀ n ∈ s.cache_list_, n.handle < s.fresh

/-- Invariant of the cache: there are `num_segments_` shards, every shard
satisfies its representation invariant, and every node is in the shard its key
is routed to. -/
structure LRUCache.WF (c : LRUCache) : Prop where
  len : c.segments_.length = c.num_segments_
  seg_wf : ∀ (j : Nat) (seg : LRUCacheSegment), c.segments_[j]? = some seg → seg.WF
  routed : ∀ (j : Nat) (seg : LRUCacheSegment), c.segments_[j]? = some seg →
    ∀ n ∈ seg.cache_list_, c.getSegmentIndex n.key = j

/-- The cache holds the node `n` in one of its shards. -/
def LRUCache.HasNode (c : LRUCache) (n : CacheNode) : Prop :=
  ∃ seg ∈ c.segments_, n ∈ seg.cache_list_

/-- The log store has a live record for the key of the node, and the bytes of
that record in the data file are the value of the node. -/
def FileStore.Backs (fs : FileStore) (n : CacheNode) : Prop :=
  ∃ m, UMap.find fs.index_ n.key = some m ∧ m.deleted = false ∧
    readAt fs.file_data m.offset m.size = n.value

/-- Invariant of the engine: the log store and the cache satisfy theirs, and
every node of the cache is backed by the log store. -/
structure StorageEngine.Inv (e : StorageEngine) : Prop where
  store : e.file_store_.Inv
  cache : e.cache_.WF
  backed : ∀ n, e.cache_.HasNode n → e.file_store_.Backs n

/-- Invariant of a shard with its touch times: the representation invariant,
the capacity is the one the shard was constructed with, no node was touched
after the current time, and the list is ordered by strictly decreasing time of
the most recent touch. -/
structure TracedSegment.Inv (C : Nat) (t : TracedSegment) : Prop where
  wf : t.seg.WF
  cap : t.seg.capacity_ = C
  touched : ∀ n ∈ t.seg.cache_list_, t.last_touch n.key ≤ t.clock
  sorted : t.seg.cache_list_.Pairwise (fun a b => t.last_touch b.key < t.last_touch a.key)

/-! ## Files left by the constructor of the log store -/

/-- The files on disk once `FileStore(file_path, clean_start)` has run on the
files `d`: with `clean_start` the data file and the snapshot are removed first;
then an empty data file is created if there is none. -/
def FileStore.ctorFiles (d : Disk) (clean_start : Bool) : Disk :=
  let d1 : Disk := if clean_start then Disk.empty else d
  { data_file := some (match d1.data_file with
      | some b => b
      | none => [])
    index_file := d1.index_file }

/-! ## Sequences of calls on the cache -/

/-- One call on the sharded cache. -/
inductive CacheOp where
  | put (key : Int) (value : Bytes)
  | get (key : Int)
  | remove (key : Int)
deriving DecidableEq, Repr

/-- State of the cache after one call. -/
def LRUCache.apply (c : LRUCache) : CacheOp → LRUCache
  | .put key value => c.put key value
  | .get key => (c.get key).2
  | .remove key => c.remove key

/-- The cache built with total capacity `N` and `S` shards, after a sequence
of calls. -/
def LRUCache.run (N S : Nat) (ops : List CacheOp) : LRUCache :=
  ops.foldl LRUCache.apply (LRUCache.ctor N S)

/-- Every shard has the capacity the constructor computes from `N` and `S` and
holds at most that many entries. -/
def LRUCache.Bounded (N S : Nat) (c : LRUCache) : Prop :=
  ∀ seg ∈ c.segments_,
    seg.capacity_ = LRUCache.segmentCapacity N S ∧ seg.cache_list_.length ≤ seg.capacity_

/-! ## Worker pool (`thread_pool.h`, `thread_pool.cpp`)

The pool is a transition system whose steps are the critical sections of the
source, each of which runs under `mutex_` or under `tasks_done_mutex_`.  A call
of `submit` is two steps, because it releases `mutex_` before it calls
`incrementTasksCount`.  Running a dequeued task and the `decrementTasksCount`
that follows it are one step.  Tasks are values of a type `T`. -/

/-- State of a `ThreadPool`: the members `tasks_` (front first), `stop_` and
`active_tasks_count_`, and where the threads stand. -/
structure ThreadPool (T : Type) where
  tasks_ : List T
  stop_ : Bool
  active_tasks_count_ : Nat
  /-- calls of `submit` that have pushed their task and not yet run
  `incrementTasksCount` -/
  uncounted : Nat
  /-- tasks a worker has dequeued and not yet finished -/
  running : List T
  /-- tasks that ran to completion, oldest first -/
  completed : List T
  /-- worker threads that have not returned from `worker` -/
  workers : Nat
deriving DecidableEq, Repr

/-- The critical sections of the pool. -/
inductive PoolStep (T : Type) where
  /-- first part of `submit`: push under `mutex_` -/
  | submitPush (task : T)
  /-- second part of `submit`: `incrementTasksCount` -/
  | submitCount
  /-- a worker passes its wait with a non-empty queue and pops the front task -/
  | dequeue
  /-- a dequeued task returns and its worker runs `decrementTasksCount` -/
  | finish (task : T)
  /-- a worker passes its wait with `stop_ && tasks_.empty()` and returns -/
  | workerReturn
  /-- the destructor sets `stop_` under `mutex_` -/
  | setStop
deriving DecidableEq, Repr

namespace ThreadPool

/-- Constructor `ThreadPool(thread_count)`. -/
def ctor (T : Type) (thread_count : Nat) : ThreadPool T :=
  { tasks_ := [], stop_ := false, active_tasks_count_ := 0, uncounted := 0, running := [],
    completed := [], workers := thread_count }

/-- Member `incrementTasksCount` on the `size_t` counter. -/
def incrementTasksCount {T : Type} (p : ThreadPool T) : ThreadPool T :=
  { p with active_tasks_count_ := (p.active_tasks_count_ + 1) % 2 ^ 64 }

/-- Member `decrementTasksCount` (`--active_tasks_count_`) on the `size_t`
counter: from 0 the counter wraps to `2^64 - 1`. -/
def decrementTasksCount {T : Type} (p : ThreadPool T) : ThreadPool T :=
  { p with active_tasks_count_ :=
      if p.active_tasks_count_ = 0 then 2 ^ 64 - 1 else p.active_tasks_count_ - 1 }

/-- The predicate `waitAllTasks` waits for: the call can return exactly when
the counter is 0. -/
def waitAllTasksReturns {T : Type} (p : ThreadPool T) : Bool :=
  p.active_tasks_count_ == 0

/-- One critical section; `none` when the step cannot be taken in `p`.  In
`worker`, after the wait for `stop_ || !tasks_.empty()`, the thread returns only
if `stop_ && tasks_.empty()`; in every other case it pops the front task. -/
def step {T : Type} [DecidableEq T] (p : ThreadPool T) : PoolStep T → Option (ThreadPool T)
  | .submitPush task =>
    some { p with tasks_ := p.tasks_ ++ [task], uncounted := p.uncounted + 1 }
  | .submitCount =>
    if 0 < p.uncounted then some { p.incrementTasksCount with uncounted := p.uncounted - 1 }
    else none
  | .dequeue =>
    if p.running.length < p.workers then
      match p.tasks_ with
      | [] => none
      | task :: rest => some { p with tasks_ := rest, running := task :: p.running }
    else none
  | .finish task =>
    if task ∈ p.running then
      some { p.decrementTasksCount with
        running := p.running.erase task
        completed := p.completed ++ [task] }
    else none
  | .workerReturn =>
    if p.running.length < p.workers ∧ p.stop_ = true ∧ p.tasks_ = [] then
      some { p with workers := p.workers - 1 }
    else none
  | .setStop => some { p with stop_ := true }

/-- A schedule: the steps taken one after the other; `none` when one of them
cannot be taken. -/
def exec {T : Type} [DecidableEq T] (p : ThreadPool T) : List (PoolStep T) → Option (ThreadPool T)
  | [] => some p
  | st :: rest =>
    match p.step st with
    | some p1 => exec p1 rest
    | none => none

/-- A whole call of `submit` that no other thread interleaves with. -/
def submit {T : Type} (p : ThreadPool T) (task : T) : ThreadPool T :=
  { p.incrementTasksCount with tasks_ := p.tasks_ ++ [task] }

/-- The schedule in which one worker takes and finishes the given tasks one
after the other. -/
def drainSchedule {T : Type} : List T → List (PoolStep T)
  | [] => []
  | task :: rest => PoolStep.dequeue :: PoolStep.finish task :: drainSchedule rest

/-- Number of tasks that were pushed and have not finished: queued or
running. -/
def unfinished {T : Type} (p : ThreadPool T) : Nat :=
  p.tasks_.length + p.running.length

end ThreadPool

/-! ## Asynchronous calls of the engine (`engine.cpp`) -/

/-- The closures the asynchronous calls submit.  A callback is `none` for an
empty `std::function` and `some c` for a callable named `c`. -/
inductive EngineTask where
  | put (key : Int) (value : Bytes) (callback : Option Nat)
  | get (key : Int) (callback : Option Nat)
  | del (key : Int) (callback : Option Nat)
deriving DecidableEq, Repr

/-- An invocation of a user callback with its argument. -/
inductive CallbackEvent where
  | boolResult (callback : Nat) (success : Bool)
  | stringResult (callback : Nat) (value : Bytes)
deriving DecidableEq, Repr

/-- The guarded invocation `if (callback) callback(success)`. -/
def invokeBool (callback : Option Nat) (success : Bool) : List CallbackEvent :=
  match callback with
  | some c => [CallbackEvent.boolResult c success]
  | none => []

/-- The guarded invocation `if (callback) callback(value)`. -/
def invokeString (callback : Option Nat) (value : Bytes) : List CallbackEvent :=
  match callback with
  | some c => [CallbackEvent.stringResult c value]
  | none => []

/-- Body of a submitted closure: the synchronous call, then the callback. -/
def EngineTask.perform (e : StorageEngine) (io : IoEnv) :
    EngineTask → StorageEngine × List CallbackEvent
  | .put key value callback =>
    ((e.put key value io).2, invokeBool callback (e.put key value io).1)
  | .get key callback =>
    ((e.get key io).2, invokeString callback (e.get key io).1)
  | .del key callback =>
    ((e.del key).2, invokeBool callback (e.del key).1)

/-- Member `stop`. -/
def StorageEngine.stop (e : StorageEngine) : StorageEngine :=
  { e with stopped_ := true }

/-- A `StorageEngine` with its member `thread_pool_` and the callback
invocations made so far, oldest first. -/
structure AsyncEngine where
  engine : StorageEngine
  thread_pool_ : ThreadPool EngineTask
  invoked : List CallbackEvent
deriving DecidableEq, Repr

namespace AsyncEngine

/-- Constructor of `StorageEngine` with all its members. -/
def ctor (d : Disk) (thread_pool_size cache_capacity cache_num_segments : Nat) : AsyncEngine :=
  { engine := StorageEngine.ctor d cache_capacity cache_num_segments
    thread_pool_ := ThreadPool.ctor EngineTask thread_pool_size
    invoked := [] }

/-- Member `stop`. -/
def stop (a : AsyncEngine) : AsyncEngine :=
  { a with engine := a.engine.stop }

/-- Member `asyncPut`. -/
def asyncPut (a : AsyncEngine) (key : Int) (value : Bytes) (callback : Option Nat) :
    AsyncEngine :=
  if a.engine.stopped_ then { a with invoked := a.invoked ++ invokeBool callback false }
  else { a with thread_pool_ := a.thread_pool_.submit (EngineTask.put key value callback) }

/-- Member `asyncGet`. -/
def asyncGet (a : AsyncEngine) (key : Int) (callback : Option Nat) : AsyncEngine :=
  if a.engine.stopped_ then a
  else { a with thread_pool_ := a.thread_pool_.submit (EngineTask.get key callback) }

/-- Member `asyncDel`. -/
def asyncDel (a : AsyncEngine) (key : Int) (callback : Option Nat) : AsyncEngine :=
  if a.engine.stopped_ then { a with invoked := a.invoked ++ invokeBool callback false }
  else { a with thread_pool_ := a.thread_pool_.submit (EngineTask.del key callback) }

/-- A worker takes the front task of the queue, runs it on the engine without
device errors and finishes it; nothing happens when no worker is free or the
queue is empty. -/
def runNext (a : AsyncEngine) : AsyncEngine :=
  match a.thread_pool_.tasks_ with
  | [] => a
  | task :: _ =>
    match a.thread_pool_.exec [PoolStep.dequeue, PoolStep.finish task] with
    | some p =>
      { engine := (task.perform a.engine IoEnv.ok).1
        thread_pool_ := p
        invoked := a.invoked ++ (task.perform a.engine IoEnv.ok).2 }
    | none => a

end AsyncEngine

/-- One step of an engine with its pool: an asynchronous or synchronous call,
`stop`, or a worker running the next queued task. -/
inductive AsyncOp where
  | asyncPut (key : Int) (value : Bytes) (callback : Option Nat)
  | asyncGet (key : Int) (callback : Option Nat)
  | asyncDel (key : Int) (callback : Option Nat)
  | sync (op : EngineOp)
  | stop
  | runNext
deriving DecidableEq, Repr

/-- State after one step, for an engine constructed with cache parameters `N`
and `S`.  A `restart` among the synchronous steps is left out: it would replace
the pool as well. -/
def AsyncEngine.apply (N S : Nat) (a : AsyncEngine) : AsyncOp → AsyncEngine
  | .asyncPut key value callback => a.asyncPut key value callback
  | .asyncGet key callback => a.asyncGet key callback
  | .asyncDel key callback => a.asyncDel key callback
  | .sync (.restart _) => a
  | .sync op => { a with engine := a.engine.apply N S op }
  | .stop => a.stop
  | .runNext => a.runNext

/-- The engine with its pool after a sequence of steps from the state `a`. -/
def AsyncEngine.run (N S : Nat) (a : AsyncEngine) (ops : List AsyncOp) : AsyncEngine :=
  ops.foldl (AsyncEngine.apply N S) a

/-! ## Results of calls on the engine and on a bare log store -/

/-- What a call hands back to its caller: the `bool` of `put` and `del`, the
string of `get`, nothing for `garbageCollect` and for a restart. -/
inductive OpResult where
  | flag (success : Bool)
  | bytes (value : Bytes)
  | done
deriving DecidableEq, Repr

/-- The call on a bare log store that corresponds to a call on the engine. -/
def EngineOp.toFileOp : EngineOp → FileOp
  | .put key value => .put key value
  | .get key => .get key
  | .del key => .del key
  | .garbageCollect => .garbageCollect
  | .restart gc_pending => .restart gc_pending

/-- Result of one call on a log store, without device errors. -/
def FileStore.result (s : FileStore) : FileOp → OpResult
  | .put key value => .flag (s.put key value IoEnv.ok).1
  | .get key => .bytes (s.get key IoEnv.ok).1
  | .del key => .flag (s.del key).1
  | .garbageCollect => .done
  | .restart _ => .done

/-- Result of one call on the engine, without device errors. -/
def StorageEngine.result (e : StorageEngine) : EngineOp → OpResult
  | .put key value => .flag (e.put key value IoEnv.ok).1
  | .get key => .bytes (e.get key IoEnv.ok).1
  | .del key => .flag (e.del key).1
  | .garbageCollect => .done
  | .restart _ => .done

/-- Two log stores that agree in everything but the read counter. -/
def FileStore.SameUpToReads (a b : FileStore) : Prop :=
  a.file_data = b.file_data ∧ a.file_good = b.file_good ∧ a.index_ = b.index_ ∧
    a.file_size_ = b.file_size_

/-! ## Layout of the records in the data file -/

/-- The records, in the order of the list, tile the bytes from `start` to
`stop`: the first begins at `start`, each next one begins where the one before
it ends, and the last ends at `stop`. -/
def FileStore.Tiles : Nat → List ObjectMeta → Nat → Prop
  | start, [], stop => start = stop
  | start, m :: rest, stop => m.offset = start ∧ FileStore.Tiles (start + m.size) rest stop

/-! ## Which keys a shard holds, told from the calls made on it -/

/-- The key a call removes from the shard by eviction: a `put` of a key that
is not in the map, on a shard whose list has reached `capacity_`, evicts the key
of `cache_list_.back()`. -/
def LRUCacheSegment.evicts (s : LRUCacheSegment) : SegOp → Option Int
  | .put key _ =>
    match UMap.find s.cache_map_ key with
    | some _ => none
    | none =>
      if s.cache_list_.length ≥ s.capacity_ then s.cache_list_.getLast?.map CacheNode.key
      else none
  | .get _ => none
  | .remove _ => none

/-- A shard together with the record, for every key, of whether some `put` of
the key has not since been followed by a `remove` of the key or by the eviction
of the key. -/
structure GhostSegment where
  seg : LRUCacheSegment
  held : Int → Bool

/-- One call on a shard, with the bookkeeping of the keys put and not since
removed or evicted. -/
def GhostSegment.step (g : GhostSegment) : SegOp → GhostSegment
  | .put key value =>
    { seg := g.seg.put key value
      held := fun k =>
        if k = key then true
        else if g.seg.evicts (.put key value) = some k then false
        else g.held k }
  | .get key => { seg := (g.seg.get key).2, held := g.held }
  | .remove key =>
    { seg := g.seg.remove key
      held := fun k => if k = key then false else g.held k }

/-- The shard of capacity `C` reached from the empty one by a sequence of
calls. -/
def GhostSegment.run (C : Nat) (ops : List SegOp) : GhostSegment :=
  ops.foldl GhostSegment.step { seg := LRUCacheSegment.ctor C, held := fun _ => false }

/-! ## Lemmas on association lists -/

section UMapLemmas

variable {V : Type}

theorem UMap.find_assign (m : UMap V) (k k' : Int) (v : V) :
    UMap.find (UMap.assign m k v) k' = if k = k' then some v else UMap.find m k' := by
  induction m with
  | nil => simp [UMap.assign, UMap.find]
  | cons e rest ih =>
    obtain ⟨a, x⟩ := e
    by_cases h : a = k
    · subst h
      by_cases h2 : a = k' <;> simp [UMap.assign, UMap.find, h2]
    · by_cases h2 : a = k'
      · subst h2
        have h3 : ¬ k = a := fun h4 => h h4.symm
        simp [UMap.assign, UMap.find, h, h3]
      · simp [UMap.assign, UMap.find, h, h2, ih]

theorem UMap.find_erase (m : UMap V) (k k' : Int) :
    UMap.find (UMap.erase m k) k' = if k = k' then none else UMap.find m k' := by
  induction m with
  | nil => simp [UMap.erase, UMap.find]
  | cons e rest ih =>
    obtain ⟨a, x⟩ := e
    simp only [UMap.erase] at ih
    by_cases h : a = k
    · subst h
      by_cases h2 : a = k'
      · subst h2
        simpa [UMap.erase, List.filter, UMap.find] using ih
      · simp [UMap.erase, List.filter, UMap.find, h2, ih]
    · by_cases h2 : a = k'
      · subst h2
        have h3 : ¬ k = a := fun h4 => h h4.symm
        simp [UMap.erase, List.filter, UMap.find, h, h3]
      · simp [UMap.erase, List.filter, UMap.find, h, h2, ih]

theorem UMap.find_eq_none_iff (m : UMap V) (k : Int) :
    UMap.find m k = none ↔ k ∉ m.map Prod.fst := by
  induction m with
  | nil => simp [UMap.find]
  | cons e rest ih =>
    obtain ⟨a, x⟩ := e
    by_cases h : a = k
    · simp [UMap.find, h]
    · have h3 : ¬ k = a := fun h4 => h h4.symm
      simp [UMap.find, h, h3, ih]

theorem UMap.mem_of_find (m : UMap V) (k : Int) (v : V) (h : UMap.find m k = some v) :
    (k, v) ∈ m := by
  induction m with
  | nil => simp [UMap.find] at h
  | cons e rest ih =>
    obtain ⟨a, x⟩ := e
    by_cases h2 : a = k
    · simp [UMap.find, h2] at h
      simp [h2, h]
    · simp [UMap.find, h2] at h
      exact List.mem_cons_of_mem _ (ih h)

theorem UMap.find_of_mem (m : UMap V) (k : Int) (v : V) (hnd : (m.map Prod.fst).Nodup)
    (h : (k, v) ∈ m) : UMap.find m k = some v := by
  induction m with
  | nil => simp at h
  | cons e rest ih =>
    obtain ⟨a, x⟩ := e
    simp only [List.map_cons, List.nodup_cons] at hnd
    rcases List.mem_cons.mp h with h1 | h1
    · simp only [Prod.mk.injEq] at h1
      simp [UMap.find, h1.1, h1.2]
    · have h2 : a ≠ k := by
        intro h3
        apply hnd.1
        rw [h3]
        exact List.mem_map.mpr ⟨(k, v), h1, rfl⟩
      simp [UMap.find, h2, ih hnd.2 h1]

theorem UMap.assign_of_not_mem (m : UMap V) (k : Int) (v : V) (h : k ∉ m.map Prod.fst) :
    UMap.assign m k v = m ++ [(k, v)] := by
  induction m with
  | nil => simp [UMap.assign]
  | cons e rest ih =>
    obtain ⟨a, x⟩ := e
    simp only [List.map_cons, List.mem_cons, not_or] at h
    have h2 : ¬ a = k := fun h4 => h.1 h4.symm
    simp [UMap.assign, h2, ih h.2]

theorem UMap.keys_assign_of_mem (m : UMap V) (k : Int) (v : V) (h : k ∈ m.map Prod.fst) :
    (UMap.assign m k v).map Prod.fst = m.map Prod.fst := by
  induction m with
  | nil => simp at h
  | cons e rest ih =>
    obtain ⟨a, x⟩ := e
    by_cases h2 : a = k
    · simp [UMap.assign, h2]
    · have h3 : k ∈ rest.map Prod.fst := by
        simp only [List.map_cons, List.mem_cons] at h
        rcases h with h | h
        · exact absurd h.symm h2
        · exact h
      simp [UMap.assign, h2, ih h3]

theorem UMap.mem_assign (m : UMap V) (k : Int) (v : V) (e : Int × V)
    (h : e ∈ UMap.assign m k v) : e = (k, v) ∨ e ∈ m := by
  induction m with
  | nil => simpa [UMap.assign] using h
  | cons e0 rest ih =>
    obtain ⟨a, x⟩ := e0
    by_cases h2 : a = k
    · simp only [UMap.assign, h2, if_true, List.mem_cons] at h
      rcases h with h | h
      · exact Or.inl h
      · exact Or.inr (List.mem_cons_of_mem _ h)
    · simp only [UMap.assign, h2, if_false, List.mem_cons] at h
      rcases h with h | h
      · exact Or.inr (by simp [h])
      · rcases ih h with h3 | h3
        · exact Or.inl h3
        · exact Or.inr (List.mem_cons_of_mem _ h3)

theorem UMap.mem_assign_ne (m : UMap V) (k : Int) (v : V) (e : Int × V)
    (hnd : (m.map Prod.fst).Nodup) (h : e ∈ UMap.assign m k v) :
    e = (k, v) ∨ (e ∈ m ∧ e.1 ≠ k) := by
  induction m with
  | nil => simpa [UMap.assign] using h
  | cons e0 rest ih =>
    obtain ⟨a, x⟩ := e0
    simp only [List.map_cons, List.nodup_cons] at hnd
    by_cases h2 : a = k
    · simp only [UMap.assign, h2, if_true, List.mem_cons] at h
      rcases h with h | h
      · exact Or.inl h
      · refine Or.inr ⟨List.mem_cons_of_mem _ h, ?_⟩
        intro h3
        apply hnd.1
        rw [h2, ← h3]
        exact List.mem_map.mpr ⟨e, h, rfl⟩
    · simp only [UMap.assign, h2, if_false, List.mem_cons] at h
      rcases h with h | h
      · exact Or.inr ⟨by simp [h], by simp [h, h2]⟩
      · rcases ih hnd.2 h with h3 | h3
        · exact Or.inl h3
        · exact Or.inr ⟨List.mem_cons_of_mem _ h3.1, h3.2⟩

theorem UMap.mem_assign_of_ne (m : UMap V) (k : Int) (v : V) (e : Int × V)
    (h : e ∈ m) (hne : e.1 ≠ k) : e ∈ UMap.assign m k v := by
  induction m with
  | nil => simp at h
  | cons e0 rest ih =>
    obtain ⟨a, x⟩ := e0
    by_cases h2 : a = k
    · simp only [UMap.assign, h2, if_true, List.mem_cons]
      rcases List.mem_cons.mp h with h | h
      · exact absurd (by rw [h]; exact h2) hne
      · exact Or.inr h
    · simp only [UMap.assign, h2, if_false, List.mem_cons]
      rcases List.mem_cons.mp h with h | h
      · exact Or.inl h
      · exact Or.inr (ih h)

theorem UMap.keys_nodup_assign (m : UMap V) (k : Int) (v : V)
    (hnd : (m.map Prod.fst).Nodup) : ((UMap.assign m k v).map Prod.fst).Nodup := by
  by_cases h : k ∈ m.map Prod.fst
  · rw [UMap.keys_assign_of_mem m k v h]
    exact hnd
  · rw [UMap.assign_of_not_mem m k v h]
    simp only [List.map_append, List.map_cons, List.map_nil]
    refine List.Nodup.append hnd (by simp) ?_
    intro a ha hb
    simp only [List.mem_singleton] at hb
    exact h (hb ▸ ha)

theorem UMap.keys_assign_find (m : UMap V) (k : Int) (v x : V)
    (h : UMap.find m k = some x) : (UMap.assign m k v).map Prod.fst = m.map Prod.fst := by
  apply UMap.keys_assign_of_mem
  by_contra h2
  rw [← UMap.find_eq_none_iff] at h2
  rw [h2] at h
  exact Option.noConfusion h

end UMapLemmas

/-! ## Lemmas on file content -/

theorem readAt_length (data : Bytes) (pos n : Nat) (h : pos + n ≤ data.length) :
    (readAt data pos n).length = n := by
  simp only [readAt, List.length_take, List.length_drop]
  omega

theorem readAt_append_left (data more : Bytes) (pos n : Nat) (h : pos + n ≤ data.length) :
    readAt (data ++ more) pos n = readAt data pos n := by
  unfold readAt
  rw [List.drop_append_of_le_length (by omega)]
  rw [List.take_append_of_le_length (by simp only [List.length_drop]; omega)]

theorem readAt_append_right (pre v post : Bytes) :
    readAt (pre ++ (v ++ post)) pre.length v.length = v := by
  unfold readAt
  rw [List.drop_left]
  simp

theorem writeAt_end (data v : Bytes) : writeAt data data.length v = data ++ v := by
  unfold writeAt
  rw [List.drop_eq_nil_of_le (by omega)]
  simp

/-! ## The invariant of the log store -/

theorem FileStore.maxEnd_foldl_le (idx : UMap ObjectMeta) (B : Nat) :
    ∀ init : Nat, init ≤ B → (∀ e ∈ idx, e.2.offset + e.2.size ≤ B) →
    idx.foldl (fun fsz e => if e.2.offset + e.2.size > fsz then e.2.offset + e.2.size else fsz)
      init ≤ B := by
  induction idx with
  | nil => intro init h _; simpa using h
  | cons e rest ih =>
    intro init h hall
    simp only [List.foldl_cons]
    apply ih
    · have := hall e (List.mem_cons_self _ _)
      split <;> omega
    · intro e1 he1
      exact hall e1 (List.mem_cons_of_mem _ he1)

theorem FileStore.maxEnd_foldl_ge_init (idx : UMap ObjectMeta) :
    ∀ init : Nat, init ≤
    idx.foldl (fun fsz e => if e.2.offset + e.2.size > fsz then e.2.offset + e.2.size else fsz)
      init := by
  induction idx with
  | nil => intro init; simp
  | cons e rest ih =>
    intro init
    simp only [List.foldl_cons]
    refine le_trans ?_ (ih _)
    split <;> omega

theorem FileStore.maxEnd_foldl_ge_mem (idx : UMap ObjectMeta) :
    ∀ init : Nat, ∀ e ∈ idx, e.2.offset + e.2.size ≤
    idx.foldl (fun fsz e => if e.2.offset + e.2.size > fsz then e.2.offset + e.2.size else fsz)
      init := by
  induction idx with
  | nil => intro init e he; simp at he
  | cons e0 rest ih =>
    intro init e he
    simp only [List.foldl_cons]
    rcases List.mem_cons.mp he with h | h
    · subst h
      refine le_trans ?_ (FileStore.maxEnd_foldl_ge_init rest _)
      split <;> omega
    · exact ih _ e h

theorem FileStore.maxEnd_foldl_attained (idx : UMap ObjectMeta) :
    ∀ init : Nat,
    idx.foldl (fun fsz e => if e.2.offset + e.2.size > fsz then e.2.offset + e.2.size else fsz)
      init = init ∨
    ∃ e ∈ idx, e.2.offset + e.2.size =
      idx.foldl (fun fsz e => if e.2.offset + e.2.size > fsz then e.2.offset + e.2.size else fsz)
        init := by
  induction idx with
  | nil => intro init; simp
  | cons e0 rest ih =>
    intro init
    simp only [List.foldl_cons]
    rcases ih (if e0.2.offset + e0.2.size > init then e0.2.offset + e0.2.size else init) with h | h
    · by_cases h2 : e0.2.offset + e0.2.size > init
      · right
        refine ⟨e0, List.mem_cons_self _ _, ?_⟩
        rw [h]
        simp [h2]
      · left
        rw [h]
        simp [h2]
    · right
      obtain ⟨e, he, heq⟩ := h
      exact ⟨e, List.mem_cons_of_mem _ he, heq⟩

/-- The recomputed size is `B` when no record ends after `B` and either `B = 0`
or some record ends at `B`. -/
theorem FileStore.maxEnd_eq (idx : UMap ObjectMeta) (B : Nat)
    (hle : ∀ e ∈ idx, e.2.offset + e.2.size ≤ B)
    (hat : B = 0 ∨ ∃ e ∈ idx, e.2.offset + e.2.size = B) :
    FileStore.maxEnd idx = B := by
  unfold FileStore.maxEnd
  apply le_antisymm
  · exact FileStore.maxEnd_foldl_le idx B 0 (Nat.zero_le _) hle
  · rcases hat with h | ⟨e, he, heq⟩
    · omega
    · rw [← heq]
      exact FileStore.maxEnd_foldl_ge_mem idx 0 e he

theorem FileStore.maxEnd_attained (idx : UMap ObjectMeta) :
    FileStore.maxEnd idx = 0 ∨ ∃ e ∈ idx, e.2.offset + e.2.size = FileStore.maxEnd idx :=
  FileStore.maxEnd_foldl_attained idx 0

/-! ## `put`, `get` and `del` on a store that satisfies the invariant -/

theorem UMap.mem_assign_self {V : Type} (m : UMap V) (k : Int) (v : V) :
    (k, v) ∈ UMap.assign m k v := by
  apply UMap.mem_of_find
  rw [UMap.find_assign]
  simp

theorem FileStore.fs_put_eq (s : FileStore) (hs : s.Inv) (k : Int) (v : Bytes) :
    s.put k v IoEnv.ok = (true,
      { s with
        file_data := s.file_data ++ v
        file_size_ := s.file_size_ + v.length
        index_ := UMap.assign s.index_ k
          { key := k, offset := s.file_size_, size := v.length, deleted := false } }) := by
  simp only [FileStore.put, hs.good, IoEnv.ok, Bool.and_self, if_true]
  rw [hs.size_eq, writeAt_end]

theorem FileStore.get_eq_live (s : FileStore) (hs : s.Inv) (k : Int) (m : ObjectMeta)
    (hf : UMap.find s.index_ k = some m) (hd : m.deleted = false) :
    s.get k IoEnv.ok =
      (readAt s.file_data m.offset m.size, { s with read_count_ := s.read_count_ + 1 }) := by
  have hr := hs.in_range (k, m) (UMap.mem_of_find _ _ _ hf)
  have hl := readAt_length s.file_data m.offset m.size (by rw [← hs.size_eq]; exact hr)
  simp [FileStore.get, hf, hd, hs.good, IoEnv.ok, hl]

theorem FileStore.get_eq_deleted (s : FileStore) (k : Int) (m : ObjectMeta) (io : IoEnv)
    (hf : UMap.find s.index_ k = some m) (hd : m.deleted = true) :
    s.get k io = ([], s) := by
  simp [FileStore.get, hf, hd]

theorem FileStore.get_eq_absent (s : FileStore) (k : Int) (io : IoEnv)
    (hf : UMap.find s.index_ k = none) :
    s.get k io = ([], s) := by
  simp [FileStore.get, hf]

/-- On a store that satisfies the invariant, `get` changes at most the read
counter. -/
theorem FileStore.get_state (s : FileStore) (hs : s.Inv) (k : Int) :
    ∃ c, (s.get k IoEnv.ok).2 = { s with read_count_ := c } := by
  cases hf : UMap.find s.index_ k with
  | none => exact ⟨s.read_count_, by rw [FileStore.get_eq_absent s k _ hf]⟩
  | some m =>
    cases hd : m.deleted with
    | true => exact ⟨s.read_count_, by rw [FileStore.get_eq_deleted s k m _ hf hd]⟩
    | false => exact ⟨s.read_count_ + 1, by rw [FileStore.get_eq_live s hs k m hf hd]⟩

theorem FileStore.Inv.with_read_count {s : FileStore} (hs : s.Inv) (c : Nat) :
    ({ s with read_count_ := c } : FileStore).Inv :=
  { good := hs.good, size_eq := hs.size_eq, keys_nodup := hs.keys_nodup, key_eq := hs.key_eq,
    in_range := hs.in_range, max_end := hs.max_end }

theorem FileStore.Inv.fs_get {s : FileStore} (hs : s.Inv) (k : Int) :
    (s.get k IoEnv.ok).2.Inv := by
  obtain ⟨c, hc⟩ := FileStore.get_state s hs k
  rw [hc]
  exact hs.with_read_count c

theorem FileStore.Inv.fs_put {s : FileStore} (hs : s.Inv) (k : Int) (v : Bytes) :
    (s.put k v IoEnv.ok).2.Inv := by
  rw [FileStore.fs_put_eq s hs]
  refine { good := hs.good, size_eq := ?_, keys_nodup := ?_, key_eq := ?_, in_range := ?_,
           max_end := ?_ }
  · simp [hs.size_eq]
  · exact UMap.keys_nodup_assign _ _ _ hs.keys_nodup
  · intro e he
    rcases UMap.mem_assign _ _ _ _ he with h | h
    · rw [h]
    · exact hs.key_eq e h
  · intro e he
    rcases UMap.mem_assign _ _ _ _ he with h | h
    · rw [h]
    · have := hs.in_range e h
      show e.2.offset + e.2.size ≤ s.file_size_ + v.length
      omega
  · apply FileStore.maxEnd_eq
    · intro e he
      rcases UMap.mem_assign _ _ _ _ he with h | h
      · rw [h]
      · have := hs.in_range e h
        show e.2.offset + e.2.size ≤ s.file_size_ + v.length
        omega
    · right
      exact ⟨_, UMap.mem_assign_self _ _ _, rfl⟩

theorem FileStore.del_eq_live (s : FileStore) (k : Int) (m : ObjectMeta)
    (hf : UMap.find s.index_ k = some m) (hd : m.deleted = false) :
    s.del k = (true, { s with index_ := UMap.assign s.index_ k { m with deleted := true } }) := by
  simp [FileStore.del, hf, hd]

theorem FileStore.del_eq_deleted (s : FileStore) (k : Int) (m : ObjectMeta)
    (hf : UMap.find s.index_ k = some m) (hd : m.deleted = true) :
    s.del k = (false, s) := by
  simp [FileStore.del, hf, hd]

theorem FileStore.del_eq_absent (s : FileStore) (k : Int)
    (hf : UMap.find s.index_ k = none) :
    s.del k = (false, s) := by
  simp [FileStore.del, hf]

theorem FileStore.Inv.fs_del {s : FileStore} (hs : s.Inv) (k : Int) :
    (s.del k).2.Inv := by
  cases hf : UMap.find s.index_ k with
  | none => rw [FileStore.del_eq_absent s k hf]; exact hs
  | some m =>
    cases hd : m.deleted with
    | true => rw [FileStore.del_eq_deleted s k m hf hd]; exact hs
    | false =>
      rw [FileStore.del_eq_live s k m hf hd]
      have hmem := UMap.mem_of_find _ _ _ hf
      refine { good := hs.good, size_eq := hs.size_eq, keys_nodup := ?_, key_eq := ?_,
               in_range := ?_, max_end := ?_ }
      · exact UMap.keys_nodup_assign _ _ _ hs.keys_nodup
      · intro e he
        rcases UMap.mem_assign _ _ _ _ he with h | h
        · rw [h]
          exact hs.key_eq (k, m) hmem
        · exact hs.key_eq e h
      · intro e he
        rcases UMap.mem_assign _ _ _ _ he with h | h
        · rw [h]
          exact hs.in_range (k, m) hmem
        · exact hs.in_range e h
      · apply FileStore.maxEnd_eq
        · intro e he
          rcases UMap.mem_assign _ _ _ _ he with h | h
          · rw [h]
            exact hs.in_range (k, m) hmem
          · exact hs.in_range e h
        · rcases FileStore.maxEnd_attained s.index_ with h | ⟨e, he, heq⟩
          · left
            rw [← hs.max_end]
            exact h
          · right
            by_cases hk : e.1 = k
            · have h2 := UMap.find_of_mem _ _ _ hs.keys_nodup (show (k, e.2) ∈ s.index_ by
                rw [← hk]; exact he)
              rw [hf] at h2
              refine ⟨_, UMap.mem_assign_self _ _ _, ?_⟩
              rw [← hs.max_end, ← heq]
              simp only [Option.some.injEq] at h2
              rw [← h2]
            · exact ⟨e, UMap.mem_assign_of_ne _ _ _ _ he hk, by rw [heq, hs.max_end]⟩

/-! ## Closed form of the compaction loop -/

theorem FileStore.compactStep_new_offset (data : Bytes) (acc : FileStore.CompactAcc)
    (m : ObjectMeta) :
    (FileStore.compactStep data acc m).new_offset = acc.new_offset + m.size := by
  simp only [FileStore.compactStep, List.length_append, List.length_replicate]
  have h : (if acc.good = true then readAt data m.offset m.size else []).length ≤ m.size := by
    split
    · simp only [readAt, List.length_take]
      omega
    · simp
  omega

/-- The loop advances `new_offset` by the sizes of the records, whatever the
state of the file. -/
theorem FileStore.compact_foldl_new_offset (data : Bytes) (live : List ObjectMeta) :
    ∀ acc : FileStore.CompactAcc,
    (live.foldl (FileStore.compactStep data) acc).new_offset
      = acc.new_offset + (live.map ObjectMeta.size).sum := by
  induction live with
  | nil => intro acc; simp
  | cons m rest ih =>
    intro acc
    simp only [List.foldl_cons, List.map_cons, List.sum_cons]
    rw [ih, FileStore.compactStep_new_offset]
    omega

theorem FileStore.compactStep_eq (data : Bytes) (acc : FileStore.CompactAcc) (m : ObjectMeta)
    (hg : acc.good = true) (hr : m.offset + m.size ≤ data.length)
    (hk : m.key ∉ acc.new_index.map Prod.fst) :
    FileStore.compactStep data acc m =
      { good := true
        temp_file := acc.temp_file ++ readAt data m.offset m.size
        new_index := acc.new_index ++ [(m.key, { m with offset := acc.new_offset })]
        new_offset := acc.new_offset + m.size } := by
  have hl := readAt_length data m.offset m.size hr
  simp [FileStore.compactStep, hg, hl, UMap.assign_of_not_mem _ _ _ hk]

theorem FileStore.compact_foldl_eq (data : Bytes) (live : List ObjectMeta) :
    ∀ acc : FileStore.CompactAcc, acc.good = true →
    (∀ m ∈ live, m.offset + m.size ≤ data.length) →
    (acc.new_index.map Prod.fst ++ live.map ObjectMeta.key).Nodup →
    live.foldl (FileStore.compactStep data) acc =
      { good := true
        temp_file := acc.temp_file ++ FileStore.payload data live
        new_index := acc.new_index ++ FileStore.layout acc.new_offset live
        new_offset := acc.new_offset + (live.map ObjectMeta.size).sum } := by
  induction live with
  | nil =>
    intro acc hg _ _
    cases acc
    simp only [] at hg
    simp [FileStore.payload, FileStore.layout, hg]
  | cons m rest ih =>
    intro acc hg hr hnd
    have hk : m.key ∉ acc.new_index.map Prod.fst := by
      intro hmem
      have := List.nodup_append.mp hnd
      exact this.2.2 hmem (by simp)
    simp only [List.foldl_cons]
    rw [FileStore.compactStep_eq data acc m hg (hr m (List.mem_cons_self _ _)) hk]
    rw [ih _ rfl (fun x hx => hr x (List.mem_cons_of_mem _ hx))]
    · simp [FileStore.payload, FileStore.layout, Nat.add_assoc]
    · simpa [List.map_append] using hnd

theorem FileStore.layout_keys (live : List ObjectMeta) :
    ∀ off, (FileStore.layout off live).map Prod.fst = live.map ObjectMeta.key := by
  induction live with
  | nil => intro off; rfl
  | cons m rest ih => intro off; simp [FileStore.layout, ih]

theorem FileStore.payload_length (data : Bytes) (live : List ObjectMeta)
    (hr : ∀ m ∈ live, m.offset + m.size ≤ data.length) :
    (FileStore.payload data live).length = (live.map ObjectMeta.size).sum := by
  induction live with
  | nil => rfl
  | cons m rest ih =>
    simp only [FileStore.payload, List.length_append, List.map_cons, List.sum_cons]
    rw [ih (fun x hx => hr x (List.mem_cons_of_mem _ hx)),
      readAt_length data m.offset m.size (hr m (List.mem_cons_self _ _))]

/-- Every record of the compacted index comes from a live record, keeps its
key, size and flag, lies inside the compacted file and designates there the
bytes the live record designated in the old file. -/
theorem FileStore.layout_mem (data : Bytes) (live : List ObjectMeta)
    (hr : ∀ m ∈ live, m.offset + m.size ≤ data.length) :
    ∀ (pre : Bytes) (e : Int × ObjectMeta), e ∈ FileStore.layout pre.length live →
    ∃ m ∈ live, e.1 = m.key ∧ e.2.key = m.key ∧ e.2.size = m.size ∧ e.2.deleted = m.deleted ∧
      pre.length ≤ e.2.offset ∧
      e.2.offset + e.2.size ≤ pre.length + (live.map ObjectMeta.size).sum ∧
      readAt (pre ++ FileStore.payload data live) e.2.offset e.2.size
        = readAt data m.offset m.size := by
  induction live with
  | nil => intro pre e he; simp [FileStore.layout] at he
  | cons m rest ih =>
    intro pre e he
    have hm := hr m (List.mem_cons_self _ _)
    have hl := readAt_length data m.offset m.size hm
    simp only [FileStore.layout, List.mem_cons] at he
    rcases he with he | he
    · refine ⟨m, List.mem_cons_self _ _, ?_⟩
      subst he
      refine ⟨rfl, rfl, rfl, rfl, le_refl _, ?_, ?_⟩
      · simp only [List.map_cons, List.sum_cons]
        omega
      · simp only [FileStore.payload]
        have := readAt_append_right pre (readAt data m.offset m.size) (FileStore.payload data rest)
        rw [hl] at this
        exact this
    · have hlen : (pre ++ readAt data m.offset m.size).length = pre.length + m.size := by
        rw [List.length_append, hl]
      rw [← hlen] at he
      obtain ⟨m1, hm1, h1, h2, h3, h4, h5, h6, h7⟩ :=
        ih (fun x hx => hr x (List.mem_cons_of_mem _ hx)) _ e he
      refine ⟨m1, List.mem_cons_of_mem _ hm1, h1, h2, h3, h4, ?_, ?_, ?_⟩
      · rw [hlen] at h5
        omega
      · rw [hlen] at h6
        simp only [List.map_cons, List.sum_cons]
        omega
      · simp only [FileStore.payload]
        rw [← List.append_assoc]
        exact h7

theorem FileStore.layout_last (live : List ObjectMeta) (hne : live ≠ []) :
    ∀ off, ∃ e ∈ FileStore.layout off live,
      e.2.offset + e.2.size = off + (live.map ObjectMeta.size).sum := by
  induction live with
  | nil => exact absurd rfl hne
  | cons m rest ih =>
    intro off
    by_cases hrest : rest = []
    · subst hrest
      exact ⟨_, List.mem_cons_self _ _, by simp⟩
    · obtain ⟨e, he, heq⟩ := ih hrest (off + m.size)
      refine ⟨e, List.mem_cons_of_mem _ he, ?_⟩
      rw [heq]
      simp only [List.map_cons, List.sum_cons]
      omega

/-! ## Compaction and restart on a store that satisfies the invariant -/

theorem FileStore.liveObjects_mem (s : FileStore) (hs : s.Inv) (m : ObjectMeta)
    (hm : m ∈ s.liveObjects) : (m.key, m) ∈ s.index_ ∧ m.deleted = false := by
  simp only [FileStore.liveObjects, List.mem_filter, List.mem_map] at hm
  obtain ⟨⟨e, he, rfl⟩, hd⟩ := hm
  have hk := hs.key_eq e he
  refine ⟨?_, by simpa using hd⟩
  rw [hk]
  exact he

theorem FileStore.mem_liveObjects (s : FileStore) (e : Int × ObjectMeta)
    (he : e ∈ s.index_) (hd : e.2.deleted = false) : e.2 ∈ s.liveObjects := by
  simp only [FileStore.liveObjects, List.mem_filter, List.mem_map]
  exact ⟨⟨e, he, rfl⟩, by simp [hd]⟩

theorem FileStore.liveObjects_keys_sublist (s : FileStore) (hs : s.Inv) :
    (s.liveObjects.map ObjectMeta.key).Sublist (s.index_.map Prod.fst) := by
  have h1 : (s.index_.map Prod.snd).map ObjectMeta.key = s.index_.map Prod.fst := by
    rw [List.map_map]
    apply List.map_congr_left
    intro e he
    exact hs.key_eq e he
  rw [← h1]
  exact List.Sublist.map _ (List.filter_sublist _)

theorem FileStore.liveObjects_keys_nodup (s : FileStore) (hs : s.Inv) :
    (s.liveObjects.map ObjectMeta.key).Nodup :=
  List.Nodup.sublist (FileStore.liveObjects_keys_sublist s hs) hs.keys_nodup

theorem FileStore.liveObjects_in_range (s : FileStore) (hs : s.Inv) :
    ∀ m ∈ s.liveObjects, m.offset + m.size ≤ s.file_data.length := by
  intro m hm
  rw [← hs.size_eq]
  exact hs.in_range _ (FileStore.liveObjects_mem s hs m hm).1

/-- Compaction of a store that satisfies the invariant, in closed form. -/
theorem FileStore.garbageCollect_eq (s : FileStore) (hs : s.Inv) :
    s.garbageCollect IoEnv.ok =
      { s with
        file_data := FileStore.payload s.file_data s.liveObjects
        file_good := true
        index_ := FileStore.layout 0 s.liveObjects
        file_size_ := (s.liveObjects.map ObjectMeta.size).sum } := by
  simp only [FileStore.garbageCollect, FileStore.compactFile, IoEnv.ok, if_true]
  rw [FileStore.compact_foldl_eq s.file_data s.liveObjects _ hs.good
    (FileStore.liveObjects_in_range s hs)
    (by simpa using FileStore.liveObjects_keys_nodup s hs)]
  simp

theorem FileStore.Inv.fs_gc {s : FileStore} (hs : s.Inv) :
    (s.garbageCollect IoEnv.ok).Inv := by
  rw [FileStore.garbageCollect_eq s hs]
  have hr := FileStore.liveObjects_in_range s hs
  have hmem := FileStore.layout_mem s.file_data s.liveObjects hr []
  simp only [List.length_nil, List.nil_append, Nat.zero_add] at hmem
  refine { good := rfl, size_eq := ?_, keys_nodup := ?_, key_eq := ?_, in_range := ?_,
           max_end := ?_ }
  · exact (FileStore.payload_length _ _ hr).symm
  · show ((FileStore.layout 0 s.liveObjects).map Prod.fst).Nodup
    rw [FileStore.layout_keys]
    exact FileStore.liveObjects_keys_nodup s hs
  · intro e he
    obtain ⟨m, _, h1, h2, _⟩ := hmem e he
    rw [h1, h2]
  · intro e he
    obtain ⟨m, _, _, _, _, _, _, h6, _⟩ := hmem e he
    exact h6
  · apply FileStore.maxEnd_eq
    · intro e he
      obtain ⟨m, _, _, _, _, _, _, h6, _⟩ := hmem e he
      exact h6
    · by_cases hne : s.liveObjects = []
      · left
        show (s.liveObjects.map ObjectMeta.size).sum = 0
        rw [hne]
        rfl
      · right
        obtain ⟨e, he, heq⟩ := FileStore.layout_last s.liveObjects hne 0
        exact ⟨e, he, by simpa using heq⟩

theorem FileStore.reload_foldl (l : UMap ObjectMeta) (hk : ∀ e ∈ l, e.2.key = e.1) :
    ∀ acc : UMap ObjectMeta, ((acc ++ l).map Prod.fst).Nodup →
    (l.map Prod.snd).foldl (fun a m => UMap.assign a m.key m) acc = acc ++ l := by
  induction l with
  | nil => intro acc _; simp
  | cons e rest ih =>
    intro acc hnd
    have he := hk e (List.mem_cons_self _ _)
    have hnot : e.2.key ∉ acc.map Prod.fst := by
      rw [he]
      intro hmem
      simp only [List.map_append, List.map_cons] at hnd
      exact (List.nodup_append.mp hnd).2.2 hmem (List.mem_cons_self _ _)
    simp only [List.map_cons, List.foldl_cons]
    rw [UMap.assign_of_not_mem _ _ _ hnot]
    have heq : (e.2.key, e.2) = e := by
      rw [he]
    rw [heq, ih (fun x hx => hk x (List.mem_cons_of_mem _ hx))]
    · simp
    · simpa using hnd

/-- Opening a store on the files that `saveIndex` and the close of `file_`
leave of a store that satisfies the invariant gives the same store with the
read counter back at 0. -/
theorem FileStore.reopen_eq (s : FileStore) (hs : s.Inv) :
    FileStore.ctor s.closeFiles false = { s with read_count_ := 0 } := by
  simp only [FileStore.ctor, FileStore.closeFiles, FileStore.saveIndex, FileStore.loadIndex,
    Bool.false_eq_true, if_false]
  have ht : List.take s.index_.length (s.index_.map Prod.snd) = s.index_.map Prod.snd := by
    apply List.take_of_length_le
    simp
  rw [ht]
  rw [FileStore.reload_foldl s.index_ hs.key_eq [] (by simpa using hs.keys_nodup)]
  simp only [List.nil_append]
  rw [hs.max_end, ← hs.good]

/-- A destructor that does not compact, followed by a reopening, gives the
same store with the read counter back at 0. -/
theorem FileStore.restart_eq_plain (s : FileStore) (hs : s.Inv) (io : IoEnv) :
    FileStore.ctor (s.dtor false io) false = { s with read_count_ := 0 } :=
  FileStore.reopen_eq s hs

/-- A destructor that waits for a last compaction, followed by a reopening,
gives the compacted store with the read counter back at 0. -/
theorem FileStore.restart_eq_compacting (s : FileStore) (hs : s.Inv) :
    FileStore.ctor (s.dtor true IoEnv.ok) false
      = { s.garbageCollect IoEnv.ok with read_count_ := 0 } :=
  FileStore.reopen_eq _ hs.fs_gc

/-- Closing and reopening a store that satisfies the invariant gives the store
itself or the compacted store, with the read counter back at 0. -/
theorem FileStore.restart_eq (s : FileStore) (hs : s.Inv) (gc_pending : Bool) :
    ∃ s1 : FileStore, s1.Inv ∧ (s1 = s ∨ s1 = s.garbageCollect IoEnv.ok) ∧
      (gc_pending = false → s1 = s) ∧ (gc_pending = true → s1 = s.garbageCollect IoEnv.ok) ∧
      FileStore.ctor (s.dtor gc_pending IoEnv.ok) false = { s1 with read_count_ := 0 } := by
  cases gc_pending with
  | false =>
    exact ⟨s, hs, Or.inl rfl, fun _ => rfl, fun h => Bool.noConfusion h,
      FileStore.restart_eq_plain s hs IoEnv.ok⟩
  | true =>
    exact ⟨_, hs.fs_gc, Or.inr rfl, fun h => Bool.noConfusion h, fun _ => rfl,
      FileStore.restart_eq_compacting s hs⟩

theorem FileStore.Inv.apply_op {s : FileStore} (hs : s.Inv) (op : FileOp) : (s.apply op).Inv := by
  cases op with
  | put k v => exact hs.fs_put k v
  | get k => exact hs.fs_get k
  | del k => exact hs.fs_del k
  | garbageCollect => exact hs.fs_gc
  | restart b =>
    show (FileStore.ctor (s.dtor b IoEnv.ok) false).Inv
    obtain ⟨s1, hs1, _, _, _, heq⟩ := FileStore.restart_eq s hs b
    rw [heq]
    exact hs1.with_read_count 0

theorem FileStore.Inv.fs_fresh : (FileStore.ctor Disk.empty false).Inv := by
  refine { good := rfl, size_eq := rfl, keys_nodup := ?_, key_eq := ?_, in_range := ?_,
           max_end := rfl }
  · simp [FileStore.ctor, FileStore.loadIndex, Disk.empty]
  · intro e he
    simp [FileStore.ctor, FileStore.loadIndex, Disk.empty] at he
  · intro e he
    simp [FileStore.ctor, FileStore.loadIndex, Disk.empty] at he

theorem FileStore.fs_run_snoc (ops : List FileOp) (op : FileOp) :
    FileStore.run (ops ++ [op]) = (FileStore.run ops).apply op := by
  simp [FileStore.run, List.foldl_append]

/-- Every store reached by a sequence of calls satisfies the invariant. -/
theorem FileStore.fs_run_inv (ops : List FileOp) : (FileStore.run ops).Inv := by
  induction ops using List.reverseRecOn with
  | nil => exact FileStore.Inv.fs_fresh
  | append_singleton l op ih =>
    rw [FileStore.fs_run_snoc]
    exact ih.apply_op op

/-! ## What `get` reads after `put` and after compaction -/

theorem FileStore.find_put (s : FileStore) (hs : s.Inv) (k k' : Int) (v : Bytes) :
    UMap.find (s.put k v IoEnv.ok).2.index_ k' =
      if k = k' then
        some { key := k, offset := s.file_size_, size := v.length, deleted := false }
      else UMap.find s.index_ k' := by
  rw [FileStore.fs_put_eq s hs]
  exact UMap.find_assign _ _ _ _

theorem FileStore.fs_get_put_same (s : FileStore) (hs : s.Inv) (k : Int) (v : Bytes) :
    ((s.put k v IoEnv.ok).2.get k IoEnv.ok).1 = v := by
  have hf := FileStore.find_put s hs k k v
  simp only [if_true] at hf
  rw [FileStore.get_eq_live _ (hs.fs_put k v) k _ hf rfl]
  rw [FileStore.fs_put_eq s hs]
  simp only [hs.size_eq]
  have := readAt_append_right s.file_data v []
  simpa using this

theorem FileStore.gc_find_live (s : FileStore) (hs : s.Inv) (k : Int) (m : ObjectMeta)
    (hf : UMap.find s.index_ k = some m) (hd : m.deleted = false) :
    ∃ m1, UMap.find (s.garbageCollect IoEnv.ok).index_ k = some m1 ∧ m1.deleted = false ∧
      m1.size = m.size ∧
      readAt (s.garbageCollect IoEnv.ok).file_data m1.offset m1.size
        = readAt s.file_data m.offset m.size := by
  have hinv := hs.fs_gc
  rw [FileStore.garbageCollect_eq s hs] at hinv ⊢
  have hr := FileStore.liveObjects_in_range s hs
  have hmem := FileStore.layout_mem s.file_data s.liveObjects hr []
  simp only [List.length_nil, List.nil_append, Nat.zero_add] at hmem
  have hlive : m ∈ s.liveObjects :=
    FileStore.mem_liveObjects s (k, m) (UMap.mem_of_find _ _ _ hf) hd
  have hkey : m.key = k := hs.key_eq (k, m) (UMap.mem_of_find _ _ _ hf)
  have hk : k ∈ (FileStore.layout 0 s.liveObjects).map Prod.fst := by
    rw [FileStore.layout_keys, ← hkey]
    exact List.mem_map.mpr ⟨m, hlive, rfl⟩
  obtain ⟨e, he, hek⟩ := List.mem_map.mp hk
  obtain ⟨m1, hm1, h1, _, h3, h4, _, _, h7⟩ := hmem e he
  have hm1idx := (FileStore.liveObjects_mem s hs m1 hm1).1
  have hm1k : m1.key = k := by rw [← h1, hek]
  rw [hm1k] at hm1idx
  have hsame := UMap.find_of_mem _ _ _ hs.keys_nodup hm1idx
  rw [hf] at hsame
  simp only [Option.some.injEq] at hsame
  subst hsame
  refine ⟨e.2, ?_, ?_, h3, h7⟩
  · apply UMap.find_of_mem _ _ _ hinv.keys_nodup
    rw [← hek]
    exact he
  · rw [h4, hd]

theorem FileStore.gc_find_none (s : FileStore) (hs : s.Inv) (k : Int)
    (h : ∀ m, UMap.find s.index_ k = some m → m.deleted = true) :
    UMap.find (s.garbageCollect IoEnv.ok).index_ k = none := by
  rw [FileStore.garbageCollect_eq s hs]
  rw [UMap.find_eq_none_iff]
  show k ∉ (FileStore.layout 0 s.liveObjects).map Prod.fst
  rw [FileStore.layout_keys]
  intro hk
  obtain ⟨m, hm, hmk⟩ := List.mem_map.mp hk
  obtain ⟨hidx, hd⟩ := FileStore.liveObjects_mem s hs m hm
  rw [hmk] at hidx
  have := h m (UMap.find_of_mem _ _ _ hs.keys_nodup hidx)
  rw [hd] at this
  exact Bool.noConfusion this

/-- Compaction does not change what `get` returns. -/
theorem FileStore.get_gc (s : FileStore) (hs : s.Inv) (k : Int) :
    ((s.garbageCollect IoEnv.ok).get k IoEnv.ok).1 = (s.get k IoEnv.ok).1 := by
  cases hf : UMap.find s.index_ k with
  | none =>
    have h := FileStore.gc_find_none s hs k (by intro m hm; rw [hf] at hm; exact Option.noConfusion hm)
    rw [FileStore.get_eq_absent _ k _ h, FileStore.get_eq_absent s k _ hf]
  | some m =>
    cases hd : m.deleted with
    | true =>
      have h := FileStore.gc_find_none s hs k (by
        intro m1 hm1
        rw [hf] at hm1
        simp only [Option.some.injEq] at hm1
        rw [← hm1, hd])
      rw [FileStore.get_eq_absent _ k _ h, FileStore.get_eq_deleted s k m _ hf hd]
    | false =>
      obtain ⟨m1, h1, h2, _, h4⟩ := FileStore.gc_find_live s hs k m hf hd
      rw [FileStore.get_eq_live _ hs.fs_gc k m1 h1 h2,
        FileStore.get_eq_live s hs k m hf hd]
      exact h4

/-! ## The live records hold the last written values -/

theorem lastPutValue_snoc (ops : List FileOp) (op : FileOp) (k : Int) :
    lastPutValue (ops ++ [op]) k =
      match op with
      | .put k1 v => if k1 = k then some v else lastPutValue ops k
      | _ => lastPutValue ops k := by
  cases op <;> simp [lastPutValue, List.foldl_append]

theorem FileStore.Sound.apply_sound {ops : List FileOp} {s : FileStore} (hs : s.Inv)
    (h : FileStore.Sound ops s) (op : FileOp) :
    FileStore.Sound (ops ++ [op]) (s.apply op) := by
  intro e he hd
  cases op with
  | put k v =>
    simp only [FileStore.apply] at he
    rw [FileStore.fs_put_eq s hs] at he
    simp only [FileStore.apply, lastPutValue_snoc]
    rw [FileStore.fs_put_eq s hs]
    rcases UMap.mem_assign_ne _ _ _ _ hs.keys_nodup he with h1 | ⟨h1, h2⟩
    · subst h1
      refine ⟨v, by simp, rfl, ?_⟩
      simp only [hs.size_eq]
      have := readAt_append_right s.file_data v []
      simpa using this
    · obtain ⟨w, hw1, hw2, hw3⟩ := h e h1 hd
      have hne : ¬ k = e.1 := fun hh => h2 hh.symm
      refine ⟨w, by simp [hne, hw1], hw2, ?_⟩
      have hr := hs.in_range e h1
      rw [hs.size_eq] at hr
      simp only []
      rw [readAt_append_left _ _ _ _ hr]
      exact hw3
  | get k =>
    obtain ⟨c, hc⟩ := FileStore.get_state s hs k
    simp only [FileStore.apply] at he ⊢
    rw [hc] at he ⊢
    simp only [lastPutValue_snoc]
    exact h e he hd
  | del k =>
    simp only [FileStore.apply] at he ⊢
    simp only [lastPutValue_snoc]
    cases hf : UMap.find s.index_ k with
    | none =>
      rw [FileStore.del_eq_absent s k hf] at he ⊢
      exact h e he hd
    | some m =>
      cases hdel : m.deleted with
      | true =>
        rw [FileStore.del_eq_deleted s k m hf hdel] at he ⊢
        exact h e he hd
      | false =>
        rw [FileStore.del_eq_live s k m hf hdel] at he ⊢
        rcases UMap.mem_assign_ne _ _ _ _ hs.keys_nodup he with h1 | ⟨h1, _⟩
        · rw [h1] at hd
          exact Bool.noConfusion hd
        · exact h e h1 hd
  | garbageCollect =>
    simp only [FileStore.apply] at he ⊢
    simp only [lastPutValue_snoc]
    rw [FileStore.garbageCollect_eq s hs] at he ⊢
    have hr := FileStore.liveObjects_in_range s hs
    have hmem := FileStore.layout_mem s.file_data s.liveObjects hr []
    simp only [List.length_nil, List.nil_append, Nat.zero_add] at hmem
    obtain ⟨m, hm, h1, _, h3, _, _, _, h7⟩ := hmem e he
    obtain ⟨hidx, hlive⟩ := FileStore.liveObjects_mem s hs m hm
    obtain ⟨w, hw1, hw2, hw3⟩ := h (m.key, m) hidx hlive
    refine ⟨w, by rw [h1]; exact hw1, by rw [h3]; exact hw2, ?_⟩
    simp only [] at h7 ⊢
    rw [h7]
    exact hw3
  | restart b =>
    simp only [FileStore.apply] at he ⊢
    simp only [lastPutValue_snoc]
    cases b with
    | false =>
      rw [FileStore.restart_eq_plain s hs] at he ⊢
      exact h e he hd
    | true =>
      rw [FileStore.restart_eq_compacting s hs] at he ⊢
      rw [FileStore.garbageCollect_eq s hs] at he ⊢
      have hr := FileStore.liveObjects_in_range s hs
      have hmem := FileStore.layout_mem s.file_data s.liveObjects hr []
      simp only [List.length_nil, List.nil_append, Nat.zero_add] at hmem
      obtain ⟨m, hm, h1, _, h3, _, _, _, h7⟩ := hmem e he
      obtain ⟨hidx, hlive⟩ := FileStore.liveObjects_mem s hs m hm
      obtain ⟨w, hw1, hw2, hw3⟩ := h (m.key, m) hidx hlive
      refine ⟨w, by rw [h1]; exact hw1, by rw [h3]; exact hw2, ?_⟩
      simp only [] at h7 ⊢
      rw [h7]
      exact hw3

theorem FileStore.run_sound (ops : List FileOp) : FileStore.Sound ops (FileStore.run ops) := by
  induction ops using List.reverseRecOn with
  | nil =>
    intro e he
    simp [FileStore.run, FileStore.ctor, FileStore.loadIndex, Disk.empty] at he
  | append_singleton l op ih =>
    rw [FileStore.fs_run_snoc]
    exact ih.apply_sound (FileStore.fs_run_inv l) op

/-! ## The recency list addressed by iterators -/

theorem mem_withoutKey (l : List CacheNode) (k : Int) (n : CacheNode) :
    n ∈ withoutKey l k ↔ n ∈ l ∧ n.key ≠ k := by
  simp [withoutKey, List.mem_filter]

theorem withoutKey_sublist (l : List CacheNode) (k : Int) : (withoutKey l k).Sublist l :=
  List.filter_sublist _

theorem withoutKey_of_not_mem (l : List CacheNode) (k : Int)
    (h : k ∉ l.map CacheNode.key) : withoutKey l k = l := by
  unfold withoutKey
  rw [List.filter_eq_self]
  intro n hn
  have : n.key ≠ k := fun hk => h (List.mem_map.mpr ⟨n, hn, hk⟩)
  simp [this]

theorem nodeAt_of_mem (l : List CacheNode) (it : Nat) (n : CacheNode)
    (hnd : (l.map CacheNode.handle).Nodup) (hn : n ∈ l) (hh : n.handle = it) :
    nodeAt l it = some n := by
  induction l with
  | nil => simp at hn
  | cons a rest ih =>
    simp only [List.map_cons, List.nodup_cons] at hnd
    by_cases ha : a.handle = it
    · have hna : n = a := by
        rcases List.mem_cons.mp hn with h | h
        · exact h
        · exfalso
          apply hnd.1
          rw [ha, ← hh]
          exact List.mem_map.mpr ⟨n, h, rfl⟩
      subst hna
      simp only [nodeAt]
      rw [List.find?_cons_of_pos _ (by simpa using ha)]
    · have hn2 : n ∈ rest := by
        rcases List.mem_cons.mp hn with h | h
        · subst h
          exact absurd hh ha
        · exact h
      have := ih hnd.2 hn2
      simp only [nodeAt] at this ⊢
      rw [List.find?_cons_of_neg _ (by simpa using ha)]
      exact this

theorem nodeAt_none (l : List CacheNode) (it : Nat)
    (h : ∀ n ∈ l, n.handle ≠ it) : nodeAt l it = none := by
  simp only [nodeAt, List.find?_eq_none]
  intro n hn
  simpa using h n hn

theorem eraseAt_eq_withoutKey (l : List CacheNode) (it : Nat) (k : Int)
    (hb : ∀ n ∈ l, (n.handle = it ↔ n.key = k)) (hnd : (l.map CacheNode.key).Nodup) :
    eraseAt l it = withoutKey l k := by
  induction l with
  | nil => rfl
  | cons a rest ih =>
    simp only [List.map_cons, List.nodup_cons] at hnd
    have hrest := ih (fun n hn => hb n (List.mem_cons_of_mem _ hn)) hnd.2
    by_cases ha : a.handle = it
    · have hk : a.key = k := (hb a (List.mem_cons_self _ _)).mp ha
      have hnot : k ∉ rest.map CacheNode.key := by rw [← hk]; exact hnd.1
      simp only [eraseAt, withoutKey] at hrest ⊢
      simp only [List.eraseP_cons, List.filter_cons, ha, hk, beq_self_eq_true, if_true,
        decide_True, Bool.not_true, Bool.false_eq_true, if_false]
      have := withoutKey_of_not_mem rest k hnot
      simp only [withoutKey] at this
      exact this.symm
    · have hk : a.key ≠ k := fun h => ha ((hb a (List.mem_cons_self _ _)).mpr h)
      simp only [eraseAt, withoutKey] at hrest ⊢
      simp [List.eraseP_cons, List.filter_cons, ha, hk, hrest]

theorem setValueAt_handles (l : List CacheNode) (it : Nat) (v : Bytes) :
    (setValueAt l it v).map CacheNode.handle = l.map CacheNode.handle := by
  simp only [setValueAt, List.map_map]
  apply List.map_congr_left
  intro n _
  simp only [Function.comp]
  split <;> rfl

theorem setValueAt_keys (l : List CacheNode) (it : Nat) (v : Bytes) :
    (setValueAt l it v).map CacheNode.key = l.map CacheNode.key := by
  simp only [setValueAt, List.map_map]
  apply List.map_congr_left
  intro n _
  simp only [Function.comp]
  split <;> rfl

theorem mem_setValueAt (l : List CacheNode) (it : Nat) (v : Bytes) (x : CacheNode) :
    x ∈ setValueAt l it v ↔
      ∃ n ∈ l, x = if n.handle = it then { n with value := v } else n := by
  simp only [setValueAt, List.mem_map]
  constructor
  · rintro ⟨n, hn, rfl⟩
    exact ⟨n, hn, rfl⟩
  · rintro ⟨n, hn, rfl⟩
    exact ⟨n, hn, rfl⟩

theorem setValueAt_withoutKey (l : List CacheNode) (it : Nat) (k : Int) (v : Bytes)
    (hb : ∀ n ∈ l, (n.handle = it ↔ n.key = k)) :
    withoutKey (setValueAt l it v) k = withoutKey l k := by
  induction l with
  | nil => rfl
  | cons a rest ih =>
    have hrest := ih (fun n hn => hb n (List.mem_cons_of_mem _ hn))
    simp only [withoutKey, setValueAt] at hrest ⊢
    by_cases ha : a.handle = it
    · have hk : a.key = k := (hb a (List.mem_cons_self _ _)).mp ha
      simp [List.filter_cons, ha, hk, hrest]
    · have hk : a.key ≠ k := fun h => ha ((hb a (List.mem_cons_self _ _)).mpr h)
      simp [List.filter_cons, ha, hk, hrest]

/-- Splicing the node of key `k` to the front, when `it` designates it. -/
theorem spliceFront_eq (l : List CacheNode) (it : Nat) (k : Int) (n : CacheNode)
    (hb : ∀ x ∈ l, (x.handle = it ↔ x.key = k))
    (hh : (l.map CacheNode.handle).Nodup) (hk : (l.map CacheNode.key).Nodup)
    (hn : n ∈ l) (hnk : n.key = k) :
    spliceFront l it = n :: withoutKey l k := by
  have hit : n.handle = it := (hb n hn).mpr hnk
  simp only [spliceFront, nodeAt_of_mem l it n hh hn hit, eraseAt_eq_withoutKey l it k hb hk]

theorem touch_perm (l : List CacheNode) (n : CacheNode)
    (hk : (l.map CacheNode.key).Nodup) (hn : n ∈ l) :
    (n :: withoutKey l n.key).Perm l := by
  induction l with
  | nil => simp at hn
  | cons a rest ih =>
    simp only [List.map_cons, List.nodup_cons] at hk
    by_cases ha : n = a
    · subst ha
      have h1 : withoutKey (n :: rest) n.key = rest := by
        have := withoutKey_of_not_mem rest n.key hk.1
        simp only [withoutKey] at this ⊢
        simp [List.filter_cons, this]
      rw [h1]
    · have hn2 : n ∈ rest := by
        rcases List.mem_cons.mp hn with h | h
        · exact absurd h ha
        · exact h
      have hne : a.key ≠ n.key := by
        intro h
        apply hk.1
        rw [h]
        exact List.mem_map.mpr ⟨n, hn2, rfl⟩
      have h1 : withoutKey (a :: rest) n.key = a :: withoutKey rest n.key := by
        simp [withoutKey, List.filter_cons, hne]
      rw [h1]
      exact (List.Perm.swap a n _).trans (List.Perm.cons a (ih hk.2 hn2))

/-! ## Representation invariant of a shard -/

namespace LRUCacheSegment

theorem WF.seg_ctor (C : Nat) : (LRUCacheSegment.ctor C).WF := by
  refine { handles_nodup := by simp [LRUCacheSegment.ctor],
           keys_nodup := by simp [LRUCacheSegment.ctor],
           map_keys_nodup := by simp [LRUCacheSegment.ctor],
           map_iff := ?_, fresh_gt := ?_ }
  · intro k h
    simp [LRUCacheSegment.ctor, UMap.find]
  · intro n hn
    simp [LRUCacheSegment.ctor] at hn

theorem WF.find_node {s : LRUCacheSegment} (hs : s.WF) (n : CacheNode)
    (hn : n ∈ s.cache_list_) : UMap.find s.cache_map_ n.key = some n.handle :=
  (hs.map_iff n.key n.handle).mpr ⟨n, hn, rfl, rfl⟩

theorem WF.bridge {s : LRUCacheSegment} (hs : s.WF) (n : CacheNode)
    (hn : n ∈ s.cache_list_) :
    ∀ x ∈ s.cache_list_, (x.handle = n.handle ↔ x.key = n.key) := by
  intro x hx
  constructor
  · intro h
    have := List.inj_on_of_nodup_map hs.handles_nodup hx hn h
    rw [this]
  · intro h
    have := List.inj_on_of_nodup_map hs.keys_nodup hx hn h
    rw [this]

theorem WF.find_none_iff {s : LRUCacheSegment} (hs : s.WF) (k : Int) :
    UMap.find s.cache_map_ k = none ↔ k ∉ s.cache_list_.map CacheNode.key := by
  constructor
  · intro h hk
    obtain ⟨n, hn, hnk⟩ := List.mem_map.mp hk
    have := hs.find_node n hn
    rw [hnk, h] at this
    exact Option.noConfusion this
  · intro h
    cases hf : UMap.find s.cache_map_ k with
    | none => rfl
    | some it =>
      obtain ⟨n, hn, hnk, _⟩ := (hs.map_iff k it).mp hf
      exact absurd (List.mem_map.mpr ⟨n, hn, hnk⟩) h

/-- A `get` of a key the shard does not hold misses and changes nothing. -/
theorem get_eq_miss (s : LRUCacheSegment) (k : Int) (h : UMap.find s.cache_map_ k = none) :
    s.get k = (none, s) := by
  simp [LRUCacheSegment.get, h]

/-- A `get` of the key of a node the shard holds returns the value of the node
and moves the node to the front. -/
theorem get_eq_hit (s : LRUCacheSegment) (hs : s.WF) (n : CacheNode)
    (hn : n ∈ s.cache_list_) :
    s.get n.key =
      (some n.value, { s with cache_list_ := n :: withoutKey s.cache_list_ n.key }) := by
  have hsp := spliceFront_eq s.cache_list_ n.handle n.key n (hs.bridge n hn)
    hs.handles_nodup hs.keys_nodup hn rfl
  simp only [LRUCacheSegment.get, hs.find_node n hn, hsp]
  have : nodeAt (n :: withoutKey s.cache_list_ n.key) n.handle = some n := by
    simp only [nodeAt]
    rw [List.find?_cons_of_pos _ (by simp)]
  rw [this]

/-- A `put` on the key of a node the shard holds overwrites the value of the
node and moves it to the front. -/
theorem put_eq_update (s : LRUCacheSegment) (hs : s.WF) (n : CacheNode)
    (hn : n ∈ s.cache_list_) (v : Bytes) :
    s.put n.key v =
      { s with cache_list_ := { n with value := v } :: withoutKey s.cache_list_ n.key } := by
  have hb := hs.bridge n hn
  have hb2 : ∀ x ∈ setValueAt s.cache_list_ n.handle v, (x.handle = n.handle ↔ x.key = n.key) := by
    intro x hx
    obtain ⟨y, hy, rfl⟩ := (mem_setValueAt _ _ _ _).mp hx
    have := hb y hy
    split <;> simpa using this
  have hmem : ({ n with value := v } : CacheNode) ∈ setValueAt s.cache_list_ n.handle v := by
    rw [mem_setValueAt]
    exact ⟨n, hn, by simp⟩
  have hsp := spliceFront_eq (setValueAt s.cache_list_ n.handle v) n.handle n.key
    { n with value := v } hb2
    (by rw [setValueAt_handles]; exact hs.handles_nodup)
    (by rw [setValueAt_keys]; exact hs.keys_nodup) hmem rfl
  simp only [LRUCacheSegment.put, hs.find_node n hn, hsp,
    setValueAt_withoutKey s.cache_list_ n.handle n.key v hb]

/-- A `put` of a key the shard does not hold evicts if the shard is full and
inserts a new node at the front. -/
theorem put_eq_insert (s : LRUCacheSegment) (k : Int) (v : Bytes)
    (h : UMap.find s.cache_map_ k = none) :
    s.put k v =
      { s.evictIfFull with
        cache_list_ := { handle := s.evictIfFull.fresh, key := k, value := v }
          :: s.evictIfFull.cache_list_
        cache_map_ := UMap.assign s.evictIfFull.cache_map_ k s.evictIfFull.fresh
        fresh := s.evictIfFull.fresh + 1 } := by
  simp [LRUCacheSegment.put, h]

theorem UMap_erase_of_find_none {V : Type} (m : UMap V) (k : Int)
    (h : UMap.find m k = none) : UMap.erase m k = m := by
  rw [UMap.find_eq_none_iff] at h
  unfold UMap.erase
  rw [List.filter_eq_self]
  intro e he
  have : e.1 ≠ k := fun hk => h (List.mem_map.mpr ⟨e, he, hk⟩)
  simp [this]

/-- The call `remove` drops the node of the key, if there is one, and the map
entry of the key. -/
theorem seg_remove_eq (s : LRUCacheSegment) (hs : s.WF) (k : Int) :
    s.remove k =
      { s with
        cache_list_ := withoutKey s.cache_list_ k
        cache_map_ := UMap.erase s.cache_map_ k } := by
  cases hf : UMap.find s.cache_map_ k with
  | none =>
    have h1 := withoutKey_of_not_mem s.cache_list_ k ((hs.find_none_iff k).mp hf)
    simp only [LRUCacheSegment.remove, hf, h1, UMap_erase_of_find_none _ _ hf]
  | some it =>
    obtain ⟨n, hn, hnk, hnh⟩ := (hs.map_iff k it).mp hf
    have hb := hs.bridge n hn
    rw [hnk, hnh] at hb
    simp only [LRUCacheSegment.remove, hf, eraseAt_eq_withoutKey _ it k hb hs.keys_nodup]

end LRUCacheSegment

namespace LRUCacheSegment

/-- Replacing the recency list by a permutation of it keeps the invariant. -/
theorem WF.of_perm {s : LRUCacheSegment} (hs : s.WF) (l : List CacheNode)
    (hp : l.Perm s.cache_list_) : ({ s with cache_list_ := l } : LRUCacheSegment).WF := by
  refine { handles_nodup := ?_, keys_nodup := ?_, map_keys_nodup := hs.map_keys_nodup,
           map_iff := ?_, fresh_gt := ?_ }
  · exact ((hp.map CacheNode.handle).nodup_iff).mpr hs.handles_nodup
  · exact ((hp.map CacheNode.key).nodup_iff).mpr hs.keys_nodup
  · intro k h
    rw [hs.map_iff]
    constructor
    · rintro ⟨n, hn, h1, h2⟩
      exact ⟨n, hp.mem_iff.mpr hn, h1, h2⟩
    · rintro ⟨n, hn, h1, h2⟩
      exact ⟨n, hp.mem_iff.mp hn, h1, h2⟩
  · intro n hn
    exact hs.fresh_gt n (hp.mem_iff.mp hn)

theorem WF.seg_get {s : LRUCacheSegment} (hs : s.WF) (k : Int) : (s.get k).2.WF := by
  cases hf : UMap.find s.cache_map_ k with
  | none => rw [get_eq_miss s k hf]; exact hs
  | some it =>
    obtain ⟨n, hn, hnk, _⟩ := (hs.map_iff k it).mp hf
    rw [← hnk, get_eq_hit s hs n hn]
    exact hs.of_perm _ (touch_perm _ n hs.keys_nodup hn)

theorem WF.seg_remove {s : LRUCacheSegment} (hs : s.WF) (k : Int) : (s.remove k).WF := by
  rw [seg_remove_eq s hs k]
  refine { handles_nodup := ?_, keys_nodup := ?_, map_keys_nodup := ?_,
           map_iff := ?_, fresh_gt := ?_ }
  · exact List.Nodup.sublist ((withoutKey_sublist _ k).map _) hs.handles_nodup
  · exact List.Nodup.sublist ((withoutKey_sublist _ k).map _) hs.keys_nodup
  · exact List.Nodup.sublist ((List.filter_sublist _).map _) hs.map_keys_nodup
  · intro k1 h
    simp only [UMap.find_erase]
    by_cases hk : k = k1
    · subst hk
      simp only [if_true]
      constructor
      · intro h1
        exact Option.noConfusion h1
      · rintro ⟨n, hn, h1, _⟩
        exact absurd h1 ((mem_withoutKey _ _ _).mp hn).2
    · simp only [hk, if_false]
      rw [hs.map_iff]
      constructor
      · rintro ⟨n, hn, h1, h2⟩
        refine ⟨n, (mem_withoutKey _ _ _).mpr ⟨hn, ?_⟩, h1, h2⟩
        rw [h1]
        exact fun h3 => hk h3.symm
      · rintro ⟨n, hn, h1, h2⟩
        exact ⟨n, ((mem_withoutKey _ _ _).mp hn).1, h1, h2⟩
  · intro n hn
    exact hs.fresh_gt n ((mem_withoutKey _ _ _).mp hn).1

/-- The eviction branch on a full, non-empty shard: the last node of the list
goes, with the map entry of its key. -/
theorem evictIfFull_eq_full (s : LRUCacheSegment) (front : List CacheNode) (last : CacheNode)
    (hl : s.cache_list_ = front ++ [last]) (hfull : s.capacity_ ≤ s.cache_list_.length) :
    s.evictIfFull =
      { s with cache_map_ := UMap.erase s.cache_map_ last.key, cache_list_ := front } := by
  have h1 : s.cache_list_.getLast? = some last := by rw [hl]; simp
  have h2 : s.cache_list_.dropLast = front := by rw [hl]; simp
  simp only [LRUCacheSegment.evictIfFull, ge_iff_le, hfull, if_true, h1, h2]

theorem evictIfFull_eq_room (s : LRUCacheSegment) (h : s.cache_list_.length < s.capacity_) :
    s.evictIfFull = s := by
  have : ¬ s.capacity_ ≤ s.cache_list_.length := by omega
  simp [LRUCacheSegment.evictIfFull, this]

theorem evictIfFull_eq_empty (s : LRUCacheSegment) (h : s.cache_list_ = []) :
    s.evictIfFull = s := by
  simp [LRUCacheSegment.evictIfFull, h]

/-- The three cases of the eviction branch. -/
theorem evictIfFull_cases (s : LRUCacheSegment) :
    s.evictIfFull = s ∨
    ∃ front last, s.cache_list_ = front ++ [last] ∧ s.capacity_ ≤ s.cache_list_.length ∧
      s.evictIfFull =
        { s with cache_map_ := UMap.erase s.cache_map_ last.key, cache_list_ := front } := by
  by_cases hfull : s.capacity_ ≤ s.cache_list_.length
  · cases hlast : s.cache_list_.getLast? with
    | none =>
      left
      exact evictIfFull_eq_empty s (List.getLast?_eq_none_iff.mp hlast)
    | some last =>
      right
      have hl : s.cache_list_ = s.cache_list_.dropLast ++ [last] :=
        (List.dropLast_append_getLast? last hlast).symm
      exact ⟨_, last, hl, hfull, evictIfFull_eq_full s _ last hl hfull⟩
  · left
    exact evictIfFull_eq_room s (by omega)

theorem WF.evictIfFull {s : LRUCacheSegment} (hs : s.WF) : s.evictIfFull.WF := by
  rcases evictIfFull_cases s with h | ⟨front, last, hl, _, h⟩
  · rw [h]; exact hs
  · rw [h]
    have hsub : front.Sublist s.cache_list_ := by
      rw [hl]
      exact List.sublist_append_left _ _
    have hlast_mem : last ∈ s.cache_list_ := by rw [hl]; simp
    have hkeys := hs.keys_nodup
    rw [hl] at hkeys
    simp only [List.map_append, List.map_cons, List.map_nil] at hkeys
    have hnot : ∀ n ∈ front, n.key ≠ last.key := by
      intro n hn hk
      exact (List.nodup_append.mp hkeys).2.2 (List.mem_map.mpr ⟨n, hn, rfl⟩) (by simp [hk])
    refine { handles_nodup := ?_, keys_nodup := ?_, map_keys_nodup := ?_,
             map_iff := ?_, fresh_gt := ?_ }
    · exact List.Nodup.sublist (hsub.map _) hs.handles_nodup
    · exact List.Nodup.sublist (hsub.map _) hs.keys_nodup
    · exact List.Nodup.sublist ((List.filter_sublist _).map _) hs.map_keys_nodup
    · intro k1 it
      simp only [UMap.find_erase]
      by_cases hk : last.key = k1
      · simp only [hk, if_true]
        constructor
        · intro h1
          exact Option.noConfusion h1
        · rintro ⟨n, hn, h1, _⟩
          exact absurd (h1.trans hk.symm) (hnot n hn)
      · simp only [hk, if_false]
        rw [hs.map_iff]
        constructor
        · rintro ⟨n, hn, h1, h2⟩
          rw [hl] at hn
          rcases List.mem_append.mp hn with h3 | h3
          · exact ⟨n, h3, h1, h2⟩
          · simp only [List.mem_singleton] at h3
            rw [h3] at h1
            exact absurd h1 hk
        · rintro ⟨n, hn, h1, h2⟩
          exact ⟨n, hsub.subset hn, h1, h2⟩
    · intro n hn
      exact hs.fresh_gt n (hsub.subset hn)

theorem evictIfFull_find_none (s : LRUCacheSegment) (k : Int)
    (h : UMap.find s.cache_map_ k = none) : UMap.find s.evictIfFull.cache_map_ k = none := by
  rcases evictIfFull_cases s with h1 | ⟨front, last, _, _, h1⟩
  · rw [h1]; exact h
  · rw [h1]
    simp only [UMap.find_erase]
    split
    · rfl
    · exact h

theorem WF.insert {s : LRUCacheSegment} (hs : s.WF) (k : Int) (v : Bytes)
    (h : UMap.find s.cache_map_ k = none) :
    ({ s with
        cache_list_ := { handle := s.fresh, key := k, value := v } :: s.cache_list_
        cache_map_ := UMap.assign s.cache_map_ k s.fresh
        fresh := s.fresh + 1 } : LRUCacheSegment).WF := by
  have hk := (hs.find_none_iff k).mp h
  refine { handles_nodup := ?_, keys_nodup := ?_, map_keys_nodup := ?_,
           map_iff := ?_, fresh_gt := ?_ }
  · simp only [List.map_cons, List.nodup_cons]
    refine ⟨?_, hs.handles_nodup⟩
    intro hmem
    obtain ⟨n, hn, hnh⟩ := List.mem_map.mp hmem
    have := hs.fresh_gt n hn
    omega
  · simp only [List.map_cons, List.nodup_cons]
    exact ⟨hk, hs.keys_nodup⟩
  · exact UMap.keys_nodup_assign _ _ _ hs.map_keys_nodup
  · intro k1 it
    simp only [UMap.find_assign]
    by_cases hk1 : k = k1
    · subst hk1
      simp only [if_true, Option.some.injEq, List.mem_cons]
      constructor
      · intro h1
        exact ⟨_, Or.inl rfl, rfl, h1⟩
      · rintro ⟨n, hn, h1, h2⟩
        rcases hn with h3 | h3
        · rw [h3] at h2
          exact h2
        · exact absurd (List.mem_map.mpr ⟨n, h3, h1⟩) hk
    · simp only [hk1, if_false, List.mem_cons]
      rw [hs.map_iff]
      constructor
      · rintro ⟨n, hn, h1, h2⟩
        exact ⟨n, Or.inr hn, h1, h2⟩
      · rintro ⟨n, hn, h1, h2⟩
        rcases hn with h3 | h3
        · rw [h3] at h1
          exact absurd h1 hk1
        · exact ⟨n, h3, h1, h2⟩
  · intro n hn
    simp only [List.mem_cons] at hn
    rcases hn with h3 | h3
    · rw [h3]
      exact Nat.lt_succ_self _
    · exact Nat.lt_succ_of_lt (hs.fresh_gt n h3)

theorem WF.seg_put {s : LRUCacheSegment} (hs : s.WF) (k : Int) (v : Bytes) : (s.put k v).WF := by
  cases hf : UMap.find s.cache_map_ k with
  | none =>
    rw [put_eq_insert s k v hf]
    exact hs.evictIfFull.insert k v (evictIfFull_find_none s k hf)
  | some it =>
    obtain ⟨n, hn, hnk, _⟩ := (hs.map_iff k it).mp hf
    rw [← hnk, put_eq_update s hs n hn]
    have hp := touch_perm _ n hs.keys_nodup hn
    have h1 := hs.of_perm _ hp
    refine { handles_nodup := h1.handles_nodup, keys_nodup := h1.keys_nodup,
             map_keys_nodup := h1.map_keys_nodup, map_iff := ?_, fresh_gt := ?_ }
    · intro k1 h
      rw [h1.map_iff]
      simp only [List.mem_cons]
      constructor
      · rintro ⟨x, hx, h2, h3⟩
        rcases hx with h4 | h4
        · exact ⟨{ n with value := v }, Or.inl rfl, by rw [← h2, h4], by rw [← h3, h4]⟩
        · exact ⟨x, Or.inr h4, h2, h3⟩
      · rintro ⟨x, hx, h2, h3⟩
        rcases hx with h4 | h4
        · exact ⟨n, Or.inl rfl, by rw [← h2, h4], by rw [← h3, h4]⟩
        · exact ⟨x, Or.inr h4, h2, h3⟩
    · intro x hx
      simp only [List.mem_cons] at hx
      rcases hx with h4 | h4
      · rw [h4]
        exact hs.fresh_gt n hn
      · exact hs.fresh_gt x ((mem_withoutKey _ _ _).mp h4).1

end LRUCacheSegment

namespace LRUCacheSegment

theorem mem_get {s : LRUCacheSegment} (hs : s.WF) (k : Int) (n : CacheNode) :
    n ∈ (s.get k).2.cache_list_ ↔ n ∈ s.cache_list_ := by
  cases hf : UMap.find s.cache_map_ k with
  | none => rw [get_eq_miss s k hf]
  | some it =>
    obtain ⟨x, hx, hxk, _⟩ := (hs.map_iff k it).mp hf
    rw [← hxk, get_eq_hit s hs x hx]
    exact (touch_perm _ x hs.keys_nodup hx).mem_iff

theorem mem_evictIfFull (s : LRUCacheSegment) (n : CacheNode)
    (h : n ∈ s.evictIfFull.cache_list_) : n ∈ s.cache_list_ := by
  rcases evictIfFull_cases s with h1 | ⟨front, last, hl, _, h1⟩
  · rw [h1] at h; exact h
  · rw [h1] at h
    rw [hl]
    exact List.mem_append_left _ h

theorem mem_put {s : LRUCacheSegment} (hs : s.WF) (k : Int) (v : Bytes) (n : CacheNode)
    (h : n ∈ (s.put k v).cache_list_) :
    (n.key = k ∧ n.value = v) ∨ (n ∈ s.cache_list_ ∧ n.key ≠ k) := by
  cases hf : UMap.find s.cache_map_ k with
  | none =>
    rw [put_eq_insert s k v hf] at h
    simp only [List.mem_cons] at h
    rcases h with h | h
    · left
      rw [h]
      exact ⟨rfl, rfl⟩
    · right
      have hn := mem_evictIfFull s n h
      refine ⟨hn, ?_⟩
      intro hk
      exact (hs.find_none_iff k).mp hf (List.mem_map.mpr ⟨n, hn, hk⟩)
  | some it =>
    obtain ⟨x, hx, hxk, _⟩ := (hs.map_iff k it).mp hf
    rw [← hxk, put_eq_update s hs x hx] at h
    simp only [List.mem_cons] at h
    rcases h with h | h
    · left
      rw [h]
      exact ⟨hxk, rfl⟩
    · right
      rw [← hxk]
      exact (mem_withoutKey _ _ _).mp h

theorem mem_remove {s : LRUCacheSegment} (hs : s.WF) (k : Int) (n : CacheNode)
    (h : n ∈ (s.remove k).cache_list_) : n ∈ s.cache_list_ ∧ n.key ≠ k := by
  rw [seg_remove_eq s hs k] at h
  exact (mem_withoutKey _ _ _).mp h

/-- After `put`, the node of the key is the first of the list and holds the
value. -/
theorem put_head {s : LRUCacheSegment} (hs : s.WF) (k : Int) (v : Bytes) :
    ∃ n rest, (s.put k v).cache_list_ = n :: rest ∧ n.key = k ∧ n.value = v := by
  cases hf : UMap.find s.cache_map_ k with
  | none =>
    rw [put_eq_insert s k v hf]
    exact ⟨_, _, rfl, rfl, rfl⟩
  | some it =>
    obtain ⟨x, hx, hxk, _⟩ := (hs.map_iff k it).mp hf
    rw [← hxk, put_eq_update s hs x hx]
    exact ⟨_, _, rfl, rfl, rfl⟩

/-- A `get` of the key of the first node returns its value and leaves the
shard as it is. -/
theorem get_head {s : LRUCacheSegment} (hs : s.WF) (n : CacheNode) (rest : List CacheNode)
    (hl : s.cache_list_ = n :: rest) : s.get n.key = (some n.value, s) := by
  have hn : n ∈ s.cache_list_ := by rw [hl]; exact List.mem_cons_self _ _
  rw [get_eq_hit s hs n hn]
  have hk := hs.keys_nodup
  rw [hl] at hk
  simp only [List.map_cons, List.nodup_cons] at hk
  have h1 : withoutKey s.cache_list_ n.key = rest := by
    rw [hl]
    have := withoutKey_of_not_mem rest n.key hk.1
    simp only [withoutKey] at this ⊢
    simp [List.filter_cons, this]
  rw [h1, ← hl]

/-- A `get` right after a `put` of the same key hits, returns the value put and
leaves the shard as the `put` left it. -/
theorem seg_get_put_same {s : LRUCacheSegment} (hs : s.WF) (k : Int) (v : Bytes) :
    (s.put k v).get k = (some v, s.put k v) := by
  obtain ⟨n, rest, hl, hk, hv⟩ := put_head hs k v
  have := get_head (hs.seg_put k v) n rest hl
  rw [hk, hv] at this
  exact this

theorem get_eq_some_iff {s : LRUCacheSegment} (hs : s.WF) (k : Int) (x : Bytes) :
    (s.get k).1 = some x ↔ ∃ n ∈ s.cache_list_, n.key = k ∧ n.value = x := by
  cases hf : UMap.find s.cache_map_ k with
  | none =>
    rw [get_eq_miss s k hf]
    constructor
    · intro h
      exact Option.noConfusion h
    · rintro ⟨n, hn, hnk, _⟩
      exact absurd (List.mem_map.mpr ⟨n, hn, hnk⟩) ((hs.find_none_iff k).mp hf)
  | some it =>
    obtain ⟨y, hy, hyk, _⟩ := (hs.map_iff k it).mp hf
    rw [← hyk, get_eq_hit s hs y hy]
    simp only [Option.some.injEq]
    constructor
    · intro h
      exact ⟨y, hy, rfl, h⟩
    · rintro ⟨n, hn, hnk, hnv⟩
      have := List.inj_on_of_nodup_map hs.keys_nodup hn hy hnk
      rw [← this]
      exact hnv

theorem get_eq_none_iff {s : LRUCacheSegment} (hs : s.WF) (k : Int) :
    (s.get k).1 = none ↔ k ∉ s.cache_list_.map CacheNode.key := by
  rw [← hs.find_none_iff]
  cases hf : UMap.find s.cache_map_ k with
  | none =>
    rw [get_eq_miss s k hf]
    simp
  | some it =>
    obtain ⟨y, hy, hyk, _⟩ := (hs.map_iff k it).mp hf
    rw [← hyk, get_eq_hit s hs y hy]
    simp

end LRUCacheSegment

/-! ## Invariant of the sharded cache -/

namespace LRUCache

theorem WF.cache_ctor (N S : Nat) : (LRUCache.ctor N S).WF := by
  refine { len := by simp [LRUCache.ctor], seg_wf := ?_, routed := ?_ }
  · intro j seg h
    simp only [LRUCache.ctor, List.getElem?_replicate] at h
    split at h
    · simp only [Option.some.injEq] at h
      rw [← h]
      exact LRUCacheSegment.WF.seg_ctor _
    · exact Option.noConfusion h
  · intro j seg h n hn
    simp only [LRUCache.ctor, List.getElem?_replicate] at h
    split at h
    · simp only [Option.some.injEq] at h
      rw [← h] at hn
      simp [LRUCacheSegment.ctor] at hn
    · exact Option.noConfusion h

/-- With at least one shard, the shard a key is routed to exists. -/
theorem WF.segment_exists {c : LRUCache} (hc : c.WF) (hpos : 0 < c.num_segments_) (k : Int) :
    ∃ seg, c.segments_[c.getSegmentIndex k]? = some seg := by
  have hlt : c.getSegmentIndex k < c.segments_.length := by
    rw [hc.len]
    exact Nat.mod_lt _ hpos
  exact ⟨c.segments_[c.getSegmentIndex k], List.getElem?_eq_getElem hlt⟩

theorem cache_get_eq (c : LRUCache) (k : Int) (seg : LRUCacheSegment)
    (h : c.segments_[c.getSegmentIndex k]? = some seg) :
    c.get k = ((seg.get k).1,
      { c with segments_ := c.segments_.set (c.getSegmentIndex k) (seg.get k).2 }) := by
  simp [LRUCache.get, h]

theorem cache_put_eq (c : LRUCache) (k : Int) (v : Bytes) (seg : LRUCacheSegment)
    (h : c.segments_[c.getSegmentIndex k]? = some seg) :
    c.put k v = { c with segments_ := c.segments_.set (c.getSegmentIndex k) (seg.put k v) } := by
  simp [LRUCache.put, h]

theorem cache_remove_eq (c : LRUCache) (k : Int) (seg : LRUCacheSegment)
    (h : c.segments_[c.getSegmentIndex k]? = some seg) :
    c.remove k = { c with segments_ := c.segments_.set (c.getSegmentIndex k) (seg.remove k) } := by
  simp [LRUCache.remove, h]

theorem get_eq_none (c : LRUCache) (k : Int) (h : c.segments_[c.getSegmentIndex k]? = none) :
    c.get k = (none, c) := by
  simp [LRUCache.get, h]

theorem put_eq_none (c : LRUCache) (k : Int) (v : Bytes)
    (h : c.segments_[c.getSegmentIndex k]? = none) : c.put k v = c := by
  simp [LRUCache.put, h]

theorem remove_eq_none (c : LRUCache) (k : Int)
    (h : c.segments_[c.getSegmentIndex k]? = none) : c.remove k = c := by
  simp [LRUCache.remove, h]

/-- Replacing the shard at index `i` by a shard that satisfies its invariant
and whose nodes are routed to `i` keeps the invariant of the cache. -/
theorem WF.set {c : LRUCache} (hc : c.WF) (i : Nat) (seg1 : LRUCacheSegment)
    (hwf : seg1.WF) (hr : ∀ n ∈ seg1.cache_list_, c.getSegmentIndex n.key = i) :
    ({ c with segments_ := c.segments_.set i seg1 } : LRUCache).WF := by
  refine { len := by simp [hc.len], seg_wf := ?_, routed := ?_ }
  · intro j seg h
    simp only [List.getElem?_set] at h
    split at h
    · split at h
      · simp only [Option.some.injEq] at h
        rw [← h]
        exact hwf
      · exact Option.noConfusion h
    · exact hc.seg_wf j seg h
  · intro j seg h n hn
    simp only [List.getElem?_set] at h
    show hashInt n.key % c.num_segments_ = j
    split at h
    · split at h
      · simp only [Option.some.injEq] at h
        rw [← h] at hn
        rename_i hij _
        rw [← hij]
        exact hr n hn
      · exact Option.noConfusion h
    · exact hc.routed j seg h n hn

theorem WF.cache_get {c : LRUCache} (hc : c.WF) (k : Int) : (c.get k).2.WF := by
  cases h : c.segments_[c.getSegmentIndex k]? with
  | none => rw [get_eq_none c k h]; exact hc
  | some seg =>
    rw [cache_get_eq c k seg h]
    have hseg := hc.seg_wf _ seg h
    refine hc.set _ _ (hseg.seg_get k) ?_
    intro n hn
    exact hc.routed _ seg h n ((LRUCacheSegment.mem_get hseg k n).mp hn)

theorem WF.cache_put {c : LRUCache} (hc : c.WF) (k : Int) (v : Bytes) : (c.put k v).WF := by
  cases h : c.segments_[c.getSegmentIndex k]? with
  | none => rw [put_eq_none c k v h]; exact hc
  | some seg =>
    rw [cache_put_eq c k v seg h]
    have hseg := hc.seg_wf _ seg h
    refine hc.set _ _ (hseg.seg_put k v) ?_
    intro n hn
    rcases LRUCacheSegment.mem_put hseg k v n hn with h1 | h1
    · rw [h1.1]
    · exact hc.routed _ seg h n h1.1

theorem WF.cache_remove {c : LRUCache} (hc : c.WF) (k : Int) : (c.remove k).WF := by
  cases h : c.segments_[c.getSegmentIndex k]? with
  | none => rw [remove_eq_none c k h]; exact hc
  | some seg =>
    rw [cache_remove_eq c k seg h]
    have hseg := hc.seg_wf _ seg h
    refine hc.set _ _ (hseg.seg_remove k) ?_
    intro n hn
    exact hc.routed _ seg h n (LRUCacheSegment.mem_remove hseg k n hn).1

end LRUCache

/-! ## The nodes of the cache -/

namespace LRUCache

theorem hasNode_iff (c : LRUCache) (n : CacheNode) :
    c.HasNode n ↔ ∃ (j : Nat) (seg : LRUCacheSegment),
      c.segments_[j]? = some seg ∧ n ∈ seg.cache_list_ := by
  constructor
  · rintro ⟨seg, hseg, hn⟩
    obtain ⟨j, hj⟩ := List.mem_iff_getElem?.mp hseg
    exact ⟨j, seg, hj, hn⟩
  · rintro ⟨j, seg, hj, hn⟩
    exact ⟨seg, List.mem_iff_getElem?.mpr ⟨j, hj⟩, hn⟩

/-- The nodes of a cache in which the shard of key `k` was replaced: nodes of
the new shard, or nodes of another shard, whose key is then not `k`. -/
theorem hasNode_set {c : LRUCache} (hc : c.WF) (k : Int) (seg1 : LRUCacheSegment)
    (n : CacheNode)
    (h : ({ c with segments_ := c.segments_.set (c.getSegmentIndex k) seg1 } : LRUCache).HasNode n) :
    n ∈ seg1.cache_list_ ∨ (c.HasNode n ∧ n.key ≠ k) := by
  rw [hasNode_iff] at h
  obtain ⟨j, seg, hj, hn⟩ := h
  simp only [List.getElem?_set] at hj
  split at hj
  · split at hj
    · simp only [Option.some.injEq] at hj
      left
      rw [hj]
      exact hn
    · exact Option.noConfusion hj
  · right
    rename_i hne
    refine ⟨(hasNode_iff c n).mpr ⟨j, seg, hj, hn⟩, ?_⟩
    intro hk
    apply hne
    rw [← hk]
    exact hc.routed j seg hj n hn

theorem hasNode_key_ne_of_none {c : LRUCache} (hc : c.WF) (k : Int) (n : CacheNode)
    (h : c.segments_[c.getSegmentIndex k]? = none) (hn : c.HasNode n) : n.key ≠ k := by
  rw [hasNode_iff] at hn
  obtain ⟨j, seg, hj, hmem⟩ := hn
  intro hk
  have := hc.routed j seg hj n hmem
  rw [hk] at this
  rw [this, hj] at h
  exact Option.noConfusion h

theorem hasNode_of_segment (c : LRUCache) (j : Nat) (seg : LRUCacheSegment) (n : CacheNode)
    (hj : c.segments_[j]? = some seg) (hn : n ∈ seg.cache_list_) : c.HasNode n :=
  (hasNode_iff c n).mpr ⟨j, seg, hj, hn⟩

theorem hasNode_put {c : LRUCache} (hc : c.WF) (k : Int) (v : Bytes) (n : CacheNode)
    (h : (c.put k v).HasNode n) :
    (n.key = k ∧ n.value = v) ∨ (c.HasNode n ∧ n.key ≠ k) := by
  cases hseg : c.segments_[c.getSegmentIndex k]? with
  | none =>
    rw [put_eq_none c k v hseg] at h
    exact Or.inr ⟨h, hasNode_key_ne_of_none hc k n hseg h⟩
  | some seg =>
    rw [cache_put_eq c k v seg hseg] at h
    rcases hasNode_set hc k _ n h with h1 | h1
    · rcases LRUCacheSegment.mem_put (hc.seg_wf _ seg hseg) k v n h1 with h2 | h2
      · exact Or.inl h2
      · exact Or.inr ⟨hasNode_of_segment c _ seg n hseg h2.1, h2.2⟩
    · exact Or.inr h1

theorem hasNode_get {c : LRUCache} (hc : c.WF) (k : Int) (n : CacheNode)
    (h : (c.get k).2.HasNode n) : c.HasNode n := by
  cases hseg : c.segments_[c.getSegmentIndex k]? with
  | none =>
    rw [get_eq_none c k hseg] at h
    exact h
  | some seg =>
    rw [cache_get_eq c k seg hseg] at h
    rcases hasNode_set hc k _ n h with h1 | h1
    · exact hasNode_of_segment c _ seg n hseg
        ((LRUCacheSegment.mem_get (hc.seg_wf _ seg hseg) k n).mp h1)
    · exact h1.1

theorem hasNode_remove {c : LRUCache} (hc : c.WF) (k : Int) (n : CacheNode)
    (h : (c.remove k).HasNode n) : c.HasNode n ∧ n.key ≠ k := by
  cases hseg : c.segments_[c.getSegmentIndex k]? with
  | none =>
    rw [remove_eq_none c k hseg] at h
    exact ⟨h, hasNode_key_ne_of_none hc k n hseg h⟩
  | some seg =>
    rw [cache_remove_eq c k seg hseg] at h
    rcases hasNode_set hc k _ n h with h1 | h1
    · have := LRUCacheSegment.mem_remove (hc.seg_wf _ seg hseg) k n h1
      exact ⟨hasNode_of_segment c _ seg n hseg this.1, this.2⟩
    · exact h1

/-- A hit of the cache returns the value of a node the cache holds for the
key. -/
theorem hasNode_of_get {c : LRUCache} (hc : c.WF) (k : Int) (x : Bytes)
    (h : (c.get k).1 = some x) : ∃ n, c.HasNode n ∧ n.key = k ∧ n.value = x := by
  cases hseg : c.segments_[c.getSegmentIndex k]? with
  | none =>
    rw [get_eq_none c k hseg] at h
    exact Option.noConfusion h
  | some seg =>
    rw [cache_get_eq c k seg hseg] at h
    obtain ⟨n, hn, hk, hv⟩ :=
      (LRUCacheSegment.get_eq_some_iff (hc.seg_wf _ seg hseg) k x).mp h
    exact ⟨n, hasNode_of_segment c _ seg n hseg hn, hk, hv⟩

theorem hasNode_ctor (N S : Nat) (n : CacheNode) : ¬ (LRUCache.ctor N S).HasNode n := by
  rintro ⟨seg, hseg, hn⟩
  simp only [LRUCache.ctor] at hseg
  have := List.eq_of_mem_replicate hseg
  rw [this] at hn
  simp [LRUCacheSegment.ctor] at hn

end LRUCache

/-! ## Invariant of the engine -/

namespace FileStore

theorem Backs.put_ne {fs : FileStore} (hs : fs.Inv) {n : CacheNode} (h : fs.Backs n)
    (k : Int) (v : Bytes) (hk : n.key ≠ k) : (fs.put k v IoEnv.ok).2.Backs n := by
  obtain ⟨m, hf, hd, hr⟩ := h
  have hne : ¬ k = n.key := fun hh => hk hh.symm
  refine ⟨m, ?_, hd, ?_⟩
  · rw [FileStore.find_put fs hs]
    simp [hne, hf]
  · rw [FileStore.fs_put_eq fs hs]
    have hrange := hs.in_range (n.key, m) (UMap.mem_of_find _ _ _ hf)
    rw [hs.size_eq] at hrange
    simp only []
    rw [readAt_append_left _ _ _ _ hrange]
    exact hr

theorem Backs.put_same {fs : FileStore} (hs : fs.Inv) (n : CacheNode)
    (k : Int) (v : Bytes) (hk : n.key = k) (hv : n.value = v) :
    (fs.put k v IoEnv.ok).2.Backs n := by
  refine ⟨{ key := k, offset := fs.file_size_, size := v.length, deleted := false },
    ?_, rfl, ?_⟩
  · rw [FileStore.find_put fs hs, hk]
    simp only [if_true]
  · rw [FileStore.fs_put_eq fs hs]
    simp only [hs.size_eq, hv]
    have := readAt_append_right fs.file_data v []
    simpa using this

theorem find_del_ne (fs : FileStore) (k k1 : Int) (hne : k ≠ k1) :
    UMap.find (fs.del k).2.index_ k1 = UMap.find fs.index_ k1 := by
  cases hf : UMap.find fs.index_ k with
  | none => rw [FileStore.del_eq_absent fs k hf]
  | some m =>
    cases hd : m.deleted with
    | true => rw [FileStore.del_eq_deleted fs k m hf hd]
    | false =>
      rw [FileStore.del_eq_live fs k m hf hd]
      simp only [UMap.find_assign, hne, if_false]

theorem del_file_data (fs : FileStore) (k : Int) : (fs.del k).2.file_data = fs.file_data := by
  cases hf : UMap.find fs.index_ k with
  | none => rw [FileStore.del_eq_absent fs k hf]
  | some m =>
    cases hd : m.deleted with
    | true => rw [FileStore.del_eq_deleted fs k m hf hd]
    | false => rw [FileStore.del_eq_live fs k m hf hd]

theorem Backs.del_ne {fs : FileStore} {n : CacheNode} (h : fs.Backs n)
    (k : Int) (hk : n.key ≠ k) : (fs.del k).2.Backs n := by
  obtain ⟨m, hf, hd, hr⟩ := h
  refine ⟨m, ?_, hd, ?_⟩
  · rw [find_del_ne fs k n.key (fun hh => hk hh.symm)]
    exact hf
  · rw [del_file_data]
    exact hr

theorem Backs.after_get {fs : FileStore} (hs : fs.Inv) {n : CacheNode} (h : fs.Backs n)
    (k : Int) : (fs.get k IoEnv.ok).2.Backs n := by
  obtain ⟨c, hc⟩ := FileStore.get_state fs hs k
  rw [hc]
  exact h

theorem Backs.after_gc {fs : FileStore} (hs : fs.Inv) {n : CacheNode} (h : fs.Backs n) :
    (fs.garbageCollect IoEnv.ok).Backs n := by
  obtain ⟨m, hf, hd, hr⟩ := h
  obtain ⟨m1, h1, h2, _, h4⟩ := FileStore.gc_find_live fs hs n.key m hf hd
  exact ⟨m1, h1, h2, h4.trans hr⟩

/-- A non-empty result of `get` is the content of a live record. -/
theorem Backs.of_get {fs : FileStore} (hs : fs.Inv) (n : CacheNode) (k : Int)
    (hk : n.key = k) (hv : n.value = (fs.get k IoEnv.ok).1) (hne : (fs.get k IoEnv.ok).1 ≠ []) :
    (fs.get k IoEnv.ok).2.Backs n := by
  cases hf : UMap.find fs.index_ k with
  | none =>
    rw [FileStore.get_eq_absent fs k _ hf] at hne
    exact absurd rfl hne
  | some m =>
    cases hd : m.deleted with
    | true =>
      rw [FileStore.get_eq_deleted fs k m _ hf hd] at hne
      exact absurd rfl hne
    | false =>
      rw [FileStore.get_eq_live fs hs k m hf hd] at hv ⊢
      exact ⟨m, by rw [hk]; exact hf, hd, hv.symm⟩

/-- What `get` returns for the key of a node the store backs is the value of
the node. -/
theorem Backs.value_of_get {fs : FileStore} (hs : fs.Inv) {n : CacheNode} (h : fs.Backs n) :
    (fs.get n.key IoEnv.ok).1 = n.value := by
  obtain ⟨m, hf, hd, hr⟩ := h
  rw [FileStore.get_eq_live fs hs n.key m hf hd]
  exact hr

end FileStore

namespace StorageEngine

theorem eng_put_eq (e : StorageEngine) (he : e.Inv) (k : Int) (v : Bytes) :
    e.put k v IoEnv.ok =
      (true, { e with
        file_store_ := (e.file_store_.put k v IoEnv.ok).2
        cache_ := e.cache_.put k v }) := by
  simp only [StorageEngine.put, FileStore.fs_put_eq e.file_store_ he.store, if_true]

theorem Inv.eng_put {e : StorageEngine} (he : e.Inv) (k : Int) (v : Bytes) :
    (e.put k v IoEnv.ok).2.Inv := by
  rw [eng_put_eq e he]
  refine { store := he.store.fs_put k v, cache := he.cache.cache_put k v, backed := ?_ }
  intro n hn
  rcases LRUCache.hasNode_put he.cache k v n hn with h | h
  · exact FileStore.Backs.put_same he.store n k v h.1 h.2
  · exact (he.backed n h.1).put_ne he.store k v h.2

theorem Inv.eng_get {e : StorageEngine} (he : e.Inv) (k : Int) :
    (e.get k IoEnv.ok).2.Inv := by
  unfold StorageEngine.get
  cases hc : e.cache_.get k with
  | mk r c =>
    have hc2 : (e.cache_.get k).2 = c := by rw [hc]
    have hwf : c.WF := by rw [← hc2]; exact he.cache.cache_get k
    have hnodes : ∀ n, c.HasNode n → e.cache_.HasNode n := by
      intro n hn
      rw [← hc2] at hn
      exact LRUCache.hasNode_get he.cache k n hn
    cases r with
    | some x =>
      exact { store := he.store, cache := hwf, backed := fun n hn => he.backed n (hnodes n hn) }
    | none =>
      simp only []
      split
      · rename_i hne
        refine { store := he.store.fs_get k, cache := hwf.cache_put k _, backed := ?_ }
        intro n hn
        rcases LRUCache.hasNode_put hwf k _ n hn with h | h
        · exact FileStore.Backs.of_get he.store n k h.1 h.2 hne
        · exact (he.backed n (hnodes n h.1)).after_get he.store k
      · refine { store := he.store.fs_get k, cache := hwf, backed := ?_ }
        intro n hn
        exact (he.backed n (hnodes n hn)).after_get he.store k

theorem Inv.eng_del {e : StorageEngine} (he : e.Inv) (k : Int) : (e.del k).2.Inv := by
  refine { store := he.store.fs_del k, cache := he.cache.cache_remove k, backed := ?_ }
  intro n hn
  have := LRUCache.hasNode_remove he.cache k n hn
  exact (he.backed n this.1).del_ne k this.2

theorem Inv.eng_gc {e : StorageEngine} (he : e.Inv) :
    (e.garbageCollect IoEnv.ok).Inv :=
  { store := he.store.fs_gc, cache := he.cache,
    backed := fun n hn => (he.backed n hn).after_gc he.store }

theorem Inv.eng_restart {e : StorageEngine} (he : e.Inv) (b : Bool) (N S : Nat) :
    (StorageEngine.ctor (e.file_store_.dtor b IoEnv.ok) N S).Inv := by
  refine { store := ?_, cache := LRUCache.WF.cache_ctor N S, backed := ?_ }
  · show (FileStore.ctor (e.file_store_.dtor b IoEnv.ok) false).Inv
    obtain ⟨s1, hs1, _, _, _, heq⟩ := FileStore.restart_eq _ he.store b
    rw [heq]
    exact hs1.with_read_count 0
  · intro n hn
    exact absurd hn (LRUCache.hasNode_ctor N S n)

theorem Inv.eng_fresh (N S : Nat) : (StorageEngine.ctor Disk.empty N S).Inv :=
  { store := FileStore.Inv.fs_fresh, cache := LRUCache.WF.cache_ctor N S,
    backed := fun n hn => absurd hn (LRUCache.hasNode_ctor N S n) }

theorem Inv.eng_apply {e : StorageEngine} (he : e.Inv) (N S : Nat) (op : EngineOp) :
    (e.apply N S op).Inv := by
  cases op with
  | put k v => exact he.eng_put k v
  | get k => exact he.eng_get k
  | del k => exact he.eng_del k
  | garbageCollect => exact he.eng_gc
  | restart b => exact he.eng_restart b N S

theorem eng_run_snoc (N S : Nat) (ops : List EngineOp) (op : EngineOp) :
    StorageEngine.run N S (ops ++ [op]) = (StorageEngine.run N S ops).apply N S op := by
  simp [StorageEngine.run, List.foldl_append]

/-- Every engine reached by a sequence of calls satisfies the invariant. -/
theorem eng_run_inv (N S : Nat) (ops : List EngineOp) : (StorageEngine.run N S ops).Inv := by
  induction ops using List.reverseRecOn with
  | nil => exact Inv.eng_fresh N S
  | append_singleton l op ih =>
    rw [eng_run_snoc]
    exact ih.eng_apply N S op

/-- The engine returns for every key what the log store returns for it. -/
theorem eng_get_value (e : StorageEngine) (he : e.Inv) (k : Int) :
    (e.get k IoEnv.ok).1 = (e.file_store_.get k IoEnv.ok).1 := by
  unfold StorageEngine.get
  cases hc : e.cache_.get k with
  | mk r c =>
    cases r with
    | some x =>
      have h1 : (e.cache_.get k).1 = some x := by rw [hc]
      obtain ⟨n, hn, hk, hv⟩ := LRUCache.hasNode_of_get he.cache k x h1
      have := (he.backed n hn).value_of_get he.store
      rw [hk, hv] at this
      exact this.symm
    | none =>
      simp only []
      split <;> rfl

end StorageEngine

/-! ## Further lemmas for the properties below -/

theorem FileStore.get_with_read_count (s : FileStore) (c : Nat) (k : Int) (io : IoEnv) :
    (({ s with read_count_ := c } : FileStore).get k io).1 = (s.get k io).1 := by
  unfold FileStore.get
  simp only []
  split
  · rfl
  · split
    · rfl
    · split <;> rfl

/-- What `get` returns in a store reached by a sequence of calls: the value of
the most recent `put` for a live key, the empty string otherwise. -/
theorem FileStore.get_run (ops : List FileOp) (k : Int) :
    (∀ m, UMap.find (FileStore.run ops).index_ k = some m → m.deleted = false →
      lastPutValue ops k = some ((FileStore.run ops).get k IoEnv.ok).1) ∧
    ((∀ m, UMap.find (FileStore.run ops).index_ k = some m → m.deleted = true) →
      ((FileStore.run ops).get k IoEnv.ok).1 = []) := by
  have hinv := FileStore.fs_run_inv ops
  constructor
  · intro m hf hd
    obtain ⟨v, h1, _, h3⟩ := FileStore.run_sound ops (k, m) (UMap.mem_of_find _ _ _ hf) hd
    rw [FileStore.get_eq_live _ hinv k m hf hd]
    simp only [] at h1 h3
    rw [h3, h1]
  · intro h
    cases hf : UMap.find (FileStore.run ops).index_ k with
    | none => rw [FileStore.get_eq_absent _ k _ hf]
    | some m => rw [FileStore.get_eq_deleted _ k m _ hf (h m hf)]

theorem StorageEngine.get_index (e : StorageEngine) (he : e.Inv) (k : Int) :
    (e.get k IoEnv.ok).2.file_store_.index_ = e.file_store_.index_ := by
  obtain ⟨c, hc⟩ := FileStore.get_state e.file_store_ he.store k
  unfold StorageEngine.get
  cases e.cache_.get k with
  | mk r c1 =>
    cases r with
    | some x => rfl
    | none =>
      simp only []
      split
      · simp only [hc]
      · simp only [hc]

theorem LRUCache.cache_get_put_same {c : LRUCache} (hc : c.WF) (hpos : 0 < c.num_segments_)
    (k : Int) (v : Bytes) : (c.put k v).get k = (some v, c.put k v) := by
  obtain ⟨seg, hseg⟩ := hc.segment_exists hpos k
  have hlt : c.getSegmentIndex k < c.segments_.length := by
    rw [hc.len]
    exact Nat.mod_lt _ hpos
  rw [LRUCache.cache_put_eq c k v seg hseg]
  have h1 : ({ c with segments_ := c.segments_.set (c.getSegmentIndex k) (seg.put k v) }
      : LRUCache).segments_[LRUCache.getSegmentIndex
        { c with segments_ := c.segments_.set (c.getSegmentIndex k) (seg.put k v) } k]?
      = some (seg.put k v) := by
    show (c.segments_.set (c.getSegmentIndex k) (seg.put k v))[c.getSegmentIndex k]? = _
    rw [List.getElem?_set_self hlt]
  rw [LRUCache.cache_get_eq _ k _ h1]
  rw [LRUCacheSegment.seg_get_put_same (hc.seg_wf _ seg hseg)]
  simp only [LRUCache.getSegmentIndex, List.set_set]

theorem LRUCache.num_segments_put (c : LRUCache) (k : Int) (v : Bytes) :
    (c.put k v).num_segments_ = c.num_segments_ := by
  unfold LRUCache.put
  simp only []
  split <;> rfl

theorem LRUCache.num_segments_get (c : LRUCache) (k : Int) :
    (c.get k).2.num_segments_ = c.num_segments_ := by
  unfold LRUCache.get
  simp only []
  split <;> rfl

theorem LRUCache.num_segments_remove (c : LRUCache) (k : Int) :
    (c.remove k).num_segments_ = c.num_segments_ := by
  unfold LRUCache.remove
  simp only []
  split <;> rfl

theorem StorageEngine.num_segments_apply (N S : Nat) (e : StorageEngine) (op : EngineOp)
    (h : e.cache_.num_segments_ = S) : (e.apply N S op).cache_.num_segments_ = S := by
  cases op with
  | put k v =>
    simp only [StorageEngine.apply, StorageEngine.put]
    split
    · simp only [LRUCache.num_segments_put, h]
    · exact h
  | get k =>
    simp only [StorageEngine.apply, StorageEngine.get]
    have h1 := LRUCache.num_segments_get e.cache_ k
    cases hc : e.cache_.get k with
    | mk r c1 =>
      rw [hc] at h1
      simp only [] at h1
      cases r with
      | some x => simp only [h1, h]
      | none =>
        simp only []
        split
        · simp only [LRUCache.num_segments_put, h1, h]
        · simp only [h1, h]
  | del k =>
    simp only [StorageEngine.apply, StorageEngine.del, LRUCache.num_segments_remove, h]
  | garbageCollect => exact h
  | restart b => rfl

theorem StorageEngine.run_num_segments (N S : Nat) (ops : List EngineOp) :
    (StorageEngine.run N S ops).cache_.num_segments_ = S := by
  induction ops using List.reverseRecOn with
  | nil => rfl
  | append_singleton l op ih =>
    rw [StorageEngine.eng_run_snoc]
    exact StorageEngine.num_segments_apply N S _ op ih

/-- In an engine with at least one shard, a `get` right after a `put` of the
same key is answered by the cache and changes nothing. -/
theorem StorageEngine.get_after_put (e : StorageEngine) (he : e.Inv)
    (hpos : 0 < e.cache_.num_segments_) (k : Int) (v : Bytes) :
    (e.put k v IoEnv.ok).2.get k IoEnv.ok = (v, (e.put k v IoEnv.ok).2) := by
  rw [StorageEngine.eng_put_eq e he]
  simp only [StorageEngine.get, LRUCache.cache_get_put_same he.cache hpos k v]

theorem StorageEngine.del_result (e : StorageEngine) (k : Int) :
    (e.del k).1 = (e.file_store_.del k).1 := rfl

theorem StorageEngine.del_file_store (e : StorageEngine) (k : Int) :
    (e.del k).2.file_store_ = (e.file_store_.del k).2 := rfl

theorem StorageEngine.put_read_count (e : StorageEngine) (he : e.Inv) (k : Int) (v : Bytes) :
    (e.put k v IoEnv.ok).2.getFileStoreReadCount = e.getFileStoreReadCount := by
  rw [StorageEngine.eng_put_eq e he, FileStore.fs_put_eq _ he.store]
  rfl

/-! ## Recency order of a shard -/

/-- Moving or inserting a node of key `key` to the front at time `clock + 1`
keeps the list ordered by decreasing touch time. -/
theorem touch_sorted (l l1 : List CacheNode) (lt : Int → Nat) (clock : Nat) (key : Int)
    (h : CacheNode) (hsub : l1.Sublist l) (hne : ∀ n ∈ l1, n.key ≠ key) (hk : h.key = key)
    (htouched : ∀ n ∈ l, lt n.key ≤ clock)
    (hsorted : l.Pairwise (fun a b => lt b.key < lt a.key)) :
    (∀ n ∈ h :: l1, (fun k => if k = key then clock + 1 else lt k) n.key ≤ clock + 1) ∧
    (h :: l1).Pairwise (fun a b =>
      (fun k => if k = key then clock + 1 else lt k) b.key
        < (fun k => if k = key then clock + 1 else lt k) a.key) := by
  constructor
  · intro n hn
    simp only []
    split
    · exact le_refl _
    · rcases List.mem_cons.mp hn with h1 | h1
      · rename_i h2
        rw [h1] at h2
        exact absurd hk h2
      · exact Nat.le_succ_of_le (htouched n (hsub.subset h1))
  · rw [List.pairwise_cons]
    constructor
    · intro n hn
      simp only [hk, if_true, hne n hn, if_false]
      exact Nat.lt_succ_of_le (htouched n (hsub.subset hn))
    · refine List.Pairwise.imp_of_mem ?_ (hsorted.sublist hsub)
      intro a b ha hb hab
      simp only [hne a ha, hne b hb, if_false]
      exact hab

namespace TracedSegment

theorem Inv.traced_ctor (C : Nat) :
    Inv C { seg := LRUCacheSegment.ctor C, clock := 0, last_touch := fun _ => 0 } :=
  { wf := LRUCacheSegment.WF.seg_ctor C, cap := rfl,
    touched := by intro n hn; simp [LRUCacheSegment.ctor] at hn,
    sorted := by simp [LRUCacheSegment.ctor] }

theorem evictIfFull_sublist (s : LRUCacheSegment) :
    s.evictIfFull.cache_list_.Sublist s.cache_list_ := by
  rcases LRUCacheSegment.evictIfFull_cases s with h1 | ⟨front, last, hl, _, h1⟩
  · rw [h1]
  · rw [h1, hl]
    exact List.sublist_append_left _ _

theorem evictIfFull_capacity (s : LRUCacheSegment) : s.evictIfFull.capacity_ = s.capacity_ := by
  rcases LRUCacheSegment.evictIfFull_cases s with h1 | ⟨front, last, hl, _, h1⟩
  · rw [h1]
  · rw [h1]

theorem Inv.traced_step {C : Nat} {t : TracedSegment} (ht : Inv C t) (op : SegOp) :
    Inv C (t.step op) := by
  cases op with
  | put key value =>
    simp only [TracedSegment.step]
    cases hf : UMap.find t.seg.cache_map_ key with
    | none =>
      have hnot := (ht.wf.find_none_iff key).mp hf
      have hsub := evictIfFull_sublist t.seg
      have h := touch_sorted t.seg.cache_list_ t.seg.evictIfFull.cache_list_ t.last_touch
        t.clock key { handle := t.seg.evictIfFull.fresh, key := key, value := value } hsub
        (fun n hn hk => hnot (List.mem_map.mpr ⟨n, hsub.subset hn, hk⟩)) rfl
        ht.touched ht.sorted
      refine { wf := ht.wf.seg_put key value, cap := ?_, touched := ?_, sorted := ?_ }
      · rw [LRUCacheSegment.put_eq_insert _ key value hf]
        exact (evictIfFull_capacity t.seg).trans ht.cap
      · rw [LRUCacheSegment.put_eq_insert _ key value hf]
        exact h.1
      · rw [LRUCacheSegment.put_eq_insert _ key value hf]
        exact h.2
    | some it =>
      obtain ⟨x, hx, hxk, _⟩ := (ht.wf.map_iff key it).mp hf
      subst hxk
      have h := touch_sorted t.seg.cache_list_ (withoutKey t.seg.cache_list_ x.key) t.last_touch
        t.clock x.key { x with value := value } (withoutKey_sublist _ _)
        (fun n hn => ((mem_withoutKey _ _ _).mp hn).2) rfl ht.touched ht.sorted
      refine { wf := ht.wf.seg_put x.key value, cap := ?_, touched := ?_, sorted := ?_ }
      · rw [LRUCacheSegment.put_eq_update _ ht.wf x hx]
        exact ht.cap
      · rw [LRUCacheSegment.put_eq_update _ ht.wf x hx]
        exact h.1
      · rw [LRUCacheSegment.put_eq_update _ ht.wf x hx]
        exact h.2
  | get key =>
    simp only [TracedSegment.step]
    cases hf : UMap.find t.seg.cache_map_ key with
    | none =>
      rw [LRUCacheSegment.get_eq_miss _ key hf]
      simp only [Option.isSome_none, Bool.false_eq_true, and_false, if_false]
      exact { wf := ht.wf, cap := ht.cap,
              touched := fun n hn => Nat.le_succ_of_le (ht.touched n hn),
              sorted := ht.sorted }
    | some it =>
      obtain ⟨x, hx, hxk, _⟩ := (ht.wf.map_iff key it).mp hf
      subst hxk
      have h := touch_sorted t.seg.cache_list_ (withoutKey t.seg.cache_list_ x.key) t.last_touch
        t.clock x.key x (withoutKey_sublist _ _)
        (fun n hn => ((mem_withoutKey _ _ _).mp hn).2) rfl ht.touched ht.sorted
      have hget := LRUCacheSegment.get_eq_hit _ ht.wf x hx
      have hwf := ht.wf.seg_get x.key
      rw [hget] at hwf ⊢
      simp only [Option.isSome_some, and_true]
      exact { wf := hwf, cap := ht.cap, touched := h.1, sorted := h.2 }
  | remove key =>
    simp only [TracedSegment.step]
    have hwf := ht.wf.seg_remove key
    rw [LRUCacheSegment.seg_remove_eq _ ht.wf key] at hwf ⊢
    exact { wf := hwf, cap := ht.cap,
            touched := fun n hn =>
              Nat.le_succ_of_le (ht.touched n ((mem_withoutKey _ _ _).mp hn).1),
            sorted := ht.sorted.sublist (withoutKey_sublist _ _) }

theorem traced_run_snoc (C : Nat) (ops : List SegOp) (op : SegOp) :
    TracedSegment.run C (ops ++ [op]) = (TracedSegment.run C ops).step op := by
  simp [TracedSegment.run, List.foldl_append]

theorem traced_run_inv (C : Nat) (ops : List SegOp) : Inv C (TracedSegment.run C ops) := by
  induction ops using List.reverseRecOn with
  | nil => exact Inv.traced_ctor C
  | append_singleton l op ih =>
    rw [traced_run_snoc]
    exact ih.traced_step op

end TracedSegment

/-! ## Properties of the specification -/

/-- C1 (engine round trip).  In every engine state reached by sequential calls
(restarts included), for every key `k` and every value `v` (the non-empty ones
in particular), `StorageEngine::put(k, v)` returns `true` and the
`StorageEngine::get(k)` that follows returns exactly `v`. -/
theorem engine_put_get_roundtrip (N S : Nat) (ops : List EngineOp) (k : Int) (v : Bytes) :
    ((StorageEngine.run N S ops).put k v IoEnv.ok).1 = true ∧
    (((StorageEngine.run N S ops).put k v IoEnv.ok).2.get k IoEnv.ok).1 = v := by
  have he := StorageEngine.eng_run_inv N S ops
  refine ⟨by rw [StorageEngine.eng_put_eq _ he], ?_⟩
  rw [StorageEngine.eng_get_value _ (he.eng_put k v), StorageEngine.eng_put_eq _ he]
  exact FileStore.fs_get_put_same _ he.store k v

/-- C2 (delete).  In every engine state reached by sequential calls, after
`put(k, v)` the call `del(k)` returns `true`, the `get(k)` that follows returns
the empty byte string, and a second `del(k)`, right after the first one or after
that `get`, returns `false`. -/
theorem engine_put_del_get (N S : Nat) (ops : List EngineOp) (k : Int) (v : Bytes) :
    (((StorageEngine.run N S ops).put k v IoEnv.ok).2.del k).1 = true ∧
    ((((StorageEngine.run N S ops).put k v IoEnv.ok).2.del k).2.get k IoEnv.ok).1 = [] ∧
    (((((StorageEngine.run N S ops).put k v IoEnv.ok).2.del k).2.get k IoEnv.ok).2.del k).1
      = false ∧
    ((((StorageEngine.run N S ops).put k v IoEnv.ok).2.del k).2.del k).1 = false := by
  have he := StorageEngine.eng_run_inv N S ops
  have he1 := he.eng_put k v
  have he2 := he1.eng_del k
  have hf1 : UMap.find ((StorageEngine.run N S ops).put k v IoEnv.ok).2.file_store_.index_ k
      = some { key := k, offset := (StorageEngine.run N S ops).file_store_.file_size_,
               size := v.length, deleted := false } := by
    rw [StorageEngine.eng_put_eq _ he]
    simp only [FileStore.find_put _ he.store, if_true]
  have hdel := FileStore.del_eq_live _ k _ hf1 rfl
  have hf2 : UMap.find
      (((StorageEngine.run N S ops).put k v IoEnv.ok).2.del k).2.file_store_.index_ k
      = some { key := k, offset := (StorageEngine.run N S ops).file_store_.file_size_,
               size := v.length, deleted := true } := by
    rw [StorageEngine.del_file_store, hdel]
    simp only [UMap.find_assign, if_true]
  refine ⟨?_, ?_, ?_, ?_⟩
  · rw [StorageEngine.del_result, hdel]
  · rw [StorageEngine.eng_get_value _ he2, FileStore.get_eq_deleted _ k _ _ hf2 rfl]
  · have hidx := StorageEngine.get_index _ he2 k
    rw [← hidx] at hf2
    rw [StorageEngine.del_result, FileStore.del_eq_deleted _ k _ hf2 rfl]
  · rw [StorageEngine.del_result, FileStore.del_eq_deleted _ k _ hf2 rfl]

/-- C3 (overwrite at the log store).  In every store reached by sequential
calls, for every key `k` and all values `v1`, `v2` (empty or not), both
`put(k, v1)` and `put(k, v2)` succeed and the `get(k)` that follows returns
`v2`: the index entry of `k` is the record of the second `put`, while the bytes
of `v1` are still in the data file where the first `put` wrote them. -/
theorem filestore_overwrite (ops : List FileOp) (k : Int) (v1 v2 : Bytes) :
    ((FileStore.run ops).put k v1 IoEnv.ok).1 = true ∧
    (((FileStore.run ops).put k v1 IoEnv.ok).2.put k v2 IoEnv.ok).1 = true ∧
    ((((FileStore.run ops).put k v1 IoEnv.ok).2.put k v2 IoEnv.ok).2.get k IoEnv.ok).1 = v2 ∧
    UMap.find (((FileStore.run ops).put k v1 IoEnv.ok).2.put k v2 IoEnv.ok).2.index_ k
      = some { key := k, offset := (FileStore.run ops).file_size_ + v1.length,
               size := v2.length, deleted := false } ∧
    readAt (((FileStore.run ops).put k v1 IoEnv.ok).2.put k v2 IoEnv.ok).2.file_data
      (FileStore.run ops).file_size_ v1.length = v1 := by
  have hs := FileStore.fs_run_inv ops
  have hs1 := hs.fs_put k v1
  refine ⟨by rw [FileStore.fs_put_eq _ hs], by rw [FileStore.fs_put_eq _ hs1],
    FileStore.fs_get_put_same _ hs1 k v2, ?_, ?_⟩
  · rw [FileStore.find_put _ hs1]
    simp only [if_true]
    rw [FileStore.fs_put_eq _ hs]
  · rw [FileStore.fs_put_eq _ hs1, FileStore.fs_put_eq _ hs]
    simp only [hs.size_eq, List.append_assoc]
    exact readAt_append_right _ v1 v2

/-- C4 (compaction invariance).  In every store reached by sequential calls
and for every key `k`, `get(k)` after `garbageCollect()` returns what `get(k)`
returned before it: the value of the most recent `put` for a live key, the empty
byte string for a tombstoned or absent key. -/
theorem filestore_gc_preserves_get (ops : List FileOp) (k : Int) :
    (((FileStore.run ops).garbageCollect IoEnv.ok).get k IoEnv.ok).1
      = ((FileStore.run ops).get k IoEnv.ok).1 ∧
    (∀ m, UMap.find (FileStore.run ops).index_ k = some m → m.deleted = false →
      lastPutValue ops k
        = some (((FileStore.run ops).garbageCollect IoEnv.ok).get k IoEnv.ok).1) ∧
    ((∀ m, UMap.find (FileStore.run ops).index_ k = some m → m.deleted = true) →
      (((FileStore.run ops).garbageCollect IoEnv.ok).get k IoEnv.ok).1 = []) := by
  have hs := FileStore.fs_run_inv ops
  have h := FileStore.get_gc _ hs k
  have h2 := FileStore.get_run ops k
  rw [h]
  exact ⟨rfl, h2.1, h2.2⟩

/-- C5 (compaction size).  After `garbageCollect()` on any store state,
reachable or not, `file_size_` is the sum of the sizes of the index entries that
were not tombstoned before the call (0 when there are none). -/
theorem filestore_gc_file_size (s : FileStore) :
    (s.garbageCollect IoEnv.ok).file_size_
      = ((s.index_.filter (fun e => !e.2.deleted)).map (fun e => e.2.size)).sum := by
  simp only [FileStore.garbageCollect, FileStore.compactFile, IoEnv.ok, if_true,
    FileStore.compact_foldl_new_offset, Nat.zero_add, FileStore.liveObjects,
    List.filter_map, List.map_map]
  rfl

/-- C6 (restart persistence).  For every store reached by sequential calls,
destroying it and constructing a store on the same files with
`clean_start = false` gives a store in which `get(k)` returns, for every key
`k`, what it returned before: the value of the most recent `put` for a live
key, the empty byte string for a tombstoned or absent key.  This holds for the
destructor that waits for a last compaction before it writes the snapshot
(`gc_pending = true`) and for the one that writes the snapshot at once. -/
theorem filestore_restart_preserves_get (ops : List FileOp) (gc_pending : Bool) (k : Int) :
    FileStore.run (ops ++ [.restart gc_pending])
      = FileStore.ctor ((FileStore.run ops).dtor gc_pending IoEnv.ok) false ∧
    ((FileStore.ctor ((FileStore.run ops).dtor gc_pending IoEnv.ok) false).get k IoEnv.ok).1
      = ((FileStore.run ops).get k IoEnv.ok).1 ∧
    (∀ m, UMap.find (FileStore.run ops).index_ k = some m → m.deleted = false →
      lastPutValue ops k
        = some ((FileStore.ctor ((FileStore.run ops).dtor gc_pending IoEnv.ok) false).get k
            IoEnv.ok).1) ∧
    ((∀ m, UMap.find (FileStore.run ops).index_ k = some m → m.deleted = true) →
      ((FileStore.ctor ((FileStore.run ops).dtor gc_pending IoEnv.ok) false).get k
        IoEnv.ok).1 = []) := by
  have hs := FileStore.fs_run_inv ops
  have h : ((FileStore.ctor ((FileStore.run ops).dtor gc_pending IoEnv.ok) false).get k
      IoEnv.ok).1 = ((FileStore.run ops).get k IoEnv.ok).1 := by
    cases gc_pending with
    | false => rw [FileStore.restart_eq_plain _ hs, FileStore.get_with_read_count]
    | true =>
      rw [FileStore.restart_eq_compacting _ hs, FileStore.get_with_read_count,
        FileStore.get_gc _ hs]
  have h2 := FileStore.get_run ops k
  rw [h]
  exact ⟨FileStore.fs_run_snoc ops _, rfl, h2.1, h2.2⟩

/-- The cache is backed on the runs without device errors.  In every engine
state reached by sequential `put`/`get`/`del`/`garbageCollect` calls (and
restarts) none of which meets a device error, if a shard
of the cache holds a node with key `k` and value `v`, then the index of the log
store has exactly one entry for `k`, that entry is not tombstoned, and its bytes
in the data file are `v`. -/
theorem engine_cache_backed (N S : Nat) (ops : List EngineOp) (k : Int) (v : Bytes)
    (h : ∃ seg ∈ (StorageEngine.run N S ops).cache_.segments_,
      ∃ n ∈ seg.cache_list_, n.key = k ∧ n.value = v) :
    ∃ m, (k, m) ∈ (StorageEngine.run N S ops).file_store_.index_ ∧
      (∀ m1, (k, m1) ∈ (StorageEngine.run N S ops).file_store_.index_ → m1 = m) ∧
      m.deleted = false ∧
      readAt (StorageEngine.run N S ops).file_store_.file_data m.offset m.size = v := by
  have he := StorageEngine.eng_run_inv N S ops
  obtain ⟨seg, hseg, n, hn, hk, hv⟩ := h
  obtain ⟨m, hf, hd, hr⟩ := he.backed n ⟨seg, hseg, hn⟩
  rw [hk] at hf
  rw [hv] at hr
  refine ⟨m, UMap.mem_of_find _ _ _ hf, ?_, hd, hr⟩
  intro m1 hm1
  have := UMap.find_of_mem _ _ _ he.store.keys_nodup hm1
  rw [hf] at this
  simp only [Option.some.injEq] at this
  exact this.symm

theorem engine_cache_backed_witness :
    (∃ seg ∈ (StorageEngine.run 3 1 [.put 1 [7], .put 2 [8, 9]]).cache_.segments_,
      ∃ n ∈ seg.cache_list_, n.key = 2 ∧ n.value = [8, 9]) ∧
    ∃ m, (2, m) ∈ (StorageEngine.run 3 1 [.put 1 [7], .put 2 [8, 9]]).file_store_.index_ ∧
      (∀ m1, (2, m1) ∈ (StorageEngine.run 3 1 [.put 1 [7], .put 2 [8, 9]]).file_store_.index_
        → m1 = m) ∧
      m.deleted = false ∧
      readAt (StorageEngine.run 3 1 [.put 1 [7], .put 2 [8, 9]]).file_store_.file_data
        m.offset m.size = [8, 9] :=
  ⟨by decide, engine_cache_backed 3 1 [.put 1 [7], .put 2 [8, 9]] 2 [8, 9] (by decide)⟩

/-- C8 (LRU victim).  In a single shard of capacity `C ≥ 1` (every shard the
cache constructs has capacity `max(1, N/S)`), after any sequence of
`put`/`get`/`remove` calls, a `put(k, v)` of a key the shard does not hold, made
while the shard holds `C` entries, evicts exactly one entry: there is a key `w`
the shard held whose most recent touch (a `put`, or a `get` that hit) is older
than that of every other key held; after the `put` a `get(w)` misses, every
other key held before still hits with its value, `k` hits with `v`, and the
shard holds `C` entries again. -/
theorem segment_lru_victim (C : Nat) (hC : 0 < C) (ops : List SegOp) (k : Int) (v : Bytes)
    (habsent : ((TracedSegment.run C ops).seg.get k).1 = none)
    (hfull : (TracedSegment.run C ops).seg.cache_list_.length = C) :
    ∃ w x, ((TracedSegment.run C ops).seg.get w).1 = some x ∧
      (∀ k1 y, k1 ≠ w → ((TracedSegment.run C ops).seg.get k1).1 = some y →
        (TracedSegment.run C ops).last_touch w < (TracedSegment.run C ops).last_touch k1 ∧
        ((((TracedSegment.run C ops).seg.put k v).get k1).1 = some y)) ∧
      ((((TracedSegment.run C ops).seg.put k v).get w).1 = none) ∧
      ((((TracedSegment.run C ops).seg.put k v).get k).1 = some v) ∧
      ((TracedSegment.run C ops).seg.put k v).cache_list_.length = C := by
  have ht := TracedSegment.traced_run_inv C ops
  have hwf := ht.wf
  have hkabs := (LRUCacheSegment.get_eq_none_iff hwf k).mp habsent
  have hfind := (hwf.find_none_iff k).mpr hkabs
  have hne : (TracedSegment.run C ops).seg.cache_list_ ≠ [] := by
    intro h
    rw [h] at hfull
    simp only [List.length_nil] at hfull
    omega
  obtain ⟨last, hlast⟩ : ∃ last, (TracedSegment.run C ops).seg.cache_list_.getLast? = some last := by
    cases h : (TracedSegment.run C ops).seg.cache_list_.getLast? with
    | none => exact absurd (List.getLast?_eq_none_iff.mp h) hne
    | some last => exact ⟨last, rfl⟩
  have hl : (TracedSegment.run C ops).seg.cache_list_
      = (TracedSegment.run C ops).seg.cache_list_.dropLast ++ [last] :=
    (List.dropLast_append_getLast? last hlast).symm
  have hev := LRUCacheSegment.evictIfFull_eq_full _ _ last hl (by rw [ht.cap, hfull])
  have hput := LRUCacheSegment.put_eq_insert _ k v hfind
  rw [hev] at hput
  simp only [] at hput
  have hwf2 := hwf.seg_put k v
  have hlast_mem : last ∈ (TracedSegment.run C ops).seg.cache_list_ := by
    rw [hl]
    simp
  have hkeys := hwf.keys_nodup
  rw [hl] at hkeys
  simp only [List.map_append, List.map_cons, List.map_nil] at hkeys
  have hfront_ne : ∀ n ∈ (TracedSegment.run C ops).seg.cache_list_.dropLast,
      n.key ≠ last.key := by
    intro n hn hk
    exact (List.nodup_append.mp hkeys).2.2 (List.mem_map.mpr ⟨n, hn, rfl⟩) (by simp [hk])
  have hsorted := ht.sorted
  rw [hl, List.pairwise_append] at hsorted
  refine ⟨last.key, last.value, ?_, ?_, ?_, ?_, ?_⟩
  · exact (LRUCacheSegment.get_eq_some_iff hwf _ _).mpr ⟨last, hlast_mem, rfl, rfl⟩
  · intro k1 y hk1 hy
    obtain ⟨n, hn, hnk, hnv⟩ := (LRUCacheSegment.get_eq_some_iff hwf k1 y).mp hy
    have hnfront : n ∈ (TracedSegment.run C ops).seg.cache_list_.dropLast := by
      rw [hl] at hn
      rcases List.mem_append.mp hn with h | h
      · exact h
      · simp only [List.mem_singleton] at h
        rw [h] at hnk
        exact absurd hnk.symm hk1
    constructor
    · have := hsorted.2.2 n hnfront last (by simp)
      rw [hnk] at this
      exact this
    · apply (LRUCacheSegment.get_eq_some_iff hwf2 k1 y).mpr
      rw [hput]
      exact ⟨n, List.mem_cons_of_mem _ hnfront, hnk, hnv⟩
  · apply (LRUCacheSegment.get_eq_none_iff hwf2 _).mpr
    rw [hput]
    simp only [List.map_cons, List.mem_cons, not_or]
    constructor
    · intro h
      apply hkabs
      rw [← h]
      exact List.mem_map.mpr ⟨last, hlast_mem, rfl⟩
    · intro h
      obtain ⟨n, hn, hnk⟩ := List.mem_map.mp h
      exact hfront_ne n hn hnk
  · rw [LRUCacheSegment.seg_get_put_same hwf]
  · rw [hput]
    have hlen : (TracedSegment.run C ops).seg.cache_list_.dropLast.length = C - 1 := by
      rw [List.length_dropLast, hfull]
    simp only [List.length_cons, hlen]
    omega

theorem segment_lru_victim_witness :
    (0 < 3 ∧
     ((TracedSegment.run 3 [.put 1 [1], .put 2 [2], .put 3 [3], .get 1]).seg.get 4).1 = none ∧
     (TracedSegment.run 3 [.put 1 [1], .put 2 [2], .put 3 [3], .get 1]).seg.cache_list_.length
       = 3) ∧
    ∃ w x,
      ((TracedSegment.run 3 [.put 1 [1], .put 2 [2], .put 3 [3], .get 1]).seg.get w).1 = some x ∧
      (∀ k1 y, k1 ≠ w →
        ((TracedSegment.run 3 [.put 1 [1], .put 2 [2], .put 3 [3], .get 1]).seg.get k1).1
          = some y →
        (TracedSegment.run 3 [.put 1 [1], .put 2 [2], .put 3 [3], .get 1]).last_touch w
          < (TracedSegment.run 3 [.put 1 [1], .put 2 [2], .put 3 [3], .get 1]).last_touch k1 ∧
        ((((TracedSegment.run 3 [.put 1 [1], .put 2 [2], .put 3 [3], .get 1]).seg.put 4
          [4]).get k1).1 = some y)) ∧
      ((((TracedSegment.run 3 [.put 1 [1], .put 2 [2], .put 3 [3], .get 1]).seg.put 4
        [4]).get w).1 = none) ∧
      ((((TracedSegment.run 3 [.put 1 [1], .put 2 [2], .put 3 [3], .get 1]).seg.put 4
        [4]).get 4).1 = some [4]) ∧
      ((TracedSegment.run 3 [.put 1 [1], .put 2 [2], .put 3 [3], .get 1]).seg.put 4
        [4]).cache_list_.length = 3 :=
  ⟨⟨by decide, by decide, by decide⟩,
    segment_lru_victim 3 (by decide) [.put 1 [1], .put 2 [2], .put 3 [3], .get 1] 4 [4]
      (by decide) (by decide)⟩

/-- C9 (cache-hit telemetry).  In every engine state reached by sequential
calls of an engine with at least one shard, for every key `k` and value `v`,
`put(k, v)` followed by `get(k)` raises the read counter of the log store by at
most one (in fact it leaves it unchanged: the `get` is a cache hit), and a
second `get(k)` right after leaves the read counter unchanged. -/
theorem engine_cache_hit_telemetry (N S : Nat) (hS : 0 < S) (ops : List EngineOp)
    (k : Int) (v : Bytes) :
    (((StorageEngine.run N S ops).put k v IoEnv.ok).2.get k IoEnv.ok).2.getFileStoreReadCount
      ≤ (StorageEngine.run N S ops).getFileStoreReadCount + 1 ∧
    (((StorageEngine.run N S ops).put k v IoEnv.ok).2.get k IoEnv.ok).2.getFileStoreReadCount
      = (StorageEngine.run N S ops).getFileStoreReadCount ∧
    ((((StorageEngine.run N S ops).put k v IoEnv.ok).2.get k IoEnv.ok).2.get k
        IoEnv.ok).2.getFileStoreReadCount
      = (((StorageEngine.run N S ops).put k v IoEnv.ok).2.get k
        IoEnv.ok).2.getFileStoreReadCount := by
  have he := StorageEngine.eng_run_inv N S ops
  have hpos : 0 < (StorageEngine.run N S ops).cache_.num_segments_ := by
    rw [StorageEngine.run_num_segments]
    exact hS
  have h1 := StorageEngine.get_after_put _ he hpos k v
  have h2 := StorageEngine.put_read_count _ he k v
  rw [h1]
  simp only [h1, h2]
  exact ⟨Nat.le_succ _, trivial, trivial⟩

theorem engine_cache_hit_telemetry_witness :
    (0 < 4) ∧
    (((StorageEngine.run 16 4 [.put 5 [1]]).put 100 [9, 9] IoEnv.ok).2.get 100
        IoEnv.ok).2.getFileStoreReadCount
      ≤ (StorageEngine.run 16 4 [.put 5 [1]]).getFileStoreReadCount + 1 ∧
    (((StorageEngine.run 16 4 [.put 5 [1]]).put 100 [9, 9] IoEnv.ok).2.get 100
        IoEnv.ok).2.getFileStoreReadCount
      = (StorageEngine.run 16 4 [.put 5 [1]]).getFileStoreReadCount ∧
    ((((StorageEngine.run 16 4 [.put 5 [1]]).put 100 [9, 9] IoEnv.ok).2.get 100 IoEnv.ok).2.get 100
        IoEnv.ok).2.getFileStoreReadCount
      = (((StorageEngine.run 16 4 [.put 5 [1]]).put 100 [9, 9] IoEnv.ok).2.get 100
        IoEnv.ok).2.getFileStoreReadCount :=
  ⟨by decide, engine_cache_hit_telemetry 16 4 (by decide) [.put 5 [1]] 100 [9, 9]⟩

/-- The index is sound on the runs without device errors.  In every store
reached by sequential calls none of which meets a device error, every index
entry with `deleted = false` satisfies
`offset + size ≤ file_size_`, and the `size` bytes of the data file from
`offset` on are exactly the value of the most recent `put` of its key. -/
theorem filestore_index_sound (ops : List FileOp) (e : Int × ObjectMeta)
    (he : e ∈ (FileStore.run ops).index_) (hd : e.2.deleted = false) :
    e.2.offset + e.2.size ≤ (FileStore.run ops).file_size_ ∧
    (FileStore.run ops).file_size_ = (FileStore.run ops).file_data.length ∧
    ∃ v, lastPutValue ops e.1 = some v ∧ e.2.size = v.length ∧
      readAt (FileStore.run ops).file_data e.2.offset e.2.size = v :=
  ⟨(FileStore.fs_run_inv ops).in_range e he, (FileStore.fs_run_inv ops).size_eq,
    FileStore.run_sound ops e he hd⟩

theorem filestore_index_sound_witness :
    ((2, { key := 2, offset := 0, size := 2, deleted := false }) ∈
      (FileStore.run [.put 1 [7], .put 2 [3], .put 2 [8, 9], .del 1, .garbageCollect]).index_ ∧
     ({ key := 2, offset := 0, size := 2, deleted := false } : ObjectMeta).deleted = false) ∧
    (0 + 2 ≤ (FileStore.run
        [.put 1 [7], .put 2 [3], .put 2 [8, 9], .del 1, .garbageCollect]).file_size_ ∧
    (FileStore.run [.put 1 [7], .put 2 [3], .put 2 [8, 9], .del 1, .garbageCollect]).file_size_
      = (FileStore.run
        [.put 1 [7], .put 2 [3], .put 2 [8, 9], .del 1, .garbageCollect]).file_data.length ∧
    ∃ v, lastPutValue [.put 1 [7], .put 2 [3], .put 2 [8, 9], .del 1, .garbageCollect] 2
        = some v ∧ 2 = v.length ∧
      readAt (FileStore.run
        [.put 1 [7], .put 2 [3], .put 2 [8, 9], .del 1, .garbageCollect]).file_data 0 2 = v) :=
  ⟨⟨by decide, rfl⟩,
    filestore_index_sound [.put 1 [7], .put 2 [3], .put 2 [8, 9], .del 1, .garbageCollect]
      (2, { key := 2, offset := 0, size := 2, deleted := false }) (by decide) rfl⟩

/-- A write the stream does not accept: `put` returns `false` and changes
neither the index nor `file_size_` nor the data file, and the engine leaves the
cache as it is. -/
theorem FileStore.put_write_failure (s : FileStore) (e : StorageEngine) (k : Int) (v : Bytes)
    (io : IoEnv) (hw : io.write_ok = false) :
    (s.put k v io).1 = false ∧ (s.put k v io).2.index_ = s.index_ ∧
    (s.put k v io).2.file_size_ = s.file_size_ ∧ (s.put k v io).2.file_data = s.file_data ∧
    (e.put k v io).1 = false ∧ (e.put k v io).2.cache_ = e.cache_ := by
  have h1 : s.put k v io = (false, { s with file_good := false }) := by
    simp [FileStore.put, hw]
  have h2 : e.file_store_.put k v io = (false, { e.file_store_ with file_good := false }) := by
    simp [FileStore.put, hw]
  refine ⟨by rw [h1], by rw [h1], by rw [h1], by rw [h1], ?_, ?_⟩
  · simp [StorageEngine.put, h2]
  · simp [StorageEngine.put, h2]

/-- C11 (`del` fails exactly when there is nothing to delete).  In every store
state, `del(k)` returns `false` if and only if `k` has no index entry or its
entry is tombstoned; when it returns `false` the whole state is unchanged; when
it returns `true` the entry of `k` was live and only its `deleted` flag is set:
the entries of all other keys, the order of the keys, the data file,
`file_size_`, the stream state and the read counter stay. -/
theorem filestore_del_result (s : FileStore) (k : Int) :
    ((s.del k).1 = false ↔
      (UMap.find s.index_ k = none ∨
        ∃ m, UMap.find s.index_ k = some m ∧ m.deleted = true)) ∧
    ((s.del k).1 = false → (s.del k).2 = s) ∧
    ((s.del k).1 = true →
      ∃ m, UMap.find s.index_ k = some m ∧ m.deleted = false ∧
        UMap.find (s.del k).2.index_ k = some { m with deleted := true } ∧
        (∀ k1, k1 ≠ k → UMap.find (s.del k).2.index_ k1 = UMap.find s.index_ k1) ∧
        (s.del k).2.index_.map Prod.fst = s.index_.map Prod.fst ∧
        (s.del k).2.file_data = s.file_data ∧ (s.del k).2.file_size_ = s.file_size_ ∧
        (s.del k).2.file_good = s.file_good ∧ (s.del k).2.read_count_ = s.read_count_) := by
  cases hf : UMap.find s.index_ k with
  | none =>
    rw [FileStore.del_eq_absent s k hf]
    refine ⟨⟨fun _ => Or.inl rfl, fun _ => rfl⟩, fun _ => rfl, ?_⟩
    intro h
    exact Bool.noConfusion h
  | some m =>
    cases hd : m.deleted with
    | true =>
      rw [FileStore.del_eq_deleted s k m hf hd]
      refine ⟨⟨fun _ => Or.inr ⟨m, rfl, hd⟩, fun _ => rfl⟩, fun _ => rfl, ?_⟩
      intro h
      exact Bool.noConfusion h
    | false =>
      rw [FileStore.del_eq_live s k m hf hd]
      refine ⟨⟨?_, ?_⟩, ?_, ?_⟩
      · intro h
        exact Bool.noConfusion h
      · rintro (h | ⟨m1, h1, h2⟩)
        · exact Option.noConfusion h
        · simp only [Option.some.injEq] at h1
          rw [← h1, hd] at h2
          exact Bool.noConfusion h2
      · intro h
        exact Bool.noConfusion h
      · intro _
        refine ⟨m, rfl, hd, ?_, ?_, ?_, rfl, rfl, rfl, rfl⟩
        · simp only [UMap.find_assign, if_true]
        · intro k1 hk1
          have hne : ¬ k = k1 := fun h => hk1 h.symm
          simp only [UMap.find_assign, hne, if_false]
        · exact UMap.keys_assign_find _ k _ m hf

/-- C12 (`put` failure is not atomic for a failing flush).  On a fresh store,
`put(1, "ab")` whose write reaches the stream but whose flush fails returns
`true`, advances `file_size_` to 2 and enters the record `(1, 0, 2, false)` in
the index although the data file is still empty, and the engine inserts
`(1, "ab")` in the cache: the source tests the stream after `write` and not
after `flush`. -/
theorem filestore_put_flush_failure :
    ((FileStore.ctor Disk.empty false).put 1 [97, 98]
      { write_ok := true, flush_ok := false, read_ok := true, tmp_ok := true }).1 = true ∧
    ((FileStore.ctor Disk.empty false).put 1 [97, 98]
      { write_ok := true, flush_ok := false, read_ok := true, tmp_ok := true }).2.file_size_
      = 2 ∧
    UMap.find ((FileStore.ctor Disk.empty false).put 1 [97, 98]
      { write_ok := true, flush_ok := false, read_ok := true, tmp_ok := true }).2.index_ 1
      = some { key := 1, offset := 0, size := 2, deleted := false } ∧
    ((FileStore.ctor Disk.empty false).put 1 [97, 98]
      { write_ok := true, flush_ok := false, read_ok := true, tmp_ok := true }).2.file_data
      = [] ∧
    ((StorageEngine.ctor Disk.empty 100 8).put 1 [97, 98]
      { write_ok := true, flush_ok := false, read_ok := true, tmp_ok := true }).1 = true ∧
    (((StorageEngine.ctor Disk.empty 100 8).put 1 [97, 98]
      { write_ok := true, flush_ok := false, read_ok := true, tmp_ok := true }).2.cache_.get
        1).1 = some [97, 98] := by
  decide

/-- C13 (`put` on an existing key is not an error).  Without device errors,
`put(k, v)` returns `true` for every key and value in every store and every
engine reached by sequential calls, whatever the state of `k` (absent, live or
tombstoned). -/
theorem put_always_succeeds (ops : List FileOp) (N S : Nat) (eops : List EngineOp)
    (k : Int) (v : Bytes) :
    ((FileStore.run ops).put k v IoEnv.ok).1 = true ∧
    ((StorageEngine.run N S eops).put k v IoEnv.ok).1 = true := by
  constructor
  · rw [FileStore.fs_put_eq _ (FileStore.fs_run_inv ops)]
  · rw [StorageEngine.eng_put_eq _ (StorageEngine.eng_run_inv N S eops)]

/-! ## Capacity of the shards -/

theorem LRUCache.segmentCapacity_eq_max (N S : Nat) :
    LRUCache.segmentCapacity N S = max 1 (N / S) := by
  unfold LRUCache.segmentCapacity
  split
  · rename_i h
    rw [h]
    rfl
  · rename_i h
    have : 1 ≤ N / S := Nat.one_le_iff_ne_zero.mpr h
    exact (max_eq_right this).symm

theorem LRUCache.segmentCapacity_pos (N S : Nat) : 0 < LRUCache.segmentCapacity N S := by
  rw [LRUCache.segmentCapacity_eq_max]
  exact lt_of_lt_of_le Nat.one_pos (le_max_left _ _)

theorem LRUCacheSegment.capacity_get (s : LRUCacheSegment) (k : Int) :
    (s.get k).2.capacity_ = s.capacity_ := by
  unfold LRUCacheSegment.get
  split
  · rfl
  · simp only []
    split <;> rfl

theorem LRUCacheSegment.capacity_remove (s : LRUCacheSegment) (k : Int) :
    (s.remove k).capacity_ = s.capacity_ := by
  unfold LRUCacheSegment.remove
  split <;> rfl

theorem LRUCacheSegment.capacity_put (s : LRUCacheSegment) (k : Int) (v : Bytes) :
    (s.put k v).capacity_ = s.capacity_ := by
  unfold LRUCacheSegment.put
  split
  · rfl
  · exact TracedSegment.evictIfFull_capacity s

theorem LRUCacheSegment.length_get {s : LRUCacheSegment} (hs : s.WF) (k : Int) :
    (s.get k).2.cache_list_.length = s.cache_list_.length := by
  cases hf : UMap.find s.cache_map_ k with
  | none => rw [LRUCacheSegment.get_eq_miss s k hf]
  | some it =>
    obtain ⟨x, hx, hxk, _⟩ := (hs.map_iff k it).mp hf
    rw [← hxk, LRUCacheSegment.get_eq_hit s hs x hx]
    exact (touch_perm _ x hs.keys_nodup hx).length_eq

theorem LRUCacheSegment.length_remove {s : LRUCacheSegment} (hs : s.WF) (k : Int) :
    (s.remove k).cache_list_.length ≤ s.cache_list_.length := by
  rw [LRUCacheSegment.seg_remove_eq s hs k]
  exact (withoutKey_sublist _ k).length_le

/-- A `put` keeps a shard of capacity at least 1 within its capacity. -/
theorem LRUCacheSegment.length_put {s : LRUCacheSegment} (hs : s.WF) (hcap : 0 < s.capacity_)
    (hlen : s.cache_list_.length ≤ s.capacity_) (k : Int) (v : Bytes) :
    (s.put k v).cache_list_.length ≤ s.capacity_ := by
  cases hf : UMap.find s.cache_map_ k with
  | none =>
    rw [LRUCacheSegment.put_eq_insert s k v hf]
    simp only [List.length_cons]
    by_cases hfull : s.capacity_ ≤ s.cache_list_.length
    · cases hlast : s.cache_list_.getLast? with
      | none =>
        have hnil := List.getLast?_eq_none_iff.mp hlast
        rw [LRUCacheSegment.evictIfFull_eq_empty s hnil, hnil]
        exact hcap
      | some last =>
        have hl : s.cache_list_ = s.cache_list_.dropLast ++ [last] :=
          (List.dropLast_append_getLast? last hlast).symm
        rw [LRUCacheSegment.evictIfFull_eq_full s _ last hl hfull]
        simp only [List.length_dropLast]
        have hpos : 0 < s.cache_list_.length := by
          rw [hl]
          simp
        omega
    · rw [LRUCacheSegment.evictIfFull_eq_room s (by omega)]
      omega
  | some it =>
    obtain ⟨x, hx, hxk, _⟩ := (hs.map_iff k it).mp hf
    rw [← hxk, LRUCacheSegment.put_eq_update s hs x hx]
    have := (touch_perm _ x hs.keys_nodup hx).length_eq
    simp only [List.length_cons] at this ⊢
    omega

theorem LRUCache.wf_of_mem {c : LRUCache} (hc : c.WF) (seg : LRUCacheSegment)
    (h : seg ∈ c.segments_) : seg.WF := by
  obtain ⟨j, hj⟩ := List.mem_iff_getElem?.mp h
  exact hc.seg_wf j seg hj

theorem LRUCache.Bounded.of_set {N S : Nat} {c : LRUCache} (hb : c.Bounded N S) (i : Nat)
    (seg1 : LRUCacheSegment)
    (h1 : seg1.capacity_ = LRUCache.segmentCapacity N S ∧
      seg1.cache_list_.length ≤ seg1.capacity_) :
    LRUCache.Bounded N S { c with segments_ := c.segments_.set i seg1 } := by
  intro seg hseg
  rcases List.mem_or_eq_of_mem_set hseg with h | h
  · exact hb seg h
  · rw [h]
    exact h1

theorem LRUCache.Bounded.apply_bounded {N S : Nat} {c : LRUCache} (hc : c.WF)
    (hb : c.Bounded N S) (op : CacheOp) : (c.apply op).Bounded N S := by
  cases op with
  | put k v =>
    show (c.put k v).Bounded N S
    cases h : c.segments_[c.getSegmentIndex k]? with
    | none => rw [LRUCache.put_eq_none c k v h]; exact hb
    | some seg =>
      rw [LRUCache.cache_put_eq c k v seg h]
      have hmem : seg ∈ c.segments_ := List.mem_iff_getElem?.mpr ⟨_, h⟩
      have hseg := hb seg hmem
      apply hb.of_set
      rw [LRUCacheSegment.capacity_put]
      refine ⟨hseg.1, LRUCacheSegment.length_put (hc.seg_wf _ seg h) ?_ hseg.2 k v⟩
      rw [hseg.1]
      exact LRUCache.segmentCapacity_pos N S
  | get k =>
    show (c.get k).2.Bounded N S
    cases h : c.segments_[c.getSegmentIndex k]? with
    | none => rw [LRUCache.get_eq_none c k h]; exact hb
    | some seg =>
      rw [LRUCache.cache_get_eq c k seg h]
      have hmem : seg ∈ c.segments_ := List.mem_iff_getElem?.mpr ⟨_, h⟩
      have hseg := hb seg hmem
      apply hb.of_set
      rw [LRUCacheSegment.capacity_get, LRUCacheSegment.length_get (hc.seg_wf _ seg h)]
      exact hseg
  | remove k =>
    show (c.remove k).Bounded N S
    cases h : c.segments_[c.getSegmentIndex k]? with
    | none => rw [LRUCache.remove_eq_none c k h]; exact hb
    | some seg =>
      rw [LRUCache.cache_remove_eq c k seg h]
      have hmem : seg ∈ c.segments_ := List.mem_iff_getElem?.mpr ⟨_, h⟩
      have hseg := hb seg hmem
      apply hb.of_set
      rw [LRUCacheSegment.capacity_remove]
      exact ⟨hseg.1, le_trans (LRUCacheSegment.length_remove (hc.seg_wf _ seg h) k) hseg.2⟩

theorem LRUCache.WF.apply_cache_op {c : LRUCache} (hc : c.WF) (op : CacheOp) :
    (c.apply op).WF := by
  cases op with
  | put k v => exact hc.cache_put k v
  | get k => exact hc.cache_get k
  | remove k => exact hc.cache_remove k

theorem LRUCache.run_append_one (N S : Nat) (ops : List CacheOp) (op : CacheOp) :
    LRUCache.run N S (ops ++ [op]) = (LRUCache.run N S ops).apply op := by
  simp [LRUCache.run, List.foldl_append]

theorem LRUCache.run_wf (N S : Nat) (ops : List CacheOp) : (LRUCache.run N S ops).WF := by
  induction ops using List.reverseRecOn with
  | nil => exact LRUCache.WF.cache_ctor N S
  | append_singleton l op ih =>
    rw [LRUCache.run_append_one]
    exact ih.apply_cache_op op

theorem LRUCache.run_bounded (N S : Nat) (ops : List CacheOp) :
    (LRUCache.run N S ops).Bounded N S := by
  induction ops using List.reverseRecOn with
  | nil =>
    intro seg hseg
    simp only [LRUCache.run, List.foldl_nil, LRUCache.ctor] at hseg
    rw [List.eq_of_mem_replicate hseg]
    exact ⟨rfl, Nat.zero_le _⟩
  | append_singleton l op ih =>
    rw [LRUCache.run_append_one]
    exact ih.apply_bounded (LRUCache.run_wf N S l) op

theorem LRUCache.apply_num_segments (c : LRUCache) (op : CacheOp) :
    (c.apply op).num_segments_ = c.num_segments_ := by
  cases op with
  | put k v => exact LRUCache.num_segments_put c k v
  | get k => exact LRUCache.num_segments_get c k
  | remove k => exact LRUCache.num_segments_remove c k

theorem LRUCache.run_num_segments_eq (N S : Nat) (ops : List CacheOp) :
    (LRUCache.run N S ops).num_segments_ = S := by
  induction ops using List.reverseRecOn with
  | nil => rfl
  | append_singleton l op ih =>
    rw [LRUCache.run_append_one, LRUCache.apply_num_segments]
    exact ih

theorem list_sum_le_of_forall_le (l : List Nat) (b : Nat) (h : ∀ x ∈ l, x ≤ b) :
    l.sum ≤ l.length * b := by
  induction l with
  | nil => simp
  | cons a rest ih =>
    have h1 := h a (List.mem_cons_self _ _)
    have h2 := ih (fun x hx => h x (List.mem_cons_of_mem _ hx))
    simp only [List.sum_cons, List.length_cons, Nat.succ_mul]
    omega

/-- C14 (cache capacity).  In every state of a cache built with total capacity
`N` and `S` shards and reached by a sequence of `put`/`get`/`remove` calls,
there are `S` shards, each shard has capacity `max(1, N/S)` and holds at most
that many entries, and the whole cache holds at most `S × max(1, N/S)`
entries. -/
theorem cache_capacity_bound (N S : Nat) (ops : List CacheOp) :
    (LRUCache.run N S ops).segments_.length = S ∧
    (∀ seg ∈ (LRUCache.run N S ops).segments_,
      seg.capacity_ = max 1 (N / S) ∧ seg.cache_list_.length ≤ max 1 (N / S)) ∧
    ((LRUCache.run N S ops).segments_.map (fun seg => seg.cache_list_.length)).sum
      ≤ S * max 1 (N / S) := by
  have hb := LRUCache.run_bounded N S ops
  have hlen : (LRUCache.run N S ops).segments_.length = S := by
    rw [(LRUCache.run_wf N S ops).len, LRUCache.run_num_segments_eq]
  have hseg : ∀ seg ∈ (LRUCache.run N S ops).segments_,
      seg.capacity_ = max 1 (N / S) ∧ seg.cache_list_.length ≤ max 1 (N / S) := by
    intro seg h
    have := hb seg h
    rw [this.1, LRUCache.segmentCapacity_eq_max] at this
    exact ⟨by rw [(hb seg h).1, LRUCache.segmentCapacity_eq_max], this.2⟩
  refine ⟨hlen, hseg, ?_⟩
  have := list_sum_le_of_forall_le
    ((LRUCache.run N S ops).segments_.map (fun seg => seg.cache_list_.length)) (max 1 (N / S))
    (by
      intro x hx
      obtain ⟨seg, hs, rfl⟩ := List.mem_map.mp hx
      exact (hseg seg hs).2)
  rw [List.length_map, hlen] at this
  exact this

/-! ## Submissions after `stop` -/

theorem StorageEngine.stopped_put (e : StorageEngine) (k : Int) (v : Bytes) (io : IoEnv) :
    (e.put k v io).2.stopped_ = e.stopped_ := by
  unfold StorageEngine.put
  simp only []
  split <;> rfl

theorem StorageEngine.stopped_get (e : StorageEngine) (k : Int) (io : IoEnv) :
    (e.get k io).2.stopped_ = e.stopped_ := by
  unfold StorageEngine.get
  cases e.cache_.get k with
  | mk r c =>
    cases r with
    | some x => rfl
    | none =>
      simp only []
      split <;> rfl

theorem EngineTask.stopped_perform (e : StorageEngine) (io : IoEnv) (task : EngineTask) :
    (task.perform e io).1.stopped_ = e.stopped_ := by
  cases task with
  | put k v cb => exact StorageEngine.stopped_put e k v io
  | get k cb => exact StorageEngine.stopped_get e k io
  | del k cb => rfl

theorem AsyncEngine.stopped_runNext (a : AsyncEngine) :
    a.runNext.engine.stopped_ = a.engine.stopped_ := by
  unfold AsyncEngine.runNext
  split
  · rfl
  · split
    · exact EngineTask.stopped_perform _ _ _
    · rfl

/-- No step of the engine resets the flag that `stop` sets. -/
theorem AsyncEngine.stopped_apply (N S : Nat) (a : AsyncEngine) (op : AsyncOp)
    (h : a.engine.stopped_ = true) : (a.apply N S op).engine.stopped_ = true := by
  cases op with
  | asyncPut k v cb =>
    simp only [AsyncEngine.apply, AsyncEngine.asyncPut, h, if_true]
  | asyncGet k cb =>
    simp only [AsyncEngine.apply, AsyncEngine.asyncGet, h, if_true]
  | asyncDel k cb =>
    simp only [AsyncEngine.apply, AsyncEngine.asyncDel, h, if_true]
  | sync eop =>
    cases eop with
    | put k v =>
      show ((a.engine.put k v IoEnv.ok).2).stopped_ = true
      rw [StorageEngine.stopped_put]
      exact h
    | get k =>
      show ((a.engine.get k IoEnv.ok).2).stopped_ = true
      rw [StorageEngine.stopped_get]
      exact h
    | del k => exact h
    | garbageCollect => exact h
    | restart b => exact h
  | stop => rfl
  | runNext =>
    show a.runNext.engine.stopped_ = true
    rw [AsyncEngine.stopped_runNext]
    exact h

theorem AsyncEngine.stopped_run (N S : Nat) (ops : List AsyncOp) :
    ∀ a : AsyncEngine, a.engine.stopped_ = true →
      (AsyncEngine.run N S a ops).engine.stopped_ = true := by
  induction ops with
  | nil => intro a h; exact h
  | cons op rest ih =>
    intro a h
    exact ih (a.apply N S op) (AsyncEngine.stopped_apply N S a op h)

/-- C15 (submit after stop).  In every state reached after `stop()` by any
further steps (asynchronous and synchronous calls, workers running queued
tasks), `asyncPut` and `asyncDel` invoke their callback, if it is not empty,
with `false`, and change nothing else: no task is enqueued and the engine (log
store and cache) is as before; `asyncGet` leaves the whole state as it is, so
that it enqueues nothing, invokes no callback, and no later step can tell that
the call was made. -/
theorem async_submit_after_stop (N S : Nat) (a0 : AsyncEngine) (ops : List AsyncOp)
    (k : Int) (v : Bytes) (cb : Option Nat) :
    (AsyncEngine.run N S a0.stop ops).engine.stopped_ = true ∧
    (AsyncEngine.run N S a0.stop ops).asyncPut k v cb =
      { AsyncEngine.run N S a0.stop ops with
        invoked := (AsyncEngine.run N S a0.stop ops).invoked ++ invokeBool cb false } ∧
    (AsyncEngine.run N S a0.stop ops).asyncDel k cb =
      { AsyncEngine.run N S a0.stop ops with
        invoked := (AsyncEngine.run N S a0.stop ops).invoked ++ invokeBool cb false } ∧
    (∀ c, invokeBool (some c) false = [CallbackEvent.boolResult c false]) ∧
    (AsyncEngine.run N S a0.stop ops).asyncGet k cb = AsyncEngine.run N S a0.stop ops ∧
    (∀ later, AsyncEngine.run N S ((AsyncEngine.run N S a0.stop ops).asyncGet k cb) later
      = AsyncEngine.run N S (AsyncEngine.run N S a0.stop ops) later) := by
  have h : (AsyncEngine.run N S a0.stop ops).engine.stopped_ = true :=
    AsyncEngine.stopped_run N S ops a0.stop rfl
  have hget : (AsyncEngine.run N S a0.stop ops).asyncGet k cb
      = AsyncEngine.run N S a0.stop ops := by
    simp only [AsyncEngine.asyncGet, h, if_true]
  refine ⟨h, ?_, ?_, fun _ => rfl, hget, ?_⟩
  · simp only [AsyncEngine.asyncPut, h, if_true]
  · simp only [AsyncEngine.asyncDel, h, if_true]
  · intro later
    rw [hget]

/-! ## The worker pool at shutdown and its task counter -/

theorem ThreadPool.exec_append {T : Type} [DecidableEq T] (s1 s2 : List (PoolStep T)) :
    ∀ p p1 : ThreadPool T, p.exec s1 = some p1 → p.exec (s1 ++ s2) = p1.exec s2 := by
  induction s1 with
  | nil =>
    intro p p1 h
    simp only [ThreadPool.exec, Option.some.injEq] at h
    rw [List.nil_append, h]
  | cons st rest ih =>
    intro p p1 h
    simp only [ThreadPool.exec, List.cons_append] at h ⊢
    cases hst : p.step st with
    | none => rw [hst] at h; exact Option.noConfusion h
    | some q =>
      rw [hst] at h
      simp only [] at h ⊢
      exact ih q p1 h

/-- A free worker that finds a task in the queue pops the front task, whether
the stop flag is set or not. -/
theorem ThreadPool.step_dequeue {T : Type} [DecidableEq T] (p : ThreadPool T) (task : T)
    (rest : List T) (ht : p.tasks_ = task :: rest) (hfree : p.running.length < p.workers) :
    p.step PoolStep.dequeue = some { p with tasks_ := rest, running := task :: p.running } := by
  simp only [ThreadPool.step, hfree, if_true, ht]

theorem ThreadPool.step_finish_head {T : Type} [DecidableEq T] (p : ThreadPool T) (task : T)
    (rest : List T) (hr : p.running = task :: rest) :
    p.step (PoolStep.finish task) =
      some { p.decrementTasksCount with running := rest, completed := p.completed ++ [task] } := by
  simp only [ThreadPool.step, hr, List.mem_cons, true_or, if_true, List.erase_cons_head,
    ThreadPool.decrementTasksCount]

/-- A worker that is free runs all queued tasks, front first. -/
theorem ThreadPool.exec_drainSchedule {T : Type} [DecidableEq T] (tasks : List T) :
    ∀ p : ThreadPool T, p.tasks_ = tasks → p.running.length < p.workers →
    ∃ p1, p.exec (ThreadPool.drainSchedule tasks) = some p1 ∧ p1.tasks_ = [] ∧
      p1.completed = p.completed ++ tasks ∧ p1.running = p.running ∧ p1.stop_ = p.stop_ ∧
      p1.workers = p.workers := by
  induction tasks with
  | nil =>
    intro p ht _
    exact ⟨p, rfl, ht, by simp, rfl, rfl, rfl⟩
  | cons task rest ih =>
    intro p ht hfree
    have h1 := ThreadPool.step_dequeue p task rest ht hfree
    have h2 := ThreadPool.step_finish_head
      { p with tasks_ := rest, running := task :: p.running } task p.running rfl
    obtain ⟨p1, hp1, h3, h4, h5, h6, h7⟩ := ih
      { ThreadPool.decrementTasksCount { p with tasks_ := rest, running := task :: p.running } with
        running := p.running, completed := p.completed ++ [task] } rfl hfree
    refine ⟨p1, ?_, h3, ?_, h5, h6, h7⟩
    · simp only [ThreadPool.drainSchedule, ThreadPool.exec, h1, h2]
      exact hp1
    · rw [h4]
      simp

/-- C16, as stated, fails.  A pool with one worker in which task 7 was
submitted and the stop flag was then set has task 7 still in the queue, neither
dequeued nor run; the worker then dequeues it and runs it to completion. -/
theorem pool_stop_discards_counterexample :
    ∃ p p1 : ThreadPool Nat,
      (ThreadPool.ctor Nat 1).exec
        [PoolStep.submitPush 7, PoolStep.submitCount, PoolStep.setStop] = some p ∧
      p.stop_ = true ∧ 7 ∈ p.tasks_ ∧ 7 ∉ p.running ∧ 7 ∉ p.completed ∧
      p.step PoolStep.workerReturn = none ∧
      p.exec [PoolStep.dequeue, PoolStep.finish 7] = some p1 ∧ 7 ∈ p1.completed :=
  ⟨{ tasks_ := [7], stop_ := true, active_tasks_count_ := 1, uncounted := 0, running := [],
     completed := [], workers := 1 },
   { tasks_ := [], stop_ := true, active_tasks_count_ := 0, uncounted := 0, running := [],
     completed := [7], workers := 1 },
   by decide, rfl, by decide, by decide, by decide, by decide, by decide, by decide⟩

/-- C16, amended (shutdown drains the queue).  Once the stop flag of the pool
is set, a worker cannot return while a task is queued; a free worker that finds
the queue non-empty pops the front task; every dequeued task can run to
completion; and a free worker runs all tasks still in the queue, front first,
after which the queue is empty and the worker can return. -/
theorem pool_stop_drains_queue {T : Type} [DecidableEq T] (p : ThreadPool T)
    (hstop : p.stop_ = true) (hfree : p.running.length < p.workers) :
    (p.tasks_ ≠ [] → p.step PoolStep.workerReturn = none) ∧
    (∀ task rest, p.tasks_ = task :: rest →
      p.step PoolStep.dequeue = some { p with tasks_ := rest, running := task :: p.running }) ∧
    (∀ task ∈ p.running, (p.step (PoolStep.finish task)).isSome = true) ∧
    (∃ p1, p.exec (ThreadPool.drainSchedule p.tasks_) = some p1 ∧ p1.tasks_ = [] ∧
      p1.completed = p.completed ++ p.tasks_ ∧ p1.running = p.running ∧ p1.stop_ = true ∧
      (p1.step PoolStep.workerReturn).isSome = true) := by
  refine ⟨?_, ?_, ?_, ?_⟩
  · intro hne
    simp [ThreadPool.step, hne]
  · intro task rest ht
    exact ThreadPool.step_dequeue p task rest ht hfree
  · intro task ht
    simp [ThreadPool.step, ht]
  · obtain ⟨p1, h1, h2, h3, h4, h5, h6⟩ := ThreadPool.exec_drainSchedule p.tasks_ p rfl hfree
    refine ⟨p1, h1, h2, h3, h4, by rw [h5, hstop], ?_⟩
    have hfree1 : p1.running.length < p1.workers := by rw [h4, h6]; exact hfree
    simp [ThreadPool.step, hfree1, h5, hstop, h2]

theorem pool_stop_drains_queue_witness :
    ((ThreadPool.mk [7, 8] true 3 0 [5] [] 2 : ThreadPool Nat).stop_ = true ∧
      (ThreadPool.mk [7, 8] true 3 0 [5] [] 2 : ThreadPool Nat).running.length
        < (ThreadPool.mk [7, 8] true 3 0 [5] [] 2 : ThreadPool Nat).workers) ∧
    ∃ p1, (ThreadPool.mk [7, 8] true 3 0 [5] [] 2 : ThreadPool Nat).exec
          (ThreadPool.drainSchedule [7, 8]) = some p1 ∧
      p1.tasks_ = [] ∧ p1.completed = [] ++ [7, 8] ∧ p1.running = [5] ∧ p1.stop_ = true ∧
      (p1.step PoolStep.workerReturn).isSome = true :=
  ⟨⟨rfl, by decide⟩,
    (pool_stop_drains_queue
      (ThreadPool.mk [7, 8] true 3 0 [5] [] 2 : ThreadPool Nat) rfl (by decide)).2.2.2⟩

/-- Decrementing a wrapping counter keeps a congruence with a count that goes
down by one. -/
theorem ThreadPool.counter_dec_modEq (M c u q r : Nat) (hM : 0 < M) (hr : 0 < r)
    (h : Nat.ModEq M (c + u) (q + r)) :
    Nat.ModEq M ((if c = 0 then M - 1 else c - 1) + u) (q + (r - 1)) := by
  by_cases hc : c = 0
  · rw [if_pos hc]
    subst hc
    have h2 := h.add_right (M - 1)
    have e1 : 0 + u + (M - 1) = M - 1 + u := by omega
    have e2 : q + r + (M - 1) = q + (r - 1) + M := by omega
    rw [e1, e2] at h2
    have h3 : Nat.ModEq M (q + (r - 1) + M) (q + (r - 1)) := Nat.add_mod_right _ _
    exact h2.trans h3
  · rw [if_neg hc]
    have e1 : c + u = c - 1 + u + 1 := by omega
    have e2 : q + r = q + (r - 1) + 1 := by omega
    rw [e1, e2] at h
    exact Nat.ModEq.add_right_cancel' 1 h

/-- The counter and the calls of `submit` that have not yet counted their task
account, modulo `2^64`, for the tasks that are queued or running. -/
theorem ThreadPool.counter_step {T : Type} [DecidableEq T] (p p1 : ThreadPool T)
    (st : PoolStep T) (hst : p.step st = some p1)
    (h : (p.active_tasks_count_ + p.uncounted) % 2 ^ 64 = p.unfinished % 2 ^ 64) :
    (p1.active_tasks_count_ + p1.uncounted) % 2 ^ 64 = p1.unfinished % 2 ^ 64 := by
  obtain ⟨M, hM, hpos⟩ : ∃ M : Nat, 2 ^ 64 = M ∧ 0 < M := ⟨2 ^ 64, rfl, Nat.two_pow_pos 64⟩
  simp only [ThreadPool.unfinished, hM] at h ⊢
  have hI : Nat.ModEq M (p.active_tasks_count_ + p.uncounted)
      (p.tasks_.length + p.running.length) := h
  show Nat.ModEq M (p1.active_tasks_count_ + p1.uncounted)
      (p1.tasks_.length + p1.running.length)
  cases st with
  | submitPush task =>
    simp only [ThreadPool.step, Option.some.injEq] at hst
    rw [← hst]
    simp only [List.length_append, List.length_singleton]
    have h1 := hI.add_right 1
    have e1 : p.active_tasks_count_ + (p.uncounted + 1)
        = p.active_tasks_count_ + p.uncounted + 1 := by omega
    have e2 : p.tasks_.length + 1 + p.running.length
        = p.tasks_.length + p.running.length + 1 := by omega
    rw [e1, e2]
    exact h1
  | submitCount =>
    simp only [ThreadPool.step] at hst
    split at hst
    · rename_i hu
      simp only [Option.some.injEq] at hst
      rw [← hst]
      simp only [ThreadPool.incrementTasksCount, hM]
      have h1 : Nat.ModEq M ((p.active_tasks_count_ + 1) % M + (p.uncounted - 1))
          (p.active_tasks_count_ + 1 + (p.uncounted - 1)) :=
        (Nat.mod_modEq _ _).add_right _
      have e1 : p.active_tasks_count_ + 1 + (p.uncounted - 1)
          = p.active_tasks_count_ + p.uncounted := by omega
      rw [e1] at h1
      exact h1.trans hI
    · exact Option.noConfusion hst
  | dequeue =>
    simp only [ThreadPool.step] at hst
    split at hst
    · split at hst
      · exact Option.noConfusion hst
      · rename_i task rest ht
        simp only [Option.some.injEq] at hst
        rw [← hst]
        rw [ht] at hI
        simp only [List.length_cons] at hI ⊢
        have e1 : rest.length + (p.running.length + 1)
            = rest.length + 1 + p.running.length := by omega
        rw [e1]
        exact hI
    · exact Option.noConfusion hst
  | finish task =>
    simp only [ThreadPool.step] at hst
    split at hst
    · rename_i hmem
      simp only [Option.some.injEq] at hst
      rw [← hst]
      have hlen := List.length_erase_of_mem hmem
      have hrpos : 0 < p.running.length := List.length_pos_of_mem hmem
      simp only [ThreadPool.decrementTasksCount, hM, hlen]
      exact ThreadPool.counter_dec_modEq M _ _ _ _ hpos hrpos hI
    · exact Option.noConfusion hst
  | workerReturn =>
    simp only [ThreadPool.step] at hst
    split at hst
    · simp only [Option.some.injEq] at hst
      rw [← hst]
      exact hI
    · exact Option.noConfusion hst
  | setStop =>
    simp only [ThreadPool.step, Option.some.injEq] at hst
    rw [← hst]
    exact hI

theorem ThreadPool.counter_exec {T : Type} [DecidableEq T] (sched : List (PoolStep T)) :
    ∀ p p1 : ThreadPool T, p.exec sched = some p1 →
    (p.active_tasks_count_ + p.uncounted) % 2 ^ 64 = p.unfinished % 2 ^ 64 →
    (p1.active_tasks_count_ + p1.uncounted) % 2 ^ 64 = p1.unfinished % 2 ^ 64 := by
  induction sched with
  | nil =>
    intro p p1 h hinv
    simp only [ThreadPool.exec, Option.some.injEq] at h
    rw [← h]
    exact hinv
  | cons st rest ih =>
    intro p p1 h hinv
    simp only [ThreadPool.exec] at h
    cases hst : p.step st with
    | none => rw [hst] at h; exact Option.noConfusion h
    | some q =>
      rw [hst] at h
      exact ih q p1 h (ThreadPool.counter_step p q st hst hinv)

/-- In every state a schedule reaches from a new pool, the counter plus the
number of `submit` calls that are between their push and their increment equals,
modulo `2^64`, the number of tasks queued or running; the counter alone is that
number only when no `submit` is in that window. -/
theorem ThreadPool.counter_invariant {T : Type} [DecidableEq T] (n : Nat)
    (sched : List (PoolStep T)) (p : ThreadPool T)
    (h : (ThreadPool.ctor T n).exec sched = some p) :
    (p.active_tasks_count_ + p.uncounted) % 2 ^ 64 = p.unfinished % 2 ^ 64 :=
  ThreadPool.counter_exec sched _ p h rfl

/-- C17 (the counter is not the number of unfinished tasks).  With two workers:
task 0 is submitted and dequeued, a second `submit` pushes task 1, the other
worker runs task 1 to completion before that `submit` increments the counter;
then the counter is 0 and `waitAllTasks` can return while task 0, submitted and
counted, is still running.  With one worker: the task of a `submit` is run to
completion before the increment; then the counter, a `size_t`, has wrapped from
0 to `2^64 - 1` while no task is queued or running. -/
theorem pool_counter_race :
    (∃ p : ThreadPool Nat,
      (ThreadPool.ctor Nat 2).exec
        [PoolStep.submitPush 0, PoolStep.submitCount, PoolStep.dequeue,
         PoolStep.submitPush 1, PoolStep.dequeue, PoolStep.finish 1] = some p ∧
      p.running = [0] ∧ p.tasks_ = [] ∧ p.unfinished = 1 ∧
      p.active_tasks_count_ = 0 ∧ p.waitAllTasksReturns = true) ∧
    (∃ q : ThreadPool Nat,
      (ThreadPool.ctor Nat 1).exec
        [PoolStep.submitPush 7, PoolStep.dequeue, PoolStep.finish 7] = some q ∧
      q.unfinished = 0 ∧ q.active_tasks_count_ = 2 ^ 64 - 1 ∧
      q.waitAllTasksReturns = false) :=
  ⟨⟨{ tasks_ := [], stop_ := false, active_tasks_count_ := 0, uncounted := 1, running := [0],
      completed := [1], workers := 2 }, by decide, rfl, rfl, rfl, rfl, rfl⟩,
   ⟨{ tasks_ := [], stop_ := false, active_tasks_count_ := 2 ^ 64 - 1, uncounted := 1,
      running := [], completed := [7], workers := 1 }, by decide, rfl, rfl, by decide⟩⟩

/-! ## Compaction twice, clean start, empty values -/

theorem FileStore.layout_relayout (live : List ObjectMeta) :
    ∀ off, FileStore.layout off ((FileStore.layout off live).map Prod.snd)
      = FileStore.layout off live := by
  induction live with
  | nil => intro off; rfl
  | cons m rest ih =>
    intro off
    simp only [FileStore.layout, List.map_cons]
    rw [ih]

theorem FileStore.layout_sizes (live : List ObjectMeta) :
    ∀ off, ((FileStore.layout off live).map Prod.snd).map ObjectMeta.size
      = live.map ObjectMeta.size := by
  induction live with
  | nil => intro off; rfl
  | cons m rest ih =>
    intro off
    simp only [FileStore.layout, List.map_cons]
    rw [ih]

theorem FileStore.layout_all_live (live : List ObjectMeta)
    (hd : ∀ m ∈ live, m.deleted = false) :
    ∀ off, ((FileStore.layout off live).map Prod.snd).filter (fun m => !m.deleted)
      = (FileStore.layout off live).map Prod.snd := by
  intro off
  rw [List.filter_eq_self]
  intro x hx
  obtain ⟨e, he, rfl⟩ := List.mem_map.mp hx
  clear hx
  induction live generalizing off with
  | nil => simp [FileStore.layout] at he
  | cons m rest ih =>
    simp only [FileStore.layout, List.mem_cons] at he
    rcases he with he | he
    · rw [he]
      simp [hd m (List.mem_cons_self _ _)]
    · exact ih (fun x hx => hd x (List.mem_cons_of_mem _ hx)) _ he

/-- Copying the compacted file once more, record by record, gives the same
bytes. -/
theorem FileStore.payload_relayout (data : Bytes) (live : List ObjectMeta)
    (hr : ∀ m ∈ live, m.offset + m.size ≤ data.length) :
    ∀ pre : Bytes,
      FileStore.payload (pre ++ FileStore.payload data live)
        ((FileStore.layout pre.length live).map Prod.snd)
      = FileStore.payload data live := by
  induction live with
  | nil => intro pre; rfl
  | cons m rest ih =>
    intro pre
    have hl := readAt_length data m.offset m.size (hr m (List.mem_cons_self _ _))
    have hhead := readAt_append_right pre (readAt data m.offset m.size)
      (FileStore.payload data rest)
    rw [hl] at hhead
    have hlen : (pre ++ readAt data m.offset m.size).length = pre.length + m.size := by
      rw [List.length_append, hl]
    have htail := ih (fun x hx => hr x (List.mem_cons_of_mem _ hx))
      (pre ++ readAt data m.offset m.size)
    rw [hlen, List.append_assoc] at htail
    simp only [FileStore.layout, List.map_cons, FileStore.payload]
    rw [hhead, htail]

/-- On a store that satisfies the invariant, a second compaction changes
nothing. -/
theorem FileStore.gc_gc_eq (s : FileStore) (hs : s.Inv) :
    (s.garbageCollect IoEnv.ok).garbageCollect IoEnv.ok = s.garbageCollect IoEnv.ok := by
  have hinv := hs.fs_gc
  have hlive : (s.garbageCollect IoEnv.ok).liveObjects
      = (FileStore.layout 0 s.liveObjects).map Prod.snd := by
    rw [FileStore.garbageCollect_eq s hs]
    exact FileStore.layout_all_live s.liveObjects
      (fun m hm => (FileStore.liveObjects_mem s hs m hm).2) 0
  rw [FileStore.garbageCollect_eq _ hinv, hlive]
  rw [FileStore.layout_relayout, FileStore.layout_sizes]
  rw [FileStore.garbageCollect_eq s hs]
  have hp := FileStore.payload_relayout s.file_data s.liveObjects
    (FileStore.liveObjects_in_range s hs) []
  simp only [List.nil_append, List.length_nil] at hp
  simp only [hp]

/-- C18 (compaction is idempotent).  For every store reached by sequential
calls, a second `garbageCollect()` right after the first leaves the store
exactly as the first left it: the same index (so the same keys), the same data
file, the same `file_size_`, and the same result of `get(k)` for every key. -/
theorem filestore_gc_idempotent (ops : List FileOp) (k : Int) :
    ((FileStore.run ops).garbageCollect IoEnv.ok).garbageCollect IoEnv.ok
      = (FileStore.run ops).garbageCollect IoEnv.ok ∧
    (((FileStore.run ops).garbageCollect IoEnv.ok).garbageCollect IoEnv.ok).index_.map Prod.fst
      = ((FileStore.run ops).garbageCollect IoEnv.ok).index_.map Prod.fst ∧
    ((((FileStore.run ops).garbageCollect IoEnv.ok).garbageCollect IoEnv.ok).get k IoEnv.ok).1
      = (((FileStore.run ops).garbageCollect IoEnv.ok).get k IoEnv.ok).1 ∧
    (((FileStore.run ops).garbageCollect IoEnv.ok).garbageCollect IoEnv.ok).file_size_
      = ((FileStore.run ops).garbageCollect IoEnv.ok).file_size_ := by
  have h := FileStore.gc_gc_eq _ (FileStore.fs_run_inv ops)
  rw [h]
  exact ⟨rfl, rfl, rfl, rfl⟩

/-- C19 (clean start).  Constructing the log store with `clean_start = true`
on any files, a data file and a snapshot included, leaves no snapshot and an
empty data file on disk; the store has an empty index, `file_size_` 0 and an
empty data file, it is the store a construction on an empty directory gives, and
`get(k)` returns the empty byte string for every key. -/
theorem filestore_clean_start (d : Disk) (k : Int) (io : IoEnv) :
    FileStore.ctorFiles d true = { data_file := some [], index_file := none } ∧
    (FileStore.ctor d true).index_ = [] ∧
    (FileStore.ctor d true).file_size_ = 0 ∧
    (FileStore.ctor d true).file_data = [] ∧
    FileStore.ctor d true = FileStore.ctor Disk.empty false ∧
    ((FileStore.ctor d true).get k io).1 = [] := by
  refine ⟨rfl, rfl, rfl, rfl, rfl, ?_⟩
  apply congrArg Prod.fst (FileStore.get_eq_absent _ k io _)
  rfl

/-- Every key of the index of a reached store was the key of a `put`. -/
theorem FileStore.run_keys_written (ops : List FileOp) :
    ∀ e ∈ (FileStore.run ops).index_, (lastPutValue ops e.1).isSome = true := by
  induction ops using List.reverseRecOn with
  | nil =>
    intro e he
    simp [FileStore.run, FileStore.ctor, FileStore.loadIndex, Disk.empty] at he
  | append_singleton l op ih =>
    have hs := FileStore.fs_run_inv l
    intro e he
    rw [FileStore.fs_run_snoc] at he
    rw [lastPutValue_snoc]
    cases op with
    | put k v =>
      simp only [FileStore.apply] at he
      rw [FileStore.fs_put_eq _ hs] at he
      simp only []
      rcases UMap.mem_assign _ _ _ _ he with h1 | h1
      · rw [h1]
        simp
      · split
        · rfl
        · exact ih e h1
    | get k =>
      obtain ⟨c, hc⟩ := FileStore.get_state _ hs k
      simp only [FileStore.apply] at he
      rw [hc] at he
      exact ih e he
    | del k =>
      simp only [FileStore.apply] at he
      cases hf : UMap.find (FileStore.run l).index_ k with
      | none =>
        rw [FileStore.del_eq_absent _ k hf] at he
        exact ih e he
      | some m =>
        cases hdel : m.deleted with
        | true =>
          rw [FileStore.del_eq_deleted _ k m hf hdel] at he
          exact ih e he
        | false =>
          rw [FileStore.del_eq_live _ k m hf hdel] at he
          rcases UMap.mem_assign _ _ _ _ he with h1 | h1
          · rw [h1]
            exact ih (k, m) (UMap.mem_of_find _ _ _ hf)
          · exact ih e h1
    | garbageCollect =>
      simp only [FileStore.apply] at he
      rw [FileStore.garbageCollect_eq _ hs] at he
      have hmem := FileStore.layout_mem (FileStore.run l).file_data (FileStore.run l).liveObjects
        (FileStore.liveObjects_in_range _ hs) []
      simp only [List.length_nil, List.nil_append, Nat.zero_add] at hmem
      obtain ⟨m, hm, h1, _⟩ := hmem e he
      rw [h1]
      exact ih (m.key, m) (FileStore.liveObjects_mem _ hs m hm).1
    | restart b =>
      simp only [FileStore.apply] at he
      cases b with
      | false =>
        rw [FileStore.restart_eq_plain _ hs] at he
        exact ih e he
      | true =>
        rw [FileStore.restart_eq_compacting _ hs] at he
        rw [FileStore.garbageCollect_eq _ hs] at he
        have hmem := FileStore.layout_mem (FileStore.run l).file_data
          (FileStore.run l).liveObjects (FileStore.liveObjects_in_range _ hs) []
        simp only [List.length_nil, List.nil_append, Nat.zero_add] at hmem
        obtain ⟨m, hm, h1, _⟩ := hmem e he
        rw [h1]
        exact ih (m.key, m) (FileStore.liveObjects_mem _ hs m hm).1

/-- A key that no `put` of the sequence wrote has no index entry. -/
theorem FileStore.find_never_written (ops : List FileOp) (k : Int)
    (h : lastPutValue ops k = none) : UMap.find (FileStore.run ops).index_ k = none := by
  cases hf : UMap.find (FileStore.run ops).index_ k with
  | none => rfl
  | some m =>
    have := FileStore.run_keys_written ops (k, m) (UMap.mem_of_find _ _ _ hf)
    rw [h] at this
    exact Bool.noConfusion this

/-- The result of `get` for a live record of size 0 is empty, whatever the
device does. -/
theorem FileStore.get_eq_empty_value (s : FileStore) (k : Int) (m : ObjectMeta) (io : IoEnv)
    (hf : UMap.find s.index_ k = some m) (hz : m.size = 0) : (s.get k io).1 = [] := by
  unfold FileStore.get
  simp only [hf]
  split
  · rfl
  · split
    · simp [readAt, hz]
    · rfl

/-- C20 (empty-value conflation).  In every store state and whatever the
device does, `get(k)` returns the empty byte string when `k` has no index
entry, when its entry is tombstoned, and when its entry is live with a stored
value of size 0.  In every store and engine reached by sequential calls,
`put(k, "")` returns `true` and the `get(k)` that follows returns the empty
byte string, which is also what `get` returns for a key that was never written
(log store) or has no index entry (engine). -/
theorem get_empty_conflation (s : FileStore) (io : IoEnv) (ops : List FileOp) (N S : Nat)
    (eops : List EngineOp) (k k1 : Int) :
    (UMap.find s.index_ k = none → (s.get k io).1 = []) ∧
    (∀ m, UMap.find s.index_ k = some m → m.deleted = true → (s.get k io).1 = []) ∧
    (∀ m, UMap.find s.index_ k = some m → m.deleted = false → m.size = 0 →
      (s.get k io).1 = []) ∧
    ((FileStore.run ops).put k [] IoEnv.ok).1 = true ∧
    (((FileStore.run ops).put k [] IoEnv.ok).2.get k IoEnv.ok).1 = [] ∧
    (lastPutValue ops k1 = none → ((FileStore.run ops).get k1 IoEnv.ok).1 = []) ∧
    ((StorageEngine.run N S eops).put k [] IoEnv.ok).1 = true ∧
    (((StorageEngine.run N S eops).put k [] IoEnv.ok).2.get k IoEnv.ok).1 = [] ∧
    (UMap.find (StorageEngine.run N S eops).file_store_.index_ k1 = none →
      ((StorageEngine.run N S eops).get k1 IoEnv.ok).1 = []) := by
  have hs := FileStore.fs_run_inv ops
  have he := StorageEngine.eng_run_inv N S eops
  refine ⟨?_, ?_, ?_, ?_, ?_, ?_, ?_, ?_, ?_⟩
  · intro h
    rw [FileStore.get_eq_absent s k io h]
  · intro m h hd
    rw [FileStore.get_eq_deleted s k m io h hd]
  · intro m h _ hz
    exact FileStore.get_eq_empty_value s k m io h hz
  · rw [FileStore.fs_put_eq _ hs]
  · exact FileStore.fs_get_put_same _ hs k []
  · intro h
    rw [FileStore.get_eq_absent _ k1 _ (FileStore.find_never_written ops k1 h)]
  · rw [StorageEngine.eng_put_eq _ he]
  · rw [StorageEngine.eng_get_value _ (he.eng_put k []), StorageEngine.eng_put_eq _ he]
    exact FileStore.fs_get_put_same _ he.store k []
  · intro h
    rw [StorageEngine.eng_get_value _ he, FileStore.get_eq_absent _ k1 _ h]

/-! ## Revival of a key, the postcondition of `put`, compaction and tombstones -/

theorem FileStore.fs_run_snoc2 (ops : List FileOp) (op1 op2 : FileOp) :
    FileStore.run (ops ++ [op1, op2]) = (FileStore.run (ops ++ [op1])).apply op2 := by
  simp [FileStore.run, List.foldl_append]

theorem FileStore.fs_run_snoc3 (ops : List FileOp) (op1 op2 op3 : FileOp) :
    FileStore.run (ops ++ [op1, op2, op3]) = (FileStore.run (ops ++ [op1, op2])).apply op3 := by
  simp [FileStore.run, List.foldl_append]

/-- C21 (`put` revives a tombstoned key).  From every reachable store, after
`put(k, v1)` the call `del(k)` returns `true` and leaves the entry of `k`
tombstoned; the following `put(k, v2)` returns `true` and enters a record for
`k` that is not tombstoned, at the end of the file, with the size of `v2`;
`get(k)` then returns `v2` and `del(k)` returns `true` again. -/
theorem filestore_put_revives (ops : List FileOp) (k : Int) (v1 v2 : Bytes) :
    ((FileStore.run (ops ++ [.put k v1])).del k).1 = true ∧
    (∃ m, UMap.find (FileStore.run (ops ++ [.put k v1, .del k])).index_ k = some m ∧
      m.deleted = true) ∧
    ((FileStore.run (ops ++ [.put k v1, .del k])).put k v2 IoEnv.ok).1 = true ∧
    UMap.find (FileStore.run (ops ++ [.put k v1, .del k, .put k v2])).index_ k
      = some { key := k, offset := (FileStore.run (ops ++ [.put k v1, .del k])).file_size_,
               size := v2.length, deleted := false } ∧
    ((FileStore.run (ops ++ [.put k v1, .del k, .put k v2])).get k IoEnv.ok).1 = v2 ∧
    ((FileStore.run (ops ++ [.put k v1, .del k, .put k v2])).del k).1 = true := by
  have e1 : FileStore.run (ops ++ [.put k v1])
      = ((FileStore.run ops).put k v1 IoEnv.ok).2 := FileStore.fs_run_snoc ops _
  have e2 : FileStore.run (ops ++ [.put k v1, .del k])
      = ((FileStore.run (ops ++ [.put k v1])).del k).2 := FileStore.fs_run_snoc2 ops _ _
  have e3 : FileStore.run (ops ++ [.put k v1, .del k, .put k v2])
      = ((FileStore.run (ops ++ [.put k v1, .del k])).put k v2 IoEnv.ok).2 :=
    FileStore.fs_run_snoc3 ops _ _ _
  have h2 := FileStore.fs_run_inv (ops ++ [.put k v1, .del k])
  have f1 : UMap.find (FileStore.run (ops ++ [.put k v1])).index_ k
      = some { key := k, offset := (FileStore.run ops).file_size_, size := v1.length,
               deleted := false } := by
    rw [e1, FileStore.find_put _ (FileStore.fs_run_inv ops), if_pos rfl]
  have d1 := FileStore.del_eq_live _ k _ f1 rfl
  have f2 : UMap.find (FileStore.run (ops ++ [.put k v1, .del k])).index_ k
      = some { key := k, offset := (FileStore.run ops).file_size_, size := v1.length,
               deleted := true } := by
    rw [e2, d1]
    show UMap.find (UMap.assign _ k _) k = _
    rw [UMap.find_assign, if_pos rfl]
  have f3 : UMap.find (FileStore.run (ops ++ [.put k v1, .del k, .put k v2])).index_ k
      = some { key := k, offset := (FileStore.run (ops ++ [.put k v1, .del k])).file_size_,
               size := v2.length, deleted := false } := by
    rw [e3, FileStore.find_put _ h2, if_pos rfl]
  refine ⟨by rw [d1], ⟨_, f2, rfl⟩, by rw [FileStore.fs_put_eq _ h2], f3, ?_, ?_⟩
  · rw [e3]
    exact FileStore.fs_get_put_same _ h2 k v2
  · rw [FileStore.del_eq_live _ k _ f3 rfl]

/-- C22 (postcondition of `put`).  In every reachable store, whose data file
has exactly `file_size_` bytes, `put(k, v)` without device errors returns
`true`; the data file is the old one followed by `v`, so that `v` stands at the
old `file_size_` and every range inside the old file reads as before;
`file_size_` grows by the length of `v`; the index maps `k` to the record
`(k, old file_size_, |v|, false)` and every other key to what it mapped to
before; the read counter stays. -/
theorem filestore_put_postcondition (ops : List FileOp) (k : Int) (v : Bytes) :
    ((FileStore.run ops).put k v IoEnv.ok).1 = true ∧
    (FileStore.run ops).file_data.length = (FileStore.run ops).file_size_ ∧
    ((FileStore.run ops).put k v IoEnv.ok).2.file_data = (FileStore.run ops).file_data ++ v ∧
    readAt ((FileStore.run ops).put k v IoEnv.ok).2.file_data
      (FileStore.run ops).file_size_ v.length = v ∧
    (∀ pos n, pos + n ≤ (FileStore.run ops).file_size_ →
      readAt ((FileStore.run ops).put k v IoEnv.ok).2.file_data pos n
        = readAt (FileStore.run ops).file_data pos n) ∧
    ((FileStore.run ops).put k v IoEnv.ok).2.file_size_
      = (FileStore.run ops).file_size_ + v.length ∧
    UMap.find ((FileStore.run ops).put k v IoEnv.ok).2.index_ k
      = some { key := k, offset := (FileStore.run ops).file_size_, size := v.length,
               deleted := false } ∧
    (∀ k1, k1 ≠ k → UMap.find ((FileStore.run ops).put k v IoEnv.ok).2.index_ k1
      = UMap.find (FileStore.run ops).index_ k1) ∧
    ((FileStore.run ops).put k v IoEnv.ok).2.read_count_ = (FileStore.run ops).read_count_ := by
  have hs := FileStore.fs_run_inv ops
  have hp := FileStore.fs_put_eq _ hs k v
  refine ⟨by rw [hp], hs.size_eq.symm, by rw [hp], ?_, ?_, by rw [hp], ?_, ?_, by rw [hp]⟩
  · rw [hp, hs.size_eq]
    have := readAt_append_right (FileStore.run ops).file_data v []
    rw [List.append_nil] at this
    exact this
  · intro pos n hle
    rw [hp]
    exact readAt_append_left _ _ _ _ (by rw [← hs.size_eq]; exact hle)
  · rw [FileStore.find_put _ hs, if_pos rfl]
  · intro k1 hk1
    rw [FileStore.find_put _ hs, if_neg (fun h => hk1 h.symm)]

/-- C23 (compaction drops tombstones from the index).  On every reachable
store, after `garbageCollect` the index has an entry for a key exactly when the
key had an entry that was not tombstoned before the call; every entry of the new
index is not tombstoned and has the key and the size of the entry the key had
before; the keys of the new index are the keys of the old live records, in the
order of the old index; and for a key that was tombstoned before the call the
new index has no entry and `del` returns `false`. -/
theorem filestore_gc_drops_tombstones (ops : List FileOp) :
    (∀ k, (∃ m1, UMap.find ((FileStore.run ops).garbageCollect IoEnv.ok).index_ k = some m1) ↔
      (∃ m, UMap.find (FileStore.run ops).index_ k = some m ∧ m.deleted = false)) ∧
    (∀ k m1, UMap.find ((FileStore.run ops).garbageCollect IoEnv.ok).index_ k = some m1 →
      m1.deleted = false ∧ m1.key = k ∧
      ∃ m, UMap.find (FileStore.run ops).index_ k = some m ∧ m.deleted = false ∧
        m1.size = m.size) ∧
    ((FileStore.run ops).garbageCollect IoEnv.ok).index_.map Prod.fst
      = (FileStore.run ops).liveObjects.map ObjectMeta.key ∧
    (∀ k m, UMap.find (FileStore.run ops).index_ k = some m → m.deleted = true →
      UMap.find ((FileStore.run ops).garbageCollect IoEnv.ok).index_ k = none ∧
      (((FileStore.run ops).garbageCollect IoEnv.ok).del k).1 = false) := by
  have hs := FileStore.fs_run_inv ops
  have hback : ∀ k m1,
      UMap.find ((FileStore.run ops).garbageCollect IoEnv.ok).index_ k = some m1 →
      m1.deleted = false ∧ m1.key = k ∧
      ∃ m, UMap.find (FileStore.run ops).index_ k = some m ∧ m.deleted = false ∧
        m1.size = m.size := by
    intro k m1 hf
    have hmem := UMap.mem_of_find _ _ _ hf
    rw [FileStore.garbageCollect_eq _ hs] at hmem
    have hl := FileStore.layout_mem (FileStore.run ops).file_data
      (FileStore.run ops).liveObjects (FileStore.liveObjects_in_range _ hs) [] (k, m1) hmem
    obtain ⟨m, hm, h1, h2, h3, h4, _⟩ := hl
    have hlive := FileStore.liveObjects_mem _ hs m hm
    have hk : m.key = k := h1.symm
    refine ⟨by rw [h4]; exact hlive.2, by rw [h2]; exact hk, m, ?_, hlive.2, h3⟩
    rw [← hk]
    exact UMap.find_of_mem _ _ _ hs.keys_nodup hlive.1
  refine ⟨?_, hback, ?_, ?_⟩
  · intro k
    constructor
    · rintro ⟨m1, hf⟩
      obtain ⟨_, _, m, hm, hd, _⟩ := hback k m1 hf
      exact ⟨m, hm, hd⟩
    · rintro ⟨m, hm, hd⟩
      obtain ⟨m1, h1, _⟩ := FileStore.gc_find_live _ hs k m hm hd
      exact ⟨m1, h1⟩
  · rw [FileStore.garbageCollect_eq _ hs]
    exact FileStore.layout_keys _ 0
  · intro k m hm hd
    have hnone := FileStore.gc_find_none _ hs k (fun m2 h2 => by
      rw [hm] at h2
      cases h2
      exact hd)
    exact ⟨hnone, by rw [FileStore.del_eq_absent _ k hnone]⟩

/-! ## Snapshot round trip, read counter, `file_size_` from the index -/

/-- The snapshot round trip.  For every index of an `unordered_map` whose
records carry their own key, and whatever the data file holds, the constructor
that reads the snapshot written by `saveIndex` rebuilds exactly this index,
tombstoned records included; so a tombstoned key still has its tombstoned
record, and `del` on it returns `false`, when the store is opened on the files
that `saveIndex` and the close of `file_` leave of it. -/
theorem snapshot_roundtrip (s : FileStore) (data : Option Bytes)
    (hnd : (s.index_.map Prod.fst).Nodup) (hk : ∀ e ∈ s.index_, e.2.key = e.1) :
    (FileStore.ctor { data_file := data, index_file := some s.saveIndex } false).index_
      = s.index_ ∧
    (FileStore.ctor s.closeFiles false).index_ = s.index_ ∧
    (FileStore.ctor (s.dtor false IoEnv.ok) false).index_ = s.index_ ∧
    (∀ k m, UMap.find s.index_ k = some m → m.deleted = true →
      UMap.find (FileStore.ctor s.closeFiles false).index_ k = some m ∧
      ((FileStore.ctor s.closeFiles false).del k).1 = false) := by
  have hload : ∀ d : Option Bytes,
      (FileStore.ctor { data_file := d, index_file := some s.saveIndex } false).index_
        = s.index_ := by
    intro d
    simp only [FileStore.ctor, FileStore.saveIndex, FileStore.loadIndex,
      Bool.false_eq_true, if_false]
    have ht : List.take s.index_.length (s.index_.map Prod.snd) = s.index_.map Prod.snd := by
      apply List.take_of_length_le
      simp
    rw [ht, FileStore.reload_foldl s.index_ hk [] (by simpa using hnd)]
    simp only [List.nil_append]
  have hd : (FileStore.ctor s.closeFiles false).index_ = s.index_ := hload (some s.file_data)
  refine ⟨hload data, hd, hd, ?_⟩
  intro k m hf hdel
  have hf1 : UMap.find (FileStore.ctor s.closeFiles false).index_ k = some m := by
    rw [hd]
    exact hf
  exact ⟨hf1, by rw [FileStore.del_eq_deleted _ k m hf1 hdel]⟩

theorem snapshot_roundtrip_witness :
    (((FileStore.mk [7, 8] true
        [(1, ObjectMeta.mk 1 0 2 true), (2, ObjectMeta.mk 2 2 0 false)] 2 5).index_.map
          Prod.fst).Nodup ∧
      ∀ e ∈ (FileStore.mk [7, 8] true
        [(1, ObjectMeta.mk 1 0 2 true), (2, ObjectMeta.mk 2 2 0 false)] 2 5).index_,
        e.2.key = e.1) ∧
    (FileStore.ctor (FileStore.mk [7, 8] true
        [(1, ObjectMeta.mk 1 0 2 true), (2, ObjectMeta.mk 2 2 0 false)] 2 5).closeFiles
          false).index_
      = [(1, ObjectMeta.mk 1 0 2 true), (2, ObjectMeta.mk 2 2 0 false)] ∧
    ((FileStore.ctor (FileStore.mk [7, 8] true
        [(1, ObjectMeta.mk 1 0 2 true), (2, ObjectMeta.mk 2 2 0 false)] 2 5).closeFiles
          false).del 1).1 = false :=
  ⟨⟨by decide, by decide⟩,
    (snapshot_roundtrip (FileStore.mk [7, 8] true
        [(1, ObjectMeta.mk 1 0 2 true), (2, ObjectMeta.mk 2 2 0 false)] 2 5) none
      (by decide) (by decide)).2.1,
    ((snapshot_roundtrip (FileStore.mk [7, 8] true
        [(1, ObjectMeta.mk 1 0 2 true), (2, ObjectMeta.mk 2 2 0 false)] 2 5) none
      (by decide) (by decide)).2.2.2 1 (ObjectMeta.mk 1 0 2 true) rfl rfl).2⟩

/-- C24 (the close does not keep tombstones).  The store reached by
`put(1, "ab")`, `put(2, "c")`, `del(1)` has a tombstoned record for key 1.  Its
destructor, run while the compaction thread is asleep, waits for the
`garbageCollect` of that thread and then writes the snapshot of the compacted
index: the data file holds `"c"`, the snapshot holds the one record of key 2,
and the store reopened on these files has no record for key 1 (`del(1)` returns
`false` there because the key is absent).  Only the destructor that meets the
thread before its first loop test leaves the tombstoned record in the
snapshot. -/
theorem snapshot_close_drops_tombstones :
    UMap.find (FileStore.run [.put 1 [97, 98], .put 2 [99], .del 1]).index_ 1
      = some (ObjectMeta.mk 1 0 2 true) ∧
    (FileStore.run [.put 1 [97, 98], .put 2 [99], .del 1]).dtor true IoEnv.ok
      = Disk.mk (some [99]) (some (1, [ObjectMeta.mk 2 0 1 false])) ∧
    UMap.find (FileStore.ctor
      ((FileStore.run [.put 1 [97, 98], .put 2 [99], .del 1]).dtor true IoEnv.ok) false).index_ 1
      = none ∧
    ((FileStore.ctor
      ((FileStore.run [.put 1 [97, 98], .put 2 [99], .del 1]).dtor true IoEnv.ok) false).del
        1).1 = false ∧
    UMap.find (FileStore.ctor
      ((FileStore.run [.put 1 [97, 98], .put 2 [99], .del 1]).dtor false IoEnv.ok) false).index_ 1
      = some (ObjectMeta.mk 1 0 2 true) := by
  decide

theorem FileStore.put_read_count_any (s : FileStore) (k : Int) (v : Bytes) (io : IoEnv) :
    (s.put k v io).2.read_count_ = s.read_count_ := by
  unfold FileStore.put
  split
  · split <;> rfl
  · rfl

theorem FileStore.del_read_count_any (s : FileStore) (k : Int) :
    (s.del k).2.read_count_ = s.read_count_ := by
  unfold FileStore.del
  split
  · rfl
  · split <;> rfl

theorem FileStore.gc_read_count_any (s : FileStore) (io : IoEnv) :
    (s.garbageCollect io).read_count_ = s.read_count_ := by
  unfold FileStore.garbageCollect FileStore.compactFile
  split <;> rfl

theorem FileStore.get_frame_any (s : FileStore) (k : Int) (io : IoEnv) :
    (s.get k io).2.index_ = s.index_ ∧ (s.get k io).2.file_data = s.file_data ∧
    (s.get k io).2.file_size_ = s.file_size_ := by
  unfold FileStore.get
  split
  · exact ⟨rfl, rfl, rfl⟩
  · split
    · exact ⟨rfl, rfl, rfl⟩
    · dsimp only
      split <;> exact ⟨rfl, rfl, rfl⟩

/-- C25 (read counter of the log store).  In every state and under every
device behaviour: `get(k)` on a key with a record that is not tombstoned, on a
stream without error, whose read delivers all `size` bytes, returns these bytes
and adds exactly one to the read counter; `get(k)` on a key without record or
with a tombstoned record returns the empty string and changes nothing; a `get`
whose read fails leaves the counter as it is; `get` never changes the index, the
data file or `file_size_`; `put`, `del` and `garbageCollect` never change the
read counter.  In every reachable store, without device errors, `get(k)` adds
one to the counter exactly when `k` has a record that is not tombstoned. -/
theorem filestore_read_counter (s : FileStore) (k : Int) (v : Bytes) (io : IoEnv)
    (ops : List FileOp) :
    (∀ m, UMap.find s.index_ k = some m → m.deleted = false → s.file_good = true →
      io.read_ok = true → (readAt s.file_data m.offset m.size).length = m.size →
      s.get k io = (readAt s.file_data m.offset m.size,
        { s with read_count_ := s.read_count_ + 1 })) ∧
    ((UMap.find s.index_ k = none ∨ ∃ m, UMap.find s.index_ k = some m ∧ m.deleted = true) →
      s.get k io = ([], s)) ∧
    ((s.get k io).2.read_count_ = s.read_count_ ∨
      (s.get k io).2.read_count_ = s.read_count_ + 1) ∧
    ((s.get k io).2.index_ = s.index_ ∧ (s.get k io).2.file_data = s.file_data ∧
      (s.get k io).2.file_size_ = s.file_size_) ∧
    (s.put k v io).2.read_count_ = s.read_count_ ∧
    (s.del k).2.read_count_ = s.read_count_ ∧
    (s.garbageCollect io).read_count_ = s.read_count_ ∧
    ((FileStore.run ops).get k IoEnv.ok).2.read_count_ = (FileStore.run ops).read_count_ +
      (match UMap.find (FileStore.run ops).index_ k with
        | some m => if m.deleted then 0 else 1
        | none => 0) := by
  refine ⟨?_, ?_, ?_, FileStore.get_frame_any s k io, FileStore.put_read_count_any s k v io,
    FileStore.del_read_count_any s k, FileStore.gc_read_count_any s io, ?_⟩
  · intro m hf hd hg hr hlen
    unfold FileStore.get
    rw [hf]
    simp only [hd, hg, hr, hlen, Bool.false_eq_true, if_false, Bool.and_self, beq_self_eq_true,
      if_true]
  · rintro (h | ⟨m, hf, hd⟩)
    · exact FileStore.get_eq_absent s k io h
    · exact FileStore.get_eq_deleted s k m io hf hd
  · unfold FileStore.get
    split
    · exact Or.inl rfl
    · split
      · exact Or.inl rfl
      · dsimp only
        split
        · exact Or.inr rfl
        · exact Or.inl rfl
  · have hs := FileStore.fs_run_inv ops
    cases hf : UMap.find (FileStore.run ops).index_ k with
    | none =>
      rw [FileStore.get_eq_absent _ k _ hf]
      rfl
    | some m =>
      cases hd : m.deleted with
      | true =>
        rw [FileStore.get_eq_deleted _ k m _ hf hd]
        simp [hd]
      | false =>
        rw [FileStore.get_eq_live _ hs k m hf hd]
        simp [hd]

/-- The invariant behind `loadIndex`.  In every reachable store `file_size_`
is the value `loadIndex` computes from the index, the largest `offset + size`
over all records, tombstoned ones included: every record ends at or before
`file_size_`, and `file_size_` is 0 or the end of some record (0 for an empty
index).  So a store opened on the files the destructor leaves has the
`file_size_` of the store whose snapshot the destructor wrote: the store itself
when the destructor does not compact, the compacted store when it does; and a
later `put` places its record at an offset that is at or past the end of every
record of the reopened index. -/
theorem FileStore.file_size_from_index (ops : List FileOp) (gc_pending : Bool) (k : Int)
    (v : Bytes) :
    FileStore.maxEnd (FileStore.run ops).index_ = (FileStore.run ops).file_size_ ∧
    (∀ e ∈ (FileStore.run ops).index_,
      e.2.offset + e.2.size ≤ (FileStore.run ops).file_size_) ∧
    ((FileStore.run ops).file_size_ = 0 ∨
      ∃ e ∈ (FileStore.run ops).index_,
        e.2.offset + e.2.size = (FileStore.run ops).file_size_) ∧
    ((FileStore.run ops).index_ = [] → (FileStore.run ops).file_size_ = 0) ∧
    (FileStore.ctor ((FileStore.run ops).dtor false IoEnv.ok) false).file_size_
      = (FileStore.run ops).file_size_ ∧
    (FileStore.ctor ((FileStore.run ops).dtor true IoEnv.ok) false).file_size_
      = ((FileStore.run ops).garbageCollect IoEnv.ok).file_size_ ∧
    (∃ m, UMap.find ((FileStore.ctor ((FileStore.run ops).dtor gc_pending IoEnv.ok)
          false).put k v IoEnv.ok).2.index_ k = some m ∧
      m.offset = (FileStore.ctor ((FileStore.run ops).dtor gc_pending IoEnv.ok)
          false).file_size_ ∧
      ∀ e ∈ (FileStore.ctor ((FileStore.run ops).dtor gc_pending IoEnv.ok) false).index_,
        e.2.offset + e.2.size ≤ m.offset) := by
  have hs := FileStore.fs_run_inv ops
  have hat := FileStore.maxEnd_attained (FileStore.run ops).index_
  rw [hs.max_end] at hat
  refine ⟨hs.max_end, hs.in_range, hat, ?_, by rw [FileStore.restart_eq_plain _ hs],
    by rw [FileStore.restart_eq_compacting _ hs], ?_⟩
  · intro hnil
    rw [← hs.max_end, hnil]
    rfl
  · have hs1 : (FileStore.ctor ((FileStore.run ops).dtor gc_pending IoEnv.ok) false).Inv := by
      obtain ⟨s1, h1, _, _, _, heq⟩ := FileStore.restart_eq _ hs gc_pending
      rw [heq]
      exact h1.with_read_count 0
    exact ⟨_, by rw [FileStore.find_put _ hs1, if_pos rfl], rfl, hs1.in_range⟩

/-- C30 (`file_size_` after a close is not the one before it).  The store
reached by `put(1, "ab")`, `put(2, "c")`, `del(1)` has `file_size_` 3, the
largest `offset + size` over its records.  Its destructor, run while the
compaction thread is asleep, waits for the `garbageCollect` of that thread
before it writes the snapshot, so the store reopened on the files has
`file_size_` 1, the size of the compacted file, and not 3; only the destructor
that meets the thread before its first loop test gives 3. -/
theorem filestore_close_changes_file_size :
    (FileStore.run [.put 1 [97, 98], .put 2 [99], .del 1]).file_size_ = 3 ∧
    FileStore.maxEnd (FileStore.run [.put 1 [97, 98], .put 2 [99], .del 1]).index_ = 3 ∧
    (FileStore.ctor
      ((FileStore.run [.put 1 [97, 98], .put 2 [99], .del 1]).dtor true IoEnv.ok)
        false).file_size_ = 1 ∧
    (FileStore.ctor
      ((FileStore.run [.put 1 [97, 98], .put 2 [99], .del 1]).dtor false IoEnv.ok)
        false).file_size_ = 3 := by
  decide

/-! ## Shards: `put` on a present key, `remove`, isolation, index in bounds -/

theorem LRUCacheSegment.get_fst_congr {s1 s2 : LRUCacheSegment} (h1 : s1.WF) (h2 : s2.WF)
    (k : Int) (h : ∀ n : CacheNode, n.key = k → (n ∈ s1.cache_list_ ↔ n ∈ s2.cache_list_)) :
    (s1.get k).1 = (s2.get k).1 := by
  apply Option.ext
  intro x
  show (s1.get k).1 = some x ↔ (s2.get k).1 = some x
  rw [LRUCacheSegment.get_eq_some_iff h1, LRUCacheSegment.get_eq_some_iff h2]
  constructor
  · rintro ⟨n, hn, hk, hv⟩
    exact ⟨n, (h n hk).mp hn, hk, hv⟩
  · rintro ⟨n, hn, hk, hv⟩
    exact ⟨n, (h n hk).mpr hn, hk, hv⟩

/-- C26 (cache `put` on a present key never evicts).  In every reachable
shard, whatever its capacity and fill, `put(k, v)` on the key `k` of a node `n`
of the list leaves `capacity_`, the map and the node identities as they are and
makes the list `n` with value `v`, followed by the other nodes in their old
order: the number of entries is unchanged, `get(k)` hits with `v`, every node
of another key is still in the list, and `get` of another key returns what it
returned before. -/
theorem segment_put_present_no_evict (C : Nat) (ops : List SegOp) (n : CacheNode) (v : Bytes)
    (hn : n ∈ (TracedSegment.run C ops).seg.cache_list_) :
    (TracedSegment.run C ops).seg.put n.key v =
      { (TracedSegment.run C ops).seg with
        cache_list_ :=
          { n with value := v } :: withoutKey (TracedSegment.run C ops).seg.cache_list_ n.key } ∧
    ((TracedSegment.run C ops).seg.put n.key v).cache_list_.length
      = (TracedSegment.run C ops).seg.cache_list_.length ∧
    (((TracedSegment.run C ops).seg.put n.key v).get n.key).1 = some v ∧
    (∀ x ∈ (TracedSegment.run C ops).seg.cache_list_, x.key ≠ n.key →
      x ∈ ((TracedSegment.run C ops).seg.put n.key v).cache_list_) ∧
    (∀ k1, k1 ≠ n.key →
      (((TracedSegment.run C ops).seg.put n.key v).get k1).1
        = ((TracedSegment.run C ops).seg.get k1).1) := by
  have hwf := (TracedSegment.traced_run_inv C ops).wf
  have hput := LRUCacheSegment.put_eq_update _ hwf n hn v
  have hwf1 := hwf.seg_put n.key v
  have hmem : ∀ x : CacheNode, x.key ≠ n.key →
      (x ∈ ((TracedSegment.run C ops).seg.put n.key v).cache_list_
        ↔ x ∈ (TracedSegment.run C ops).seg.cache_list_) := by
    intro x hx
    rw [hput]
    show x ∈ { n with value := v } :: withoutKey _ n.key ↔ _
    rw [List.mem_cons, mem_withoutKey]
    constructor
    · rintro (h | h)
      · exact absurd (by rw [h]) hx
      · exact h.1
    · intro h
      exact Or.inr ⟨h, hx⟩
  refine ⟨hput, ?_, ?_, ?_, ?_⟩
  · rw [hput]
    show (withoutKey _ n.key).length + 1 = _
    have hp := (touch_perm _ n hwf.keys_nodup hn).length_eq
    simpa using hp
  · rw [LRUCacheSegment.seg_get_put_same hwf]
  · intro x hx hne
    exact (hmem x hne).mpr hx
  · intro k1 hk1
    apply LRUCacheSegment.get_fst_congr hwf1 hwf
    intro x hx
    exact hmem x (by rw [hx]; exact hk1)

theorem segment_put_present_no_evict_witness :
    (CacheNode.mk 0 1 [10]) ∈ (TracedSegment.run 2 [.put 1 [10], .put 2 [20]]).seg.cache_list_ ∧
    ((TracedSegment.run 2 [.put 1 [10], .put 2 [20]]).seg.put 1 [11]).cache_list_.length
      = (TracedSegment.run 2 [.put 1 [10], .put 2 [20]]).seg.cache_list_.length ∧
    (((TracedSegment.run 2 [.put 1 [10], .put 2 [20]]).seg.put 1 [11]).get 1).1 = some [11] :=
  ⟨by decide,
    (segment_put_present_no_evict 2 [.put 1 [10], .put 2 [20]] (CacheNode.mk 0 1 [10]) [11]
      (by decide)).2.1,
    (segment_put_present_no_evict 2 [.put 1 [10], .put 2 [20]] (CacheNode.mk 0 1 [10]) [11]
      (by decide)).2.2.1⟩

/-- C27 (cache `remove`).  In every reachable shard, `remove(k)` leaves the
nodes of the other keys in the list, in their old order and with their values,
and erases `k` from the map; afterwards `get(k)` misses and `get` of another key
returns what it returned before; when `k` was not in the shard, the shard is
unchanged. -/
theorem segment_remove (C : Nat) (ops : List SegOp) (k : Int) :
    ((TracedSegment.run C ops).seg.remove k).cache_list_
      = withoutKey (TracedSegment.run C ops).seg.cache_list_ k ∧
    ((TracedSegment.run C ops).seg.remove k).cache_list_.Sublist
      (TracedSegment.run C ops).seg.cache_list_ ∧
    ((TracedSegment.run C ops).seg.remove k).cache_map_
      = UMap.erase (TracedSegment.run C ops).seg.cache_map_ k ∧
    (((TracedSegment.run C ops).seg.remove k).get k).1 = none ∧
    (∀ x ∈ (TracedSegment.run C ops).seg.cache_list_, x.key ≠ k →
      x ∈ ((TracedSegment.run C ops).seg.remove k).cache_list_) ∧
    (∀ k1, k1 ≠ k →
      (((TracedSegment.run C ops).seg.remove k).get k1).1
        = ((TracedSegment.run C ops).seg.get k1).1) ∧
    (k ∉ (TracedSegment.run C ops).seg.cache_list_.map CacheNode.key →
      (TracedSegment.run C ops).seg.remove k = (TracedSegment.run C ops).seg) := by
  have hwf := (TracedSegment.traced_run_inv C ops).wf
  have hrem := LRUCacheSegment.seg_remove_eq _ hwf k
  have hwf1 := hwf.seg_remove k
  have hl : ((TracedSegment.run C ops).seg.remove k).cache_list_
      = withoutKey (TracedSegment.run C ops).seg.cache_list_ k := by rw [hrem]
  refine ⟨hl, ?_, by rw [hrem], ?_, ?_, ?_, ?_⟩
  · rw [hl]
    exact withoutKey_sublist _ _
  · rw [LRUCacheSegment.get_eq_none_iff hwf1, hl]
    intro hmem
    obtain ⟨x, hx, hxk⟩ := List.mem_map.mp hmem
    exact ((mem_withoutKey _ _ _).mp hx).2 hxk
  · intro x hx hne
    rw [hl]
    exact (mem_withoutKey _ _ _).mpr ⟨hx, hne⟩
  · intro k1 hk1
    apply LRUCacheSegment.get_fst_congr hwf1 hwf
    intro x hx
    rw [hl, mem_withoutKey]
    constructor
    · intro h
      exact h.1
    · intro h
      exact ⟨h, by rw [hx]; exact hk1⟩
  · intro hk
    have hf := (hwf.find_none_iff k).mpr hk
    unfold LRUCacheSegment.remove
    rw [hf]

theorem LRUCache.get_fst_of_segment_eq (c c1 : LRUCache) (k : Int)
    (hn : c1.num_segments_ = c.num_segments_)
    (h : c1.segments_[c.getSegmentIndex k]? = c.segments_[c.getSegmentIndex k]?) :
    (c1.get k).1 = (c.get k).1 := by
  have hi : c1.getSegmentIndex k = c.getSegmentIndex k := by
    simp only [LRUCache.getSegmentIndex, hn]
  unfold LRUCache.get
  simp only [hi, h]
  cases c.segments_[c.getSegmentIndex k]? <;> rfl

theorem LRUCache.put_segment_ne (c : LRUCache) (k : Int) (v : Bytes) (j : Nat)
    (hne : c.getSegmentIndex k ≠ j) : (c.put k v).segments_[j]? = c.segments_[j]? := by
  cases h : c.segments_[c.getSegmentIndex k]? with
  | none => rw [LRUCache.put_eq_none c k v h]
  | some seg =>
    rw [LRUCache.cache_put_eq c k v seg h]
    exact List.getElem?_set_ne hne

theorem LRUCache.get_segment_ne (c : LRUCache) (k : Int) (j : Nat)
    (hne : c.getSegmentIndex k ≠ j) : (c.get k).2.segments_[j]? = c.segments_[j]? := by
  cases h : c.segments_[c.getSegmentIndex k]? with
  | none => rw [LRUCache.get_eq_none c k h]
  | some seg =>
    rw [LRUCache.cache_get_eq c k seg h]
    exact List.getElem?_set_ne hne

theorem LRUCache.remove_segment_ne (c : LRUCache) (k : Int) (j : Nat)
    (hne : c.getSegmentIndex k ≠ j) : (c.remove k).segments_[j]? = c.segments_[j]? := by
  cases h : c.segments_[c.getSegmentIndex k]? with
  | none => rw [LRUCache.remove_eq_none c k h]
  | some seg =>
    rw [LRUCache.cache_remove_eq c k seg h]
    exact List.getElem?_set_ne hne

/-- C28 (shard isolation).  For every cache state and keys `k`, `k1` routed
to different shards, `put(k, v)`, `get(k)` and `remove(k)` leave the shard of
`k1` exactly as it was; so `get(k1)` returns after each of them what it returned
before, and in particular inserting `k` does not evict `k1`. -/
theorem cache_shard_isolation (c : LRUCache) (k k1 : Int) (v : Bytes)
    (hne : c.getSegmentIndex k ≠ c.getSegmentIndex k1) :
    (c.put k v).segments_[c.getSegmentIndex k1]? = c.segments_[c.getSegmentIndex k1]? ∧
    (c.get k).2.segments_[c.getSegmentIndex k1]? = c.segments_[c.getSegmentIndex k1]? ∧
    (c.remove k).segments_[c.getSegmentIndex k1]? = c.segments_[c.getSegmentIndex k1]? ∧
    ((c.put k v).get k1).1 = (c.get k1).1 ∧
    ((c.get k).2.get k1).1 = (c.get k1).1 ∧
    ((c.remove k).get k1).1 = (c.get k1).1 :=
  ⟨LRUCache.put_segment_ne c k v _ hne, LRUCache.get_segment_ne c k _ hne,
    LRUCache.remove_segment_ne c k _ hne,
    LRUCache.get_fst_of_segment_eq c _ k1 (LRUCache.num_segments_put c k v)
      (LRUCache.put_segment_ne c k v _ hne),
    LRUCache.get_fst_of_segment_eq c _ k1 (LRUCache.num_segments_get c k)
      (LRUCache.get_segment_ne c k _ hne),
    LRUCache.get_fst_of_segment_eq c _ k1 (LRUCache.num_segments_remove c k)
      (LRUCache.remove_segment_ne c k _ hne)⟩

theorem cache_shard_isolation_witness :
    (LRUCache.run 4 2 [.put 1 [10]]).getSegmentIndex 2
      ≠ (LRUCache.run 4 2 [.put 1 [10]]).getSegmentIndex 1 ∧
    (((LRUCache.run 4 2 [.put 1 [10]]).put 2 [20]).get 1).1
      = ((LRUCache.run 4 2 [.put 1 [10]]).get 1).1 :=
  ⟨by decide,
    (cache_shard_isolation (LRUCache.run 4 2 [.put 1 [10]]) 2 1 [20] (by decide)).2.2.2.1⟩

/-! ## The shard index -/

theorem hashInt_lt (key : Int) : hashInt key < 2 ^ 64 := by
  unfold hashInt
  have h1 : key % 2 ^ 64 < 2 ^ 64 := Int.emod_lt_of_pos key (by positivity)
  have h0 : 0 ≤ key % 2 ^ 64 := Int.emod_nonneg key (by positivity)
  have h2 := Int.toNat_of_nonneg h0
  have h3 : ((key % 2 ^ 64).toNat : Int) < ((2 ^ 64 : Nat) : Int) := by
    rw [h2]
    exact_mod_cast h1
  exact_mod_cast h3

theorem hashInt_of_nonneg (key : Int) (h0 : 0 ≤ key) (h1 : key < 2 ^ 64) :
    hashInt key = key.toNat := by
  unfold hashInt
  rw [Int.emod_eq_of_lt h0 h1]

theorem hashInt_of_neg (key : Int) (h0 : key < 0) (h1 : -(2 ^ 64) ≤ key) :
    hashInt key = (key + 2 ^ 64).toNat := by
  unfold hashInt
  have h2 : (key + 2 ^ 64) % 2 ^ 64 = key % 2 ^ 64 := Int.add_emod_self
  rw [← h2, Int.emod_eq_of_lt (by linarith) (by linarith)]

/-- C29 (the shard index is in bounds).  For a cache built with `S ≥ 1`
shards, in every reachable state and for every key, negative keys included,
`getSegmentIndex(key)` is `hash(key) mod S`, which is less than `S`, and
`segments_` has a shard at this index; the hash of a key is the key converted
to a 64-bit unsigned word (the key itself when it is not negative, the key plus
`2^64` when it is negative); and `put`, `get` and `remove` do not change the
shard a key is routed to. -/
theorem cache_shard_index_in_bounds (N S : Nat) (hS : 0 < S) (ops : List CacheOp) (key : Int)
    (k : Int) (v : Bytes) :
    (LRUCache.run N S ops).getSegmentIndex key = hashInt key % S ∧
    (LRUCache.run N S ops).getSegmentIndex key < S ∧
    (LRUCache.run N S ops).segments_.length = S ∧
    (∃ seg, (LRUCache.run N S ops).segments_[(LRUCache.run N S ops).getSegmentIndex key]?
      = some seg) ∧
    hashInt key < 2 ^ 64 ∧
    (0 ≤ key → key < 2 ^ 64 → hashInt key = key.toNat) ∧
    (key < 0 → -(2 ^ 64) ≤ key → hashInt key = (key + 2 ^ 64).toNat) ∧
    ((LRUCache.run N S ops).put k v).getSegmentIndex key
      = (LRUCache.run N S ops).getSegmentIndex key ∧
    ((LRUCache.run N S ops).get k).2.getSegmentIndex key
      = (LRUCache.run N S ops).getSegmentIndex key ∧
    ((LRUCache.run N S ops).remove k).getSegmentIndex key
      = (LRUCache.run N S ops).getSegmentIndex key := by
  have hn := LRUCache.run_num_segments_eq N S ops
  have hwf := LRUCache.run_wf N S ops
  have hidx : (LRUCache.run N S ops).getSegmentIndex key = hashInt key % S := by
    unfold LRUCache.getSegmentIndex
    rw [hn]
  refine ⟨hidx, ?_, by rw [hwf.len, hn], hwf.segment_exists (by rw [hn]; exact hS) key,
    hashInt_lt key, hashInt_of_nonneg key, hashInt_of_neg key, ?_, ?_, ?_⟩
  · rw [hidx]
    exact Nat.mod_lt _ hS
  · unfold LRUCache.getSegmentIndex
    rw [LRUCache.num_segments_put]
  · unfold LRUCache.getSegmentIndex
    rw [LRUCache.num_segments_get]
  · unfold LRUCache.getSegmentIndex
    rw [LRUCache.num_segments_remove]

theorem cache_shard_index_in_bounds_witness :
    (0 < 3) ∧
    (LRUCache.run 8 3 [.put (-5) [1]]).getSegmentIndex (-5) < 3 ∧
    (∃ seg, (LRUCache.run 8 3 [.put (-5) [1]]).segments_[
        (LRUCache.run 8 3 [.put (-5) [1]]).getSegmentIndex (-5)]? = some seg) :=
  ⟨by decide,
    (cache_shard_index_in_bounds 8 3 (by decide) [.put (-5) [1]] (-5) 0 []).2.1,
    (cache_shard_index_in_bounds 8 3 (by decide) [.put (-5) [1]] (-5) 0 []).2.2.2.1⟩

/-! ## Representation invariant of a shard and the keys it holds -/

theorem GhostSegment.ghost_run_snoc (C : Nat) (ops : List SegOp) (op : SegOp) :
    GhostSegment.run C (ops ++ [op]) = (GhostSegment.run C ops).step op := by
  simp [GhostSegment.run, List.foldl_append]

theorem GhostSegment.ghost_run_seg (C : Nat) (ops : List SegOp) :
    (GhostSegment.run C ops).seg = (TracedSegment.run C ops).seg := by
  induction ops using List.reverseRecOn with
  | nil => rfl
  | append_singleton l op ih =>
    rw [GhostSegment.ghost_run_snoc, TracedSegment.traced_run_snoc]
    cases op <;> simp only [GhostSegment.step, TracedSegment.step, ih]

theorem GhostSegment.ghost_run_wf (C : Nat) (ops : List SegOp) :
    (GhostSegment.run C ops).seg.WF := by
  rw [GhostSegment.ghost_run_seg]
  exact (TracedSegment.traced_run_inv C ops).wf

theorem GhostSegment.held_step (g : GhostSegment) (hwf : g.seg.WF)
    (h : ∀ k, g.held k = true ↔ k ∈ g.seg.cache_list_.map CacheNode.key) (op : SegOp) :
    ∀ k, (g.step op).held k = true ↔ k ∈ (g.step op).seg.cache_list_.map CacheNode.key := by
  intro k
  cases op with
  | get key =>
    show g.held k = true ↔ k ∈ (g.seg.get key).2.cache_list_.map CacheNode.key
    rw [h k]
    simp only [List.mem_map]
    constructor
    · rintro ⟨n, hn, hk⟩
      exact ⟨n, (LRUCacheSegment.mem_get hwf key n).mpr hn, hk⟩
    · rintro ⟨n, hn, hk⟩
      exact ⟨n, (LRUCacheSegment.mem_get hwf key n).mp hn, hk⟩
  | remove key =>
    show (if k = key then false else g.held k) = true
      ↔ k ∈ (g.seg.remove key).cache_list_.map CacheNode.key
    rw [LRUCacheSegment.seg_remove_eq _ hwf key]
    show _ ↔ k ∈ (withoutKey g.seg.cache_list_ key).map CacheNode.key
    by_cases hk : k = key
    · rw [if_pos hk]
      simp only [Bool.false_eq_true, false_iff, List.mem_map, not_exists, not_and]
      intro n hn hnk
      exact ((mem_withoutKey _ _ _).mp hn).2 (hnk.trans hk)
    · rw [if_neg hk, h k]
      simp only [List.mem_map]
      constructor
      · rintro ⟨n, hn, hnk⟩
        exact ⟨n, (mem_withoutKey _ _ _).mpr ⟨hn, by rw [hnk]; exact hk⟩, hnk⟩
      · rintro ⟨n, hn, hnk⟩
        exact ⟨n, ((mem_withoutKey _ _ _).mp hn).1, hnk⟩
  | put key value =>
    show (if k = key then true
        else if g.seg.evicts (.put key value) = some k then false else g.held k) = true
      ↔ k ∈ (g.seg.put key value).cache_list_.map CacheNode.key
    by_cases hk : k = key
    · rw [if_pos hk]
      obtain ⟨n, rest, hl, hnk, _⟩ := LRUCacheSegment.put_head hwf key value
      rw [hl]
      simp only [List.map_cons, List.mem_cons, true_iff]
      exact Or.inl (by rw [hnk, hk])
    · rw [if_neg hk]
      cases hf : UMap.find g.seg.cache_map_ key with
      | some it =>
        obtain ⟨n, hn, hnk, _⟩ := (hwf.map_iff key it).mp hf
        have hev : g.seg.evicts (.put key value) = none := by
          simp only [LRUCacheSegment.evicts, hf]
        have hput := LRUCacheSegment.put_eq_update _ hwf n hn value
        rw [hnk] at hput
        rw [hput, hev]
        show (if none = some k then false else g.held k) = true
          ↔ k ∈ ({ handle := n.handle, key := key, value := value }
            :: withoutKey g.seg.cache_list_ key).map CacheNode.key
        rw [if_neg (by simp), h k]
        simp only [List.map_cons, List.mem_cons, List.mem_map]
        constructor
        · rintro ⟨x, hx, hxk⟩
          exact Or.inr ⟨x, (mem_withoutKey _ _ _).mpr ⟨hx, by rw [hxk]; exact hk⟩, hxk⟩
        · rintro (h1 | ⟨x, hx, hxk⟩)
          · exact absurd h1 hk
          · exact ⟨x, ((mem_withoutKey _ _ _).mp hx).1, hxk⟩
      | none =>
        have hput := LRUCacheSegment.put_eq_insert _ key value hf
        have hsame : g.seg.evictIfFull = g.seg → g.seg.evicts (.put key value) = none →
            ((if g.seg.evicts (.put key value) = some k then false else g.held k) = true
              ↔ k ∈ (g.seg.put key value).cache_list_.map CacheNode.key) := by
          intro he hev
          rw [hput, he, hev, if_neg (by simp), h k]
          show _ ↔ k ∈ ({ handle := g.seg.fresh, key := key, value := value }
            :: g.seg.cache_list_).map CacheNode.key
          simp only [List.map_cons, List.mem_cons]
          constructor
          · intro h1
            exact Or.inr h1
          · rintro (h1 | h1)
            · exact absurd h1 hk
            · exact h1
        by_cases hfull : g.seg.capacity_ ≤ g.seg.cache_list_.length
        · rcases List.eq_nil_or_concat g.seg.cache_list_ with hnil | ⟨front, last, hl⟩
          · apply hsame (LRUCacheSegment.evictIfFull_eq_empty _ hnil)
            simp only [LRUCacheSegment.evicts, hf, hnil, List.getLast?_nil, Option.map_none',
              ite_self]
          · rw [List.concat_eq_append] at hl
            have hev : g.seg.evicts (.put key value) = some last.key := by
              simp only [LRUCacheSegment.evicts, hf]
              rw [if_pos hfull, hl]
              simp
            have he := LRUCacheSegment.evictIfFull_eq_full _ front last hl hfull
            have hnd := hwf.keys_nodup
            rw [hl, List.map_append, List.nodup_append] at hnd
            have hlast : last.key ∉ front.map CacheNode.key := by
              intro hmem
              exact hnd.2.2 hmem (by simp)
            rw [hput, he, hev]
            show (if some last.key = some k then false else g.held k) = true
              ↔ k ∈ ({ handle := g.seg.fresh, key := key, value := value }
                :: front).map CacheNode.key
            simp only [List.map_cons, List.mem_cons]
            by_cases hkl : last.key = k
            · rw [if_pos (by rw [hkl])]
              simp only [Bool.false_eq_true, false_iff, not_or]
              exact ⟨hk, by rw [← hkl]; exact hlast⟩
            · rw [if_neg (by intro h1; exact hkl (Option.some.inj h1)), h k, hl]
              simp only [List.map_append, List.mem_append, List.map_cons, List.map_nil,
                List.mem_singleton]
              constructor
              · rintro (h1 | h1)
                · exact Or.inr h1
                · exact absurd h1.symm hkl
              · rintro (h1 | h1)
                · exact absurd h1 hk
                · exact Or.inl h1
        · apply hsame (LRUCacheSegment.evictIfFull_eq_room _ (Nat.lt_of_not_le hfull))
          simp only [LRUCacheSegment.evicts, hf, ge_iff_le, hfull, if_false]

theorem GhostSegment.held_run (C : Nat) (ops : List SegOp) :
    ∀ k, (GhostSegment.run C ops).held k = true
      ↔ k ∈ (GhostSegment.run C ops).seg.cache_list_.map CacheNode.key := by
  induction ops using List.reverseRecOn with
  | nil =>
    intro k
    simp [GhostSegment.run, LRUCacheSegment.ctor]
  | append_singleton l op ih =>
    rw [GhostSegment.ghost_run_snoc]
    exact GhostSegment.held_step _ (GhostSegment.ghost_run_wf C l) ih op

theorem TracedSegment.run_length_le (C : Nat) (hC : 0 < C) (ops : List SegOp) :
    (TracedSegment.run C ops).seg.cache_list_.length ≤ C := by
  induction ops using List.reverseRecOn with
  | nil => exact Nat.zero_le _
  | append_singleton l op ih =>
    have hinv := TracedSegment.traced_run_inv C l
    rw [TracedSegment.traced_run_snoc]
    cases op with
    | put key value =>
      show ((TracedSegment.run C l).seg.put key value).cache_list_.length ≤ C
      have h := LRUCacheSegment.length_put hinv.wf (by rw [hinv.cap]; exact hC)
        (by rw [hinv.cap]; exact ih) key value
      rw [hinv.cap] at h
      exact h
    | get key =>
      show ((TracedSegment.run C l).seg.get key).2.cache_list_.length ≤ C
      rw [LRUCacheSegment.length_get hinv.wf]
      exact ih
    | remove key =>
      show ((TracedSegment.run C l).seg.remove key).cache_list_.length ≤ C
      exact Nat.le_trans (LRUCacheSegment.length_remove hinv.wf key) ih

/-- C34 (representation invariant of a shard).  In every state of a shard of
capacity `C ≥ 1` reached from the empty shard by `put`, `get` and `remove`: the
list holds at most `C` nodes; no two nodes of the recency list have the same key and no two entries of the map
have the same key; a key is in the map exactly when it is in the list; the
iterator the map stores for a key designates a node of the list, and this node
holds that key; and `get(k)` hits exactly when some `put(k, _)` has not since
been followed by `remove(k)` or by the eviction of `k`. -/
theorem segment_representation_invariant (C : Nat) (hC : 0 < C) (ops : List SegOp) (k : Int) :
    ((GhostSegment.run C ops).seg.cache_list_.map CacheNode.key).Nodup ∧
    ((GhostSegment.run C ops).seg.cache_map_.map Prod.fst).Nodup ∧
    (k ∈ (GhostSegment.run C ops).seg.cache_map_.map Prod.fst ↔
      k ∈ (GhostSegment.run C ops).seg.cache_list_.map CacheNode.key) ∧
    (∀ it, UMap.find (GhostSegment.run C ops).seg.cache_map_ k = some it →
      ∃ n, nodeAt (GhostSegment.run C ops).seg.cache_list_ it = some n ∧ n.key = k ∧
        n.handle = it ∧ n ∈ (GhostSegment.run C ops).seg.cache_list_) ∧
    ((GhostSegment.run C ops).seg.get k).1.isSome = (GhostSegment.run C ops).held k ∧
    (GhostSegment.run C ops).seg.capacity_ = C ∧
    (GhostSegment.run C ops).seg.cache_list_.length ≤ C := by
  have hwf := GhostSegment.ghost_run_wf C ops
  refine ⟨hwf.keys_nodup, hwf.map_keys_nodup, ?_, ?_, ?_, ?_, ?_⟩
  · exact not_iff_not.mp ((UMap.find_eq_none_iff _ k).symm.trans (hwf.find_none_iff k))
  · intro it hf
    obtain ⟨n, hn, hnk, hnh⟩ := (hwf.map_iff k it).mp hf
    exact ⟨n, nodeAt_of_mem _ it n hwf.handles_nodup hn hnh, hnk, hnh, hn⟩
  · have hheld := GhostSegment.held_run C ops k
    have hnone := LRUCacheSegment.get_eq_none_iff hwf k
    cases hg : ((GhostSegment.run C ops).seg.get k).1 with
    | none =>
      have hnot := hnone.mp hg
      cases hh : (GhostSegment.run C ops).held k with
      | false => rfl
      | true => exact absurd (hheld.mp hh) hnot
    | some x =>
      have hin : k ∈ (GhostSegment.run C ops).seg.cache_list_.map CacheNode.key := by
        by_contra hnot
        rw [hnone.mpr hnot] at hg
        exact Option.noConfusion hg
      rw [hheld.mpr hin]
      rfl
  · rw [GhostSegment.ghost_run_seg]
    exact (TracedSegment.traced_run_inv C ops).cap
  · rw [GhostSegment.ghost_run_seg]
    exact TracedSegment.run_length_le C hC ops

theorem segment_representation_invariant_witness :
    (0 < 2) ∧
    ((GhostSegment.run 2 [.put 1 [10], .put 2 [20], .put 3 [30], .remove 2]).seg.get 1).1.isSome
      = false ∧
    ((GhostSegment.run 2 [.put 1 [10], .put 2 [20], .put 3 [30], .remove 2]).seg.get 3).1.isSome
      = true ∧
    (GhostSegment.run 2 [.put 1 [10], .put 2 [20], .put 3 [30], .remove 2]).held 1 = false ∧
    (GhostSegment.run 2 [.put 1 [10], .put 2 [20], .put 3 [30], .remove 2]).held 2 = false ∧
    (GhostSegment.run 2 [.put 1 [10], .put 2 [20], .put 3 [30], .remove 2]).held 3 = true :=
  ⟨by decide,
    ((segment_representation_invariant 2 (by decide)
      [.put 1 [10], .put 2 [20], .put 3 [30], .remove 2] 1).2.2.2.2.1).trans (by decide),
    ((segment_representation_invariant 2 (by decide)
      [.put 1 [10], .put 2 [20], .put 3 [30], .remove 2] 3).2.2.2.2.1).trans (by decide),
    by decide, by decide, by decide⟩

/-! ## The layout compaction leaves behind -/

theorem FileStore.layout_tiles (live : List ObjectMeta) :
    ∀ off, FileStore.Tiles off ((FileStore.layout off live).map Prod.snd)
      (off + (live.map ObjectMeta.size).sum) := by
  induction live with
  | nil =>
    intro off
    show off = off + 0
    rfl
  | cons m rest ih =>
    intro off
    show off = off ∧
      FileStore.Tiles (off + m.size) ((FileStore.layout (off + m.size) rest).map Prod.snd)
        (off + (m.size + (rest.map ObjectMeta.size).sum))
    rw [← Nat.add_assoc]
    exact ⟨rfl, ih (off + m.size)⟩

theorem FileStore.layout_offset_ge (live : List ObjectMeta) :
    ∀ off, ∀ e ∈ FileStore.layout off live, off ≤ e.2.offset := by
  induction live with
  | nil =>
    intro off e he
    exact absurd he (List.not_mem_nil _)
  | cons m rest ih =>
    intro off e he
    rcases List.mem_cons.mp he with h | h
    · rw [h]
    · exact Nat.le_trans (Nat.le_add_right _ _) (ih (off + m.size) e h)

theorem FileStore.layout_pairwise (live : List ObjectMeta) :
    ∀ off, ((FileStore.layout off live).map Prod.snd).Pairwise
      (fun a b => a.offset + a.size ≤ b.offset) := by
  induction live with
  | nil =>
    intro off
    exact List.Pairwise.nil
  | cons m rest ih =>
    intro off
    show (({ m with offset := off } : ObjectMeta)
      :: (FileStore.layout (off + m.size) rest).map Prod.snd).Pairwise _
    refine List.Pairwise.cons ?_ (ih (off + m.size))
    intro b hb
    obtain ⟨e, he, heb⟩ := List.mem_map.mp hb
    rw [← heb]
    exact FileStore.layout_offset_ge rest (off + m.size) e he

/-- C33 (the compacted layout is gap-free).  On every reachable store, after
`garbageCollect` the records of the index, in the order in which the compaction
wrote them, tile the data file: the first begins at 0, each next one begins
where the one before it ends, and the last ends at `file_size_`, which is the
length of the data file; every record ends at or before the offset of every
record written after it, so that no two records share a byte. -/
theorem filestore_gc_gap_free (ops : List FileOp) :
    FileStore.Tiles 0 (((FileStore.run ops).garbageCollect IoEnv.ok).index_.map Prod.snd)
      ((FileStore.run ops).garbageCollect IoEnv.ok).file_size_ ∧
    (((FileStore.run ops).garbageCollect IoEnv.ok).index_.map Prod.snd).Pairwise
      (fun a b => a.offset + a.size ≤ b.offset) ∧
    ((FileStore.run ops).garbageCollect IoEnv.ok).file_data.length
      = ((FileStore.run ops).garbageCollect IoEnv.ok).file_size_ ∧
    ((FileStore.run ops).garbageCollect IoEnv.ok).index_.map Prod.fst
      = (FileStore.run ops).liveObjects.map ObjectMeta.key := by
  have hs := FileStore.fs_run_inv ops
  have hgc := FileStore.garbageCollect_eq _ hs
  refine ⟨?_, ?_, (FileStore.Inv.fs_gc hs).size_eq.symm, ?_⟩
  · rw [hgc]
    have h := FileStore.layout_tiles (FileStore.run ops).liveObjects 0
    rw [Nat.zero_add] at h
    exact h
  · rw [hgc]
    exact FileStore.layout_pairwise _ 0
  · rw [hgc]
    exact FileStore.layout_keys _ 0

/-! ## The engine against a bare log store -/

theorem FileStore.SameUpToReads.same_refl (a : FileStore) : a.SameUpToReads a :=
  ⟨rfl, rfl, rfl, rfl⟩

theorem FileStore.SameUpToReads.same_symm {a b : FileStore} (h : a.SameUpToReads b) :
    b.SameUpToReads a :=
  ⟨h.1.symm, h.2.1.symm, h.2.2.1.symm, h.2.2.2.symm⟩

theorem FileStore.SameUpToReads.same_trans {a b c : FileStore} (h1 : a.SameUpToReads b)
    (h2 : b.SameUpToReads c) : a.SameUpToReads c :=
  ⟨h1.1.trans h2.1, h1.2.1.trans h2.2.1, h1.2.2.1.trans h2.2.2.1, h1.2.2.2.trans h2.2.2.2⟩

theorem FileStore.SameUpToReads.eq_with {a b : FileStore} (h : a.SameUpToReads b) :
    a = { b with read_count_ := a.read_count_ } := by
  obtain ⟨d, g, i, f, r⟩ := a
  obtain ⟨d1, g1, i1, f1, r1⟩ := b
  obtain ⟨h1, h2, h3, h4⟩ := h
  simp only at h1 h2 h3 h4
  subst h1 h2 h3 h4
  rfl

theorem FileStore.SameUpToReads.of_with (s : FileStore) (c : Nat) :
    ({ s with read_count_ := c } : FileStore).SameUpToReads s :=
  ⟨rfl, rfl, rfl, rfl⟩

theorem FileStore.SameUpToReads.put_congr {a b : FileStore} (h : a.SameUpToReads b)
    (hb : b.Inv) (k : Int) (v : Bytes) :
    (a.put k v IoEnv.ok).1 = (b.put k v IoEnv.ok).1 ∧
    (a.put k v IoEnv.ok).2.SameUpToReads (b.put k v IoEnv.ok).2 := by
  have ha : a.Inv := by
    rw [h.eq_with]
    exact hb.with_read_count _
  rw [FileStore.fs_put_eq a ha, FileStore.fs_put_eq b hb]
  exact ⟨rfl, by rw [h.1], h.2.1, by rw [h.2.2.1, h.2.2.2], by rw [h.2.2.2]⟩

theorem FileStore.SameUpToReads.get_congr {a b : FileStore} (h : a.SameUpToReads b)
    (hb : b.Inv) (k : Int) :
    (a.get k IoEnv.ok).1 = (b.get k IoEnv.ok).1 ∧
    (a.get k IoEnv.ok).2.SameUpToReads (b.get k IoEnv.ok).2 := by
  have ha : a.Inv := by
    rw [h.eq_with]
    exact hb.with_read_count _
  constructor
  · rw [h.eq_with]
    exact FileStore.get_with_read_count b _ k IoEnv.ok
  · obtain ⟨c1, h1⟩ := FileStore.get_state a ha k
    obtain ⟨c2, h2⟩ := FileStore.get_state b hb k
    rw [h1, h2]
    exact ((FileStore.SameUpToReads.of_with a c1).same_trans h).same_trans
      (FileStore.SameUpToReads.of_with b c2).same_symm

theorem FileStore.SameUpToReads.del_congr {a b : FileStore} (h : a.SameUpToReads b)
    (k : Int) :
    (a.del k).1 = (b.del k).1 ∧ (a.del k).2.SameUpToReads (b.del k).2 := by
  have hi : a.index_ = b.index_ := h.2.2.1
  cases hf : UMap.find b.index_ k with
  | none =>
    rw [FileStore.del_eq_absent a k (by rw [hi]; exact hf), FileStore.del_eq_absent b k hf]
    exact ⟨rfl, h⟩
  | some m =>
    cases hd : m.deleted with
    | true =>
      rw [FileStore.del_eq_deleted a k m (by rw [hi]; exact hf) hd,
        FileStore.del_eq_deleted b k m hf hd]
      exact ⟨rfl, h⟩
    | false =>
      rw [FileStore.del_eq_live a k m (by rw [hi]; exact hf) hd,
        FileStore.del_eq_live b k m hf hd]
      refine ⟨rfl, h.1, h.2.1, ?_, h.2.2.2⟩
      show UMap.assign a.index_ k _ = UMap.assign b.index_ k _
      rw [hi]

theorem FileStore.SameUpToReads.gc_congr {a b : FileStore} (h : a.SameUpToReads b)
    (hb : b.Inv) :
    (a.garbageCollect IoEnv.ok).SameUpToReads (b.garbageCollect IoEnv.ok) := by
  have ha : a.Inv := by
    rw [h.eq_with]
    exact hb.with_read_count _
  have hl : a.liveObjects = b.liveObjects := by
    unfold FileStore.liveObjects
    rw [h.2.2.1]
  rw [FileStore.garbageCollect_eq a ha, FileStore.garbageCollect_eq b hb]
  exact ⟨by rw [h.1, hl], rfl, by rw [hl], by rw [hl]⟩

theorem FileStore.SameUpToReads.restart_congr {a b : FileStore} (h : a.SameUpToReads b)
    (hb : b.Inv) (gc_pending : Bool) :
    (FileStore.ctor (a.dtor gc_pending IoEnv.ok) false).SameUpToReads
      (FileStore.ctor (b.dtor gc_pending IoEnv.ok) false) := by
  have ha : a.Inv := by
    rw [h.eq_with]
    exact hb.with_read_count _
  cases gc_pending with
  | false =>
    rw [FileStore.restart_eq_plain a ha, FileStore.restart_eq_plain b hb]
    exact h
  | true =>
    rw [FileStore.restart_eq_compacting a ha, FileStore.restart_eq_compacting b hb]
    exact h.gc_congr hb

theorem StorageEngine.put_file_store (e : StorageEngine) (k : Int) (v : Bytes) (io : IoEnv) :
    (e.put k v io).1 = (e.file_store_.put k v io).1 ∧
    (e.put k v io).2.file_store_ = (e.file_store_.put k v io).2 := by
  unfold StorageEngine.put
  cases h : (e.file_store_.put k v io).1 with
  | true => simp [h]
  | false => simp [h]

theorem StorageEngine.get_file_store (e : StorageEngine) (he : e.Inv) (k : Int) :
    (e.get k IoEnv.ok).2.file_store_.SameUpToReads e.file_store_ := by
  have hg : (e.file_store_.get k IoEnv.ok).2.SameUpToReads e.file_store_ := by
    obtain ⟨c, hc⟩ := FileStore.get_state e.file_store_ he.store k
    rw [hc]
    exact FileStore.SameUpToReads.of_with _ c
  unfold StorageEngine.get
  split
  · exact FileStore.SameUpToReads.same_refl _
  · dsimp only
    split
    · exact hg
    · exact hg

theorem StorageEngine.run_file_store (N S : Nat) (ops : List EngineOp) :
    (StorageEngine.run N S ops).file_store_.SameUpToReads
      (FileStore.run (ops.map EngineOp.toFileOp)) := by
  induction ops using List.reverseRecOn with
  | nil => exact FileStore.SameUpToReads.same_refl _
  | append_singleton l op ih =>
    have he := StorageEngine.eng_run_inv N S l
    have hs := FileStore.fs_run_inv (l.map EngineOp.toFileOp)
    rw [StorageEngine.eng_run_snoc, List.map_append, List.map_singleton, FileStore.fs_run_snoc]
    cases op with
    | put k v =>
      show ((StorageEngine.run N S l).put k v IoEnv.ok).2.file_store_.SameUpToReads
        ((FileStore.run (l.map EngineOp.toFileOp)).put k v IoEnv.ok).2
      rw [(StorageEngine.put_file_store _ k v IoEnv.ok).2]
      exact (ih.put_congr hs k v).2
    | get k =>
      show ((StorageEngine.run N S l).get k IoEnv.ok).2.file_store_.SameUpToReads
        ((FileStore.run (l.map EngineOp.toFileOp)).get k IoEnv.ok).2
      obtain ⟨c, hc⟩ := FileStore.get_state _ hs k
      rw [hc]
      exact ((StorageEngine.get_file_store _ he k).same_trans ih).same_trans
        (FileStore.SameUpToReads.of_with _ c).same_symm
    | del k =>
      show ((StorageEngine.run N S l).file_store_.del k).2.SameUpToReads
        ((FileStore.run (l.map EngineOp.toFileOp)).del k).2
      exact (ih.del_congr k).2
    | garbageCollect =>
      show ((StorageEngine.run N S l).file_store_.garbageCollect IoEnv.ok).SameUpToReads
        ((FileStore.run (l.map EngineOp.toFileOp)).garbageCollect IoEnv.ok)
      exact ih.gc_congr hs
    | restart b =>
      show (FileStore.ctor ((StorageEngine.run N S l).file_store_.dtor b IoEnv.ok)
          false).SameUpToReads
        (FileStore.ctor ((FileStore.run (l.map EngineOp.toFileOp)).dtor b IoEnv.ok) false)
      exact ih.restart_congr hs b

/-- C31 (the cache is observationally transparent).  For every cache
configuration `N`, `S` and every sequence of sequential calls without device
errors (`put`, `get`, `del`, `garbageCollect`, and restarts), the next call on
the engine returns the same result as the same call on a bare log store driven
by the same sequence, and the log store inside the engine agrees with the bare
one in the data file, the stream state, the index and `file_size_`: only the
read counter may differ. -/
theorem engine_cache_transparent (N S : Nat) (ops : List EngineOp) (op : EngineOp) :
    (StorageEngine.run N S ops).result op
      = (FileStore.run (ops.map EngineOp.toFileOp)).result op.toFileOp ∧
    (StorageEngine.run N S ops).file_store_.SameUpToReads
      (FileStore.run (ops.map EngineOp.toFileOp)) := by
  have hsame := StorageEngine.run_file_store N S ops
  have he := StorageEngine.eng_run_inv N S ops
  have hs := FileStore.fs_run_inv (ops.map EngineOp.toFileOp)
  refine ⟨?_, hsame⟩
  cases op with
  | put k v =>
    show OpResult.flag ((StorageEngine.run N S ops).put k v IoEnv.ok).1
      = OpResult.flag ((FileStore.run (ops.map EngineOp.toFileOp)).put k v IoEnv.ok).1
    rw [(StorageEngine.put_file_store _ k v IoEnv.ok).1, (hsame.put_congr hs k v).1]
  | get k =>
    show OpResult.bytes ((StorageEngine.run N S ops).get k IoEnv.ok).1
      = OpResult.bytes ((FileStore.run (ops.map EngineOp.toFileOp)).get k IoEnv.ok).1
    rw [StorageEngine.eng_get_value _ he k, (hsame.get_congr hs k).1]
  | del k =>
    show OpResult.flag ((StorageEngine.run N S ops).file_store_.del k).1
      = OpResult.flag ((FileStore.run (ops.map EngineOp.toFileOp)).del k).1
    rw [(hsame.del_congr k).1]
  | garbageCollect => rfl
  | restart b => rfl

/-- The read counters of the engine and of the bare log store do differ: a
`get` that the cache answers is not counted. -/
theorem engine_read_count_differs :
    (StorageEngine.run 4 2 [.put 1 [10], .get 1]).file_store_.read_count_ = 0 ∧
    (FileStore.run [.put 1 [10], .get 1]).read_count_ = 1 := by
  decide

/-! ## Calls on one key and reads of another -/

theorem FileStore.get_put_ne (s : FileStore) (hs : s.Inv) (k k1 : Int) (v : Bytes)
    (hne : k ≠ k1) :
    ((s.put k v IoEnv.ok).2.get k1 IoEnv.ok).1 = (s.get k1 IoEnv.ok).1 := by
  have hs1 := hs.fs_put k v
  have hf : UMap.find (s.put k v IoEnv.ok).2.index_ k1 = UMap.find s.index_ k1 := by
    rw [FileStore.find_put s hs, if_neg hne]
  cases hfind : UMap.find s.index_ k1 with
  | none =>
    rw [FileStore.get_eq_absent _ k1 _ (hf.trans hfind), FileStore.get_eq_absent _ k1 _ hfind]
  | some m =>
    cases hd : m.deleted with
    | true =>
      rw [FileStore.get_eq_deleted _ k1 m _ (hf.trans hfind) hd,
        FileStore.get_eq_deleted _ k1 m _ hfind hd]
    | false =>
      rw [FileStore.get_eq_live _ hs1 k1 m (hf.trans hfind) hd,
        FileStore.get_eq_live _ hs k1 m hfind hd]
      show readAt (s.put k v IoEnv.ok).2.file_data m.offset m.size
        = readAt s.file_data m.offset m.size
      rw [FileStore.fs_put_eq s hs]
      have hr := hs.in_range _ (UMap.mem_of_find _ _ _ hfind)
      exact readAt_append_left _ _ _ _ (by rw [← hs.size_eq]; exact hr)

theorem FileStore.get_del_ne (s : FileStore) (hs : s.Inv) (k k1 : Int) (hne : k ≠ k1) :
    ((s.del k).2.get k1 IoEnv.ok).1 = (s.get k1 IoEnv.ok).1 := by
  have hs1 := hs.fs_del k
  have hf := FileStore.find_del_ne s k k1 hne
  cases hfind : UMap.find s.index_ k1 with
  | none =>
    rw [FileStore.get_eq_absent _ k1 _ (hf.trans hfind), FileStore.get_eq_absent _ k1 _ hfind]
  | some m =>
    cases hd : m.deleted with
    | true =>
      rw [FileStore.get_eq_deleted _ k1 m _ (hf.trans hfind) hd,
        FileStore.get_eq_deleted _ k1 m _ hfind hd]
    | false =>
      rw [FileStore.get_eq_live _ hs1 k1 m (hf.trans hfind) hd,
        FileStore.get_eq_live _ hs k1 m hfind hd]
      show readAt (s.del k).2.file_data m.offset m.size = readAt s.file_data m.offset m.size
      rw [FileStore.del_file_data]

/-- C32 (mutations are per-key).  In every reachable engine state and for
keys `k ≠ k1`, `get(k1)` returns after `put(k, v)` and after `del(k)` what it
returned before the call, whether or not `k1` is in the cache before or after
the call. -/
theorem engine_mutations_per_key (N S : Nat) (ops : List EngineOp) (k k1 : Int) (v : Bytes)
    (hne : k ≠ k1) :
    (((StorageEngine.run N S ops).put k v IoEnv.ok).2.get k1 IoEnv.ok).1
      = ((StorageEngine.run N S ops).get k1 IoEnv.ok).1 ∧
    (((StorageEngine.run N S ops).del k).2.get k1 IoEnv.ok).1
      = ((StorageEngine.run N S ops).get k1 IoEnv.ok).1 := by
  have he := StorageEngine.eng_run_inv N S ops
  constructor
  · rw [StorageEngine.eng_get_value _ (he.eng_put k v), StorageEngine.eng_get_value _ he,
      (StorageEngine.put_file_store _ k v IoEnv.ok).2]
    exact FileStore.get_put_ne _ he.store k k1 v hne
  · rw [StorageEngine.eng_get_value _ (he.eng_del k), StorageEngine.eng_get_value _ he,
      StorageEngine.del_file_store]
    exact FileStore.get_del_ne _ he.store k k1 hne

theorem engine_mutations_per_key_witness :
    ((2 : Int) ≠ 1) ∧
    (((StorageEngine.run 1 1 [.put 1 [10]]).put 2 [20] IoEnv.ok).2.cache_.get 1).1 = none ∧
    (((StorageEngine.run 1 1 [.put 1 [10]]).put 2 [20] IoEnv.ok).2.get 1 IoEnv.ok).1
      = ((StorageEngine.run 1 1 [.put 1 [10]]).get 1 IoEnv.ok).1 ∧
    (((StorageEngine.run 1 1 [.put 1 [10]]).del 2).2.get 1 IoEnv.ok).1
      = ((StorageEngine.run 1 1 [.put 1 [10]]).get 1 IoEnv.ok).1 :=
  ⟨by decide, by decide, engine_mutations_per_key 1 1 [.put 1 [10]] 2 1 [20] (by decide)⟩

/-! ## Invariants after a `put` whose flush fails -/

/-- C7 (the cache is not backed after a `put` whose flush fails).  On a fresh
engine with cache capacity 100 and 8 shards, `put(1, "ab")` whose write reaches
the stream but whose flush fails returns `true`; afterwards the cache holds
`(1, "ab")` and the index has the record `(1, 0, 2, false)`, which is not
tombstoned, but the data file holds no byte: the bytes of the record are not
`"ab"`.  The engine answers `get(1)` with `"ab"` from the cache while its log
store answers `get(1)` with the empty string. -/
theorem engine_cache_unbacked_flush_failure :
    ((StorageEngine.ctor Disk.empty 100 8).put 1 [97, 98]
      { write_ok := true, flush_ok := false, read_ok := true, tmp_ok := true }).1 = true ∧
    (((StorageEngine.ctor Disk.empty 100 8).put 1 [97, 98]
      { write_ok := true, flush_ok := false, read_ok := true, tmp_ok := true }).2.cache_.get
        1).1 = some [97, 98] ∧
    UMap.find ((StorageEngine.ctor Disk.empty 100 8).put 1 [97, 98]
      { write_ok := true, flush_ok := false, read_ok := true, tmp_ok := true }).2.file_store_.index_
        1 = some (ObjectMeta.mk 1 0 2 false) ∧
    readAt ((StorageEngine.ctor Disk.empty 100 8).put 1 [97, 98]
      { write_ok := true, flush_ok := false, read_ok := true, tmp_ok := true }).2.file_store_.file_data
        0 2 = [] ∧
    (((StorageEngine.ctor Disk.empty 100 8).put 1 [97, 98]
      { write_ok := true, flush_ok := false, read_ok := true, tmp_ok := true }).2.get 1
        IoEnv.ok).1 = [97, 98] ∧
    (((StorageEngine.ctor Disk.empty 100 8).put 1 [97, 98]
      { write_ok := true, flush_ok := false, read_ok := true, tmp_ok := true }).2.file_store_.get 1
        IoEnv.ok).1 = [] := by
  decide

/-- C10 (the index is not sound after a `put` whose flush fails).  On a fresh
store, `put(1, "ab")` whose write reaches the stream but whose flush fails
returns `true` and leaves the record `(1, 0, 2, false)` in the index with
`file_size_` 2, so that `offset + size ≤ file_size_` holds, while the data file
is empty: the 2 bytes from offset 0 on are not there, and what can be read at
the record is not `"ab"`, the value of the `put`. -/
theorem filestore_index_unsound_flush_failure :
    ((FileStore.ctor Disk.empty false).put 1 [97, 98]
      { write_ok := true, flush_ok := false, read_ok := true, tmp_ok := true }).1 = true ∧
    (1, ObjectMeta.mk 1 0 2 false) ∈ ((FileStore.ctor Disk.empty false).put 1 [97, 98]
      { write_ok := true, flush_ok := false, read_ok := true, tmp_ok := true }).2.index_ ∧
    ((FileStore.ctor Disk.empty false).put 1 [97, 98]
      { write_ok := true, flush_ok := false, read_ok := true, tmp_ok := true }).2.file_size_
      = 2 ∧
    ((FileStore.ctor Disk.empty false).put 1 [97, 98]
      { write_ok := true, flush_ok := false, read_ok := true, tmp_ok := true }).2.file_data
      = [] ∧
    readAt ((FileStore.ctor Disk.empty false).put 1 [97, 98]
      { write_ok := true, flush_ok := false, read_ok := true, tmp_ok := true }).2.file_data 0 2
      ≠ [97, 98] := by
  decide

end KVStorageEngine
